import Mathlib

/-!
# mcfetcher: the sanitizer, the kind-key parser and the fetch worker

A shallow embedding of `pkg/util/util.go`, `pkg/config/config.go` and
`cmd/fetch/fetch.go`.

* A record (`unstructured.Unstructured`) is its `Object`, a Go
  `map[string]interface{}`.  Go maps are modelled as association lists:
  reading takes the first entry of a key, writing replaces that entry in
  place (or appends one), deleting removes every entry of the key.
* The accessors of `k8s.io/apimachinery/.../unstructured` that the program
  calls (`NestedFieldNoCopy`, `NestedString`, `NestedStringMap`,
  `SetNestedField`, `RemoveNestedField`, `GetName`, ...) are embedded next to
  the code that calls them.
* A compiled `*regexp.Regexp` is the predicate its `MatchString` computes.
* A Go map that the program ranges over (`pathValueFilters`) is the list of
  its entries in the order the iteration visits them; every statement is
  for all such orders.
* Logging has no effect on results and is left out.
-/

namespace Mcfetcher

/-! ## Values -/

/-- A JSON-like value: what a `map[string]interface{}` of an unstructured record holds. -/
inductive JVal where
  | null
  | bool (b : Bool)
  | num (n : Int)
  | str (s : String)
  | arr (items : List JVal)
  | obj (fields : List (String × JVal))

/-- The `Object` of an `unstructured.Unstructured`: `map[string]interface{}`. -/
abbrev JMap := List (String × JVal)

/-- Go `v, ok := m[k]`. -/
def mapGet {α : Type} : List (String × α) → String → Option α
  | [], _ => none
  | (k', v) :: rest, k => if k' = k then some v else mapGet rest k

/-- Go `m[k] = v`. -/
def mapSet {α : Type} : List (String × α) → String → α → List (String × α)
  | [], k, v => [(k, v)]
  | (k', v') :: rest, k, v => if k' = k then (k, v) :: rest else (k', v') :: mapSet rest k v

/-- Go `delete(m, k)`. -/
def mapDelete {α : Type} : List (String × α) → String → List (String × α)
  | [], _ => []
  | (k', v') :: rest, k => if k' = k then mapDelete rest k else (k', v') :: mapDelete rest k

/-- A compiled regular expression, as the predicate `re.MatchString`. -/
structure Regexp where
  MatchString : String → Bool

/-! ## Strings -/

/-- Split a character list at every occurrence of `sep`. -/
def splitChars (sep : Char) : List Char → List (List Char)
  | [] => [[]]
  | c :: cs =>
    if c = sep then [] :: splitChars sep cs
    else
      match splitChars sep cs with
      | [] => [[c]]
      | h :: t => (c :: h) :: t

/-- Go `strings.Split(s, sep)` for a one-character separator. -/
def stringsSplit (s : String) (sep : Char) : List String :=
  (splitChars sep s.data).map String.mk

/-- Go `strings.TrimPrefix(s, "/")`. -/
def trimLeadingSlash (s : String) : String :=
  match s.data with
  | '/' :: cs => String.mk cs
  | _ => s

/-- Source: `pathToSegments` in util.go. -/
def pathToSegments (path : String) : List String :=
  stringsSplit (trimLeadingSlash path) '/'

/-! ## Accessors of the unstructured package -/

/-- An error of a nested accessor. -/
inductive AccessError where
  | notMap (fields : List String)
  | notString (fields : List String)
  | notStringMap (fields : List String)
  | noFields
deriving DecidableEq, Repr

/-- The loop of `NestedFieldNoCopy`, from the value reached so far:
`.ok (some v)` is found, `.ok none` is not found. -/
def nestedFrom : JVal → List String → Except AccessError (Option JVal)
  | v, [] => .ok (some v)
  | .null, _ :: _ => .ok none
  | .obj m, f :: fs =>
    match mapGet m f with
    | none => .ok none
    | some v => nestedFrom v fs
  | _, f :: _ => .error (.notMap [f])

/-- The `unstructured.NestedFieldNoCopy(obj, fields...)`. -/
def NestedFieldNoCopy (obj : JMap) (fields : List String) : Except AccessError (Option JVal) :=
  nestedFrom (.obj obj) fields

/-- The `unstructured.NestedString(obj, fields...)`. -/
def NestedString (obj : JMap) (fields : List String) : Except AccessError (Option String) :=
  match NestedFieldNoCopy obj fields with
  | .error e => .error e
  | .ok none => .ok none
  | .ok (some (.str s)) => .ok (some s)
  | .ok (some _) => .error (.notString fields)

/-- The conversion loop of `NestedStringMap`: every value must be a string. -/
def toStringMap : JMap → Option (List (String × String))
  | [] => some []
  | (k, .str s) :: rest =>
    match toStringMap rest with
    | some r => some ((k, s) :: r)
    | none => none
  | _ :: _ => none

/-- The `unstructured.NestedStringMap(obj, fields...)`. -/
def NestedStringMap (obj : JMap) (fields : List String) :
    Except AccessError (Option (List (String × String))) :=
  match NestedFieldNoCopy obj fields with
  | .error e => .error e
  | .ok none => .ok none
  | .ok (some (.obj m)) =>
    match toStringMap m with
    | some sm => .ok (some sm)
    | none => .error (.notStringMap fields)
  | .ok (some _) => .error (.notMap fields)

/-- The `setNestedFieldNoCopy(obj, value, fields...)`; Go panics on an empty
`fields`, which is the error `noFields` here. -/
def setNestedFieldNoCopy : JMap → JVal → List String → Except AccessError JMap
  | _, _, [] => .error .noFields
  | m, v, [f] => .ok (mapSet m f v)
  | m, v, f :: f' :: fs =>
    match mapGet m f with
    | some (.obj sub) =>
      match setNestedFieldNoCopy sub v (f' :: fs) with
      | .ok sub' => .ok (mapSet m f (.obj sub'))
      | .error e => .error e
    | some _ => .error (.notMap [f])
    | none =>
      match setNestedFieldNoCopy [] v (f' :: fs) with
      | .ok sub' => .ok (mapSet m f (.obj sub'))
      | .error e => .error e

/-- The `unstructured.SetNestedField(obj, value, fields...)`: the value is deep-copied,
which is the identity on immutable values. -/
def SetNestedField (obj : JMap) (value : JVal) (fields : List String) : Except AccessError JMap :=
  setNestedFieldNoCopy obj value fields

/-- The `unstructured.RemoveNestedField(obj, fields...)`.  Go panics on an empty `fields`
(left unchanged here); `pathToSegments` never returns one. -/
def RemoveNestedField : JMap → List String → JMap
  | m, [] => m
  | m, [f] => mapDelete m f
  | m, f :: f' :: fs =>
    match mapGet m f with
    | some (.obj sub) => mapSet m f (.obj (RemoveNestedField sub (f' :: fs)))
    | _ => m

/-- The method `u.setNestedField`: the error of `SetNestedField` is discarded, and a
failed call has changed nothing. -/
def setNestedFieldIgnoringError (obj : JMap) (value : JVal) (fields : List String) : JMap :=
  match SetNestedField obj value fields with
  | .ok m => m
  | .error _ => obj

/-- The helper `getNestedString`: the empty string when absent or in error. -/
def getNestedString (obj : JMap) (fields : List String) : String :=
  match NestedString obj fields with
  | .ok (some s) => s
  | _ => ""

/-- The method `GetName`. -/
def GetName (obj : JMap) : String := getNestedString obj ["metadata", "name"]

/-- The method `GetNamespace`. -/
def GetNamespace (obj : JMap) : String := getNestedString obj ["metadata", "namespace"]

/-- The method `GetAPIVersion`. -/
def GetAPIVersion (obj : JMap) : String := getNestedString obj ["apiVersion"]

/-- The method `GetKind`. -/
def GetKind (obj : JMap) : String := getNestedString obj ["kind"]

/-- The method `SetName`. -/
def SetName (obj : JMap) (name : String) : JMap :=
  if name.length = 0 then RemoveNestedField obj ["metadata", "name"]
  else setNestedFieldIgnoringError obj (.str name) ["metadata", "name"]

/-- The method `SetNamespace`. -/
def SetNamespace (obj : JMap) (ns : String) : JMap :=
  if ns.length = 0 then RemoveNestedField obj ["metadata", "namespace"]
  else setNestedFieldIgnoringError obj (.str ns) ["metadata", "namespace"]

/-- The method `SetAPIVersion`. -/
def SetAPIVersion (obj : JMap) (version : String) : JMap :=
  setNestedFieldIgnoringError obj (.str version) ["apiVersion"]

/-- The method `SetKind`. -/
def SetKind (obj : JMap) (kind : String) : JMap :=
  setNestedFieldIgnoringError obj (.str kind) ["kind"]

/-- The method `GetAnnotations`: a nil map (`none`) when absent or in error. -/
def GetAnnotations (obj : JMap) : Option (List (String × String)) :=
  match NestedStringMap obj ["metadata", "annotations"] with
  | .ok r => r
  | .error _ => none

/-- The method `GetLabels`. -/
def GetLabels (obj : JMap) : Option (List (String × String)) :=
  match NestedStringMap obj ["metadata", "labels"] with
  | .ok r => r
  | .error _ => none

/-- The `SetNestedStringMap` conversion of a `map[string]string`. -/
def ofStringMap (m : List (String × String)) : JMap :=
  m.map (fun kv => (kv.1, JVal.str kv.2))

/-- The method `SetAnnotations` on a non-nil map (the only use in `Sanitize`). -/
def SetAnnotations (obj : JMap) (annotations : List (String × String)) : JMap :=
  match setNestedFieldNoCopy obj (.obj (ofStringMap annotations)) ["metadata", "annotations"] with
  | .ok m => m
  | .error _ => obj

/-- The method `SetLabels` on a non-nil map (the only use in `Sanitize`). -/
def SetLabels (obj : JMap) (labels : List (String × String)) : JMap :=
  match setNestedFieldNoCopy obj (.obj (ofStringMap labels)) ["metadata", "labels"] with
  | .ok m => m
  | .error _ => obj

/-- The method `GetDeletionTimestamp`.  `parseTime s` is `time.Parse(time.RFC3339, s)`
as an instant counted from Go's zero time, `none` when the text does not parse.
The result is `none` for Go's nil. -/
def GetDeletionTimestamp (parseTime : String → Option Int) (obj : JMap) : Option Int :=
  let str := getNestedString obj ["metadata", "deletionTimestamp"]
  if str.length = 0 then none
  else if str = "null" then none
  else
    match parseTime str with
    | some t => if t = 0 then none else some t
    | none => none

/-! ## The sanitizer (pkg/util/util.go) -/

/-- Source: `matchesAny` in util.go. -/
def matchesAny (s : String) : List Regexp → Bool
  | [] => false
  | re :: rest => if re.MatchString s then true else matchesAny s rest

/-- Source: `genKey` in util.go. -/
def genKey (obj : JMap) : String :=
  if (GetNamespace obj).length > 0 then GetNamespace obj ++ "/" ++ GetName obj
  else GetName obj

/-- The two wrapped errors of `copyNestedField`. -/
inductive CopyError where
  | getNestedMap (cause : AccessError)
  | setNestedMap (cause : AccessError)
deriving DecidableEq, Repr

/-- The two wrapped errors of `Sanitize`. -/
inductive SanitizeError where
  | getNestedMap (key path : String) (cause : AccessError)
  | copyNestedField (cause : CopyError)
deriving DecidableEq, Repr

/-- Source: `copyNestedField` in util.go.  The result is `found` and the new state of
`newObj`, which the Go code mutates in place. -/
def copyNestedField (origObj newObj : JMap) (fields : List String) :
    Except CopyError (Bool × JMap) :=
  match NestedFieldNoCopy origObj fields with
  | .error e => .error (.getNestedMap e)
  | .ok none => .ok (false, newObj)
  | .ok (some v) =>
    match SetNestedField newObj v fields with
    | .error e => .error (.setNestedMap e)
    | .ok newObj' => .ok (true, newObj')

/-- The loop over `pathValueFilters` of `Sanitize` (util.go 161-175), in the order the
range visits the entries: `.ok true` when the loop runs to its end, `.ok false` when a
value does not match (the record is dropped), an error when a path is malformed. -/
def checkPathValueFilters (obj : JMap) (key : String) :
    List (String × Regexp) → Except SanitizeError Bool
  | [] => .ok true
  | (path, valueRegexp) :: rest =>
    match NestedString obj (pathToSegments path) with
    | .error e => .error (.getNestedMap key path e)
    | .ok (some v) =>
      if !valueRegexp.MatchString v then .ok false
      else checkPathValueFilters obj key rest
    | .ok none => checkPathValueFilters obj key rest

/-- The loop `sanAnn[k] = v` for the keys that match (util.go 185-189, 196-200): the
sub-map of the entries whose key matches a pattern. -/
def keepMatching (m : List (String × String)) (keep : List Regexp) : List (String × String) :=
  m.filter (fun kv => matchesAny kv.1 keep)

/-- The identity fields of the new record (util.go 176-182). -/
def identityRecord (obj : JMap) : JMap :=
  let sanObj : JMap := []
  let sanObj := SetName sanObj (GetName obj)
  let sanObj := SetNamespace sanObj (GetNamespace obj)
  let sanObj := SetAPIVersion sanObj (GetAPIVersion obj)
  SetKind sanObj (GetKind obj)

/-- The annotations step (util.go 183-193). -/
def copyAnnotations (obj sanObj : JMap) (keepAnnotations : List Regexp) : JMap :=
  match GetAnnotations obj with
  | some ann =>
    let sanAnn := keepMatching ann keepAnnotations
    if sanAnn.length > 0 then SetAnnotations sanObj sanAnn else sanObj
  | none => sanObj

/-- The labels step (util.go 194-204). -/
def copyLabels (obj sanObj : JMap) (keepLabels : List Regexp) : JMap :=
  match GetLabels obj with
  | some lab =>
    let sanLab := keepMatching lab keepLabels
    if sanLab.length > 0 then SetLabels sanObj sanLab else sanObj
  | none => sanObj

/-- The loop over `keepPaths` (util.go 205-214). -/
def copyKeepPaths (obj : JMap) : JMap → List String → Except SanitizeError JMap
  | sanObj, [] => .ok sanObj
  | sanObj, path :: rest =>
    match copyNestedField obj sanObj (pathToSegments path) with
    | .error e => .error (.copyNestedField e)
    | .ok (_, sanObj') => copyKeepPaths obj sanObj' rest

/-- The loop over `ignorePaths` (util.go 215-218). -/
def removeIgnorePaths : JMap → List String → JMap
  | sanObj, [] => sanObj
  | sanObj, path :: rest =>
    removeIgnorePaths (RemoveNestedField sanObj (stringsSplit (trimLeadingSlash path) '/')) rest

/-- Source: `Sanitize` in util.go.  `.ok none` is Go's `(nil, nil)`, `.ok (some r)` is
`(r, nil)` and `.error e` is `(nil, e)`. -/
def Sanitize (parseTime : String → Option Int) (obj : JMap) (ignoreNames : List Regexp)
    (pathValueFilters : List (String × Regexp)) (keepAnnotations keepLabels : List Regexp)
    (keepPaths ignorePaths : List String) (keepDeleted : Bool) :
    Except SanitizeError (Option JMap) :=
  let key := genKey obj
  if matchesAny key ignoreNames then .ok none
  else if (GetDeletionTimestamp parseTime obj).isSome && !keepDeleted then .ok none
  else
    match checkPathValueFilters obj key pathValueFilters with
    | .error e => .error e
    | .ok false => .ok none
    | .ok true =>
      let sanObj := identityRecord obj
      let sanObj := copyAnnotations obj sanObj keepAnnotations
      let sanObj := copyLabels obj sanObj keepLabels
      match copyKeepPaths obj sanObj keepPaths with
      | .error e => .error e
      | .ok sanObj => .ok (some (removeIgnorePaths sanObj ignorePaths))

/-! ## The kind-key parser (pkg/config/config.go) -/

/-- Cut a character list at the first `sep`: the text before it and the text after it,
or `none` when `sep` does not occur. -/
def cutFirst (sep : Char) : List Char → Option (List Char × List Char)
  | [] => none
  | c :: cs =>
    if c = sep then some ([], cs)
    else
      match cutFirst sep cs with
      | some (a, b) => some (c :: a, b)
      | none => none

/-- Go `strings.SplitN(s, sep, 2)` for a one-character separator. -/
def stringsSplitN2 (s : String) (sep : Char) : List String :=
  match cutFirst sep s.data with
  | none => [s]
  | some (a, b) => [String.mk a, String.mk b]

/-- Source: `versionRegexp` in config.go, the pattern `^v[\d]+`: the text starts with
`v` and at least one ASCII digit. -/
def versionRegexp : Regexp :=
  ⟨fun s =>
    match s.data with
    | 'v' :: c :: _ => c.isDigit
    | _ => false⟩

/-- Source: `parseGVKString` in config.go; the result is `(group, version, kind)`. -/
def parseGVKString (gvkString : String) : String × String × String :=
  match stringsSplitN2 gvkString '.' with
  | [] => ("", "", "")
  | [kind] => ("", "", kind)
  | kind :: rest :: _ =>
    match stringsSplitN2 rest '.' with
    | [] => (rest, "", kind)
    | [_] => (rest, "", kind)
    | vk0 :: vk1 :: _ =>
      if versionRegexp.MatchString vk0 then (vk1, vk0, kind)
      else (rest, "", kind)

/-- The text of `s` before its first dot (all of `s` when it has none). -/
def beforeFirstDot (s : String) : String := String.mk (s.data.takeWhile (fun c => c != '.'))

/-- The text of `s` after its first dot. -/
def afterFirstDot (s : String) : String := String.mk ((s.data.dropWhile (fun c => c != '.')).drop 1)

/-- Whether `s` contains a dot. -/
def hasDot (s : String) : Bool := decide ('.' ∈ s.data)

/-- The kind-key algorithm as the specification words it, `(group, version, kind)`:
split at the first dot into `kind` and `rest`; with no dot the key is the kind alone;
when `rest` has no further dot it is the group, unless it matches the version pattern,
in which case it is the version; when `rest` splits into `head` and `tail`, a `head`
that matches the version pattern is the version and `tail` the group, otherwise all of
`rest` is the group. -/
def parseGVKDocumented (key : String) : String × String × String :=
  if !hasDot key then ("", "", key)
  else
    let kind := beforeFirstDot key
    let rest := afterFirstDot key
    if !hasDot rest then
      if versionRegexp.MatchString rest then ("", rest, kind) else (rest, "", kind)
    else if versionRegexp.MatchString (beforeFirstDot rest) then
      (afterFirstDot rest, beforeFirstDot rest, kind)
    else (rest, "", kind)

/-- Source: `GVK` in config.go; `PathValueFilters` is the map in iteration order. -/
structure GVK where
  KeepLabels : List Regexp
  KeepAnnotations : List Regexp
  KeepPaths : List String
  IgnorePaths : List String
  IgnoreNames : List Regexp
  PathValueFilters : List (String × Regexp)
  GroupVersionKind : String × String × String

/-! ## The cache file and the worker (pkg/util/util.go, cmd/fetch/fetch.go) -/

/-- A Go slice `[]*unstructured.Unstructured`: `none` is the nil slice, an element
`none` a nil pointer. -/
abbrev RawObjects := Option (List (Option JMap))

/-- What a file holds: the JSON document its bytes are, or bytes that are not JSON. -/
inductive FileContent where
  | json (doc : JVal)
  | notJson

/-- A path of the file system that exists: a readable file, or one that `os.Stat`,
`os.Open` or `ioutil.ReadAll` fails on. -/
inductive FileNode where
  | file (content : FileContent)
  | ioError

/-- The file system: `none` at a path that does not exist. -/
abbrev FileSystem := String → Option FileNode

/-- The `json.Marshal` of a `[]*unstructured.Unstructured`: a nil slice encodes as the
JSON null, a nil pointer as null, a record as the object of its fields. -/
def jsonMarshal : RawObjects → JVal
  | none => .null
  | some l => .arr (l.map (fun o => match o with
    | none => JVal.null
    | some m => JVal.obj m))

/-- The `json.Unmarshal` of one element into a `*unstructured.Unstructured`: null gives
a nil pointer, an object is decoded by `Unstructured.UnmarshalJSON`, which refuses an
object without a kind. -/
def jsonUnmarshalItem : JVal → Option (Option JMap)
  | .null => some none
  | .obj m => if (GetKind m).length = 0 then none else some (some m)
  | _ => none

/-- The `json.Unmarshal` of a document into a nil `[]*unstructured.Unstructured`: null
leaves the slice nil, an array gives a non-nil slice, anything else is an error
(`none`). -/
def jsonUnmarshal : JVal → Option RawObjects
  | .null => some none
  | .arr items =>
    match items.mapM jsonUnmarshalItem with
    | some l => some (some l)
    | none => none
  | _ => none

/-- The errors of `ReadRawObjects` and `WriteRawObjects`. -/
inductive CacheError where
  | fileAccess
  | unmarshal
  | write
deriving DecidableEq, Repr

/-- Source: `ReadRawObjects` in util.go. -/
def ReadRawObjects (fs : FileSystem) (path : String) : Except CacheError RawObjects :=
  match fs path with
  | none => .ok none
  | some .ioError => .error .fileAccess
  | some (.file .notJson) => .error .unmarshal
  | some (.file (.json doc)) =>
    match jsonUnmarshal doc with
    | some l => .ok l
    | none => .error .unmarshal

/-- Source: `WriteRawObjects` in util.go; `writeOk` is whether `ioutil.WriteFile`
succeeds.  The result is the file system after the call. -/
def WriteRawObjects (fs : FileSystem) (writeOk : Bool) (path : String) (rawObjects : RawObjects) :
    Except CacheError FileSystem :=
  if writeOk then
    .ok (fun p => if p = path then some (.file (.json (jsonMarshal rawObjects))) else fs p)
  else .error .write

/-- Source: `kvErr` in pkg/errors/errors.go, without the cause. -/
structure KvErr where
  message : String
  keysAndValues : List String
deriving DecidableEq, Repr

/-- Go `append(l, x)` on a slice that may be nil. -/
def sliceAppend (l : RawObjects) (x : JMap) : RawObjects :=
  match l with
  | none => some [some x]
  | some xs => some (xs ++ [some x])

/-- The loop of `extractList` (fetch.go 166-179) from the slice built so far: the final
slice and the errors sent to `errCh`, in order.  `keepDeleted` is the last argument of
`Sanitize`, which the call in fetch.go does not pass.  Of the keys and values of the error
the `gvk` is shortened to the kind. -/
def extractItems (parseTime : String → Option Int) (gvkConfig : GVK) (keepDeleted : Bool) :
    RawObjects → List JMap → RawObjects × List KvErr
  | l, [] => (l, [])
  | l, uObj :: rest =>
    match Sanitize parseTime uObj gvkConfig.IgnoreNames gvkConfig.PathValueFilters
        gvkConfig.KeepAnnotations gvkConfig.KeepLabels gvkConfig.KeepPaths
        gvkConfig.IgnorePaths keepDeleted with
    | .error _ =>
      let r := extractItems parseTime gvkConfig keepDeleted l rest
      (r.1, ⟨"failed to sanitize", ["gvk", GetKind uObj, "name", GetName uObj]⟩ :: r.2)
    | .ok (some sanObj) => extractItems parseTime gvkConfig keepDeleted (sliceAppend l sanObj) rest
    | .ok none => extractItems parseTime gvkConfig keepDeleted l rest

/-- Source: `extractList` in fetch.go.  `object` is the outcome of `meta.ExtractList`
on the fetched list.  The result is the returned pair and the errors sent to `errCh`. -/
def extractList (parseTime : String → Option Int) (object : Except String (List JMap))
    (gvkConfig : GVK) (keepDeleted : Bool) : Except String RawObjects × List KvErr :=
  match object with
  | .error e => (.error e, [])
  | .ok items =>
    let r := extractItems parseTime gvkConfig keepDeleted none items
    (.ok r.1, r.2)

/-- The outcomes of the calls the worker makes outside this program for one
(context, kind) pair. -/
structure PairEnv where
  clientConfig : Except String Unit
  client : Except String Unit
  list : Except String (Except String (List JMap))
  writeOk : Bool

/-- What one pass of the worker's inner loop did: the file system after it, the error
built with `oerrors.New` on the branch that abandons the pair (if any), the values
returned by the calls of `Sanitize` it made, the errors sent to `errCh`, and whether
the cluster was called. -/
structure PairResult where
  fs : FileSystem
  failure : Option KvErr
  sanitizeResults : List (Except SanitizeError (Option JMap))
  sent : List KvErr
  calledKube : Bool

/-- The values returned by the calls of `Sanitize` that `extractList` makes. -/
def sanitizeCalls (parseTime : String → Option Int) (object : Except String (List JMap))
    (gvkConfig : GVK) (keepDeleted : Bool) : List (Except SanitizeError (Option JMap)) :=
  match object with
  | .error _ => []
  | .ok items =>
    items.map (fun uObj =>
      Sanitize parseTime uObj gvkConfig.IgnoreNames gvkConfig.PathValueFilters
        gvkConfig.KeepAnnotations gvkConfig.KeepLabels gvkConfig.KeepPaths
        gvkConfig.IgnorePaths keepDeleted)

/-- The body of the inner loop of `worker` (fetch.go 93-155) for one (context, kind)
pair whose cache file is `filename`. -/
def workerPair (parseTime : String → Option Int) (keepDeleted : Bool) (context gvkString : String)
    (gvkConfig : GVK) (env : PairEnv) (filename : String) (fs : FileSystem) : PairResult :=
  match ReadRawObjects fs filename with
  | .error _ =>
    let e : KvErr := ⟨"failed to read cached records",
      ["gvk", gvkString, "context", context, "filename", filename]⟩
    ⟨fs, some e, [], [e], false⟩
  | .ok (some _) => ⟨fs, none, [], [], false⟩
  | .ok none =>
    match env.clientConfig with
    | .error _ =>
      let e : KvErr := ⟨"failed to get rest config", ["gvk", gvkString, "context", context]⟩
      ⟨fs, some e, [], [e], false⟩
    | .ok _ =>
      match env.client with
      | .error _ =>
        let e : KvErr := ⟨"failed to create client (is proxy configured correctly?)",
          ["gvk", gvkString, "context", context]⟩
        ⟨fs, some e, [], [e], false⟩
      | .ok _ =>
        match env.list with
        | .error _ =>
          ⟨fs, some ⟨"failed to list", ["gvk", gvkString, "context", context]⟩, [], [], true⟩
        | .ok rawList =>
          let calls := sanitizeCalls parseTime rawList gvkConfig keepDeleted
          match extractList parseTime rawList gvkConfig keepDeleted with
          | (.error _, sent) =>
            ⟨fs, some ⟨"failed to extract list", ["gvk", gvkString, "context", context]⟩,
              calls, sent, true⟩
          | (.ok rawObjects, sent) =>
            match WriteRawObjects fs env.writeOk filename rawObjects with
            | .error _ =>
              ⟨fs, some ⟨"failed to write records", ["gvk", gvkString, "context", context]⟩,
                calls, sent, true⟩
            | .ok fs' => ⟨fs', none, calls, sent, true⟩

/-- The inner loop of `worker` over `gvkConfigs` (in iteration order) for one context:
the results of the pairs, in order, from the file system `fs`.  `mkFilename context
gvkString` is `util.MkCacheFilename(workDir, context, gvkString, "json")`. -/
def workerContext (parseTime : String → Option Int) (keepDeleted : Bool)
    (mkFilename : String → String → String) (env : String → String → PairEnv)
    (context : String) : FileSystem → List (String × GVK) → List PairResult
  | _, [] => []
  | fs, (gvkString, gvkConfig) :: rest =>
    let r := workerPair parseTime keepDeleted context gvkString gvkConfig
      (env context gvkString) (mkFilename context gvkString) fs
    r :: workerContext parseTime keepDeleted mkFilename env context r.fs rest

/-- The file system after a sequence of pair results, from `fs`. -/
def lastFs (fs : FileSystem) : List PairResult → FileSystem
  | [] => fs
  | r :: rest => lastFs r.fs rest

/-- The work of all workers (fetch.go 64-77): the results of all (context, kind) pairs.
Each context is handled by one worker; the contexts are taken one after the other, the
interleaving of the ten workers is not modelled. -/
def runWorkers (parseTime : String → Option Int) (keepDeleted : Bool)
    (mkFilename : String → String → String) (env : String → String → PairEnv)
    (gvkConfigs : List (String × GVK)) : FileSystem → List String → List PairResult
  | _, [] => []
  | fs, context :: rest =>
    let rs := workerContext parseTime keepDeleted mkFilename env context fs gvkConfigs
    rs ++ runWorkers parseTime keepDeleted mkFilename env gvkConfigs (lastFs fs rs) rest

/-- The number of errors the workers send to `errCh`. -/
def sentCount (results : List PairResult) : Nat :=
  (results.map (fun r => r.sent.length)).sum

/-- The `errorCount` of `Cmd` as the test of line 81 reads it (fetch.go 55-62, 77-84).
The goroutine of lines 57-62 adds one for every error it receives from `errCh`.  `Cmd`
waits for the workers, not for that goroutine, and reads the variable right after
`close(errCh)`, without synchronisation.  `counted` is the number of errors that goroutine
has counted when the variable is read: it is the value read, and it is never more than
the number of errors sent.  The capacity of `errCh` bounds how far the counter can lag
behind; that bound is not modelled, so every number up to the number sent is admitted. -/
def errorCount (counted : Nat) (results : List PairResult) : Nat :=
  min counted (sentCount results)

/-- The exit status of `Cmd` (fetch.go 81-84). -/
def exitStatus (counted : Nat) (results : List PairResult) : Nat :=
  if errorCount counted results > 0 then 1 else 0

/-- The three abandon branches of `worker` that send their error to `errCh`. -/
def sentStage (e : KvErr) : Bool :=
  e.message = "failed to read cached records" || e.message = "failed to get rest config" ||
    e.message = "failed to create client (is proxy configured correctly?)"

/-! ## The cache file name (pkg/util/util.go) -/

/-- One element of a path in `filepath.Clean`, on the elements kept so far (the last one
first): an empty element and `.` are skipped, `..` removes the last kept element when
there is one that is not `..`, is kept when the path is not rooted, and is dropped at
the root; any other element is kept. -/
def cleanStep (rooted : Bool) (kept : List (List Char)) (elem : List Char) : List (List Char) :=
  if elem = [] ∨ elem = ['.'] then kept
  else if elem = ['.', '.'] then
    match kept with
    | [] => if rooted then [] else [['.', '.']]
    | top :: rest => if top = ['.', '.'] then (if rooted then kept else elem :: kept) else rest
  else elem :: kept

/-- The elements `filepath.Clean` keeps of a path, the last one first. -/
def cleanElems (rooted : Bool) (path : List Char) : List (List Char) :=
  (splitChars '/' path).foldl (cleanStep rooted) []

/-- Elements joined by `/`. -/
def joinElems : List (List Char) → List Char
  | [] => []
  | [e] => e
  | e :: e' :: rest => e ++ '/' :: joinElems (e' :: rest)

/-- The path `filepath.Clean` writes for the kept elements (the last one first): `/` in
front when rooted, `.` when nothing is left. -/
def renderElems (rooted : Bool) (kept : List (List Char)) : List Char :=
  if rooted then '/' :: joinElems kept.reverse
  else if kept = [] then ['.']
  else joinElems kept.reverse

/-- Whether a path starts with the separator. -/
def isRooted : List Char → Bool
  | '/' :: _ => true
  | _ => false

/-- Go `filepath.Clean(path)`, with `/` as the separator. -/
def filepathClean (path : String) : String :=
  String.mk (renderElems (isRooted path.data) (cleanElems (isRooted path.data) path.data))

/-- Go `filepath.Join(a, b)`: the non-empty elements joined by `/` and cleaned, the empty
string when both are empty. -/
def filepathJoin (a b : String) : String :=
  if a = "" then (if b = "" then "" else filepathClean b)
  else filepathClean (a ++ "/" ++ b)

/-- Source: `MkCacheFilename` in util.go.  `mkdirAll d` is whether `os.MkdirAll(d, 0751)`
succeeds; the error is the one of `ensureDir`. -/
def MkCacheFilename (mkdirAll : String → Bool) (workDir context gvkString ext : String) :
    Except String String :=
  let d := filepathJoin workDir gvkString
  if mkdirAll d then .ok (filepathJoin d (context ++ "." ++ ext))
  else .error "failed to ensure directory"

/-- The kept elements of a cleaned path are well formed: no element is empty, is `.` or
holds a separator, and `..` stands only on top of other `..` (or first), and only when
the path is not rooted. -/
def keptOk (rooted : Bool) : List (List Char) → Prop
  | [] => True
  | e :: rest =>
    keptOk rooted rest ∧ e ≠ [] ∧ '/' ∉ e ∧ e ≠ ['.'] ∧
      (e = ['.', '.'] → rooted = false ∧ ∀ top ∈ rest.head?, top = ['.', '.'])

/-- A plain path segment: not empty, without a separator, and neither `.` nor `..`. -/
def isPathSegment (s : String) : Prop :=
  s.data ≠ [] ∧ '/' ∉ s.data ∧ s.data ≠ ['.'] ∧ s.data ≠ ['.', '.']

/-! ## The allow-list of a sanitized record -/

/-- The paths of the four identity fields that `Sanitize` copies. -/
def identityPaths : List (List String) :=
  [["apiVersion"], ["kind"], ["metadata", "name"], ["metadata", "namespace"]]

/-- The field paths a sanitized record may hold under the keep-paths `keepPaths`: an
identity field, a key under `metadata/annotations` or `metadata/labels` (or a mapping on
the way to one of these), or a path that lies on, under or above a keep-path. -/
def allowedPath (keepPaths : List String) (p : List String) : Prop :=
  (∃ q ∈ identityPaths, p <+: q) ∨
  (∃ k, p <+: ["metadata", "annotations", k]) ∨
  (∃ k, p <+: ["metadata", "labels", k]) ∨
  (∃ kp ∈ keepPaths, p <+: pathToSegments kp ∨ pathToSegments kp <+: p)

/-! ## Records with the same fields -/

/-- The value of a field that is not a mapping; `none` for a mapping. -/
def leafOf : JVal → Option JVal
  | .obj _ => none
  | v => some v

/-- Every field path found under `a` is found under `b`, with the same value when the
value is not a mapping (and a mapping when it is one). -/
def subVal (a b : JVal) : Prop :=
  ∀ p v, nestedFrom a p = .ok (some v) → ∃ w, nestedFrom b p = .ok (some w) ∧ leafOf w = leafOf v

/-- The fields of the record `a` are fields of the record `b`. -/
def subFields (a b : JMap) : Prop := subVal (.obj a) (.obj b)

/-- Two records hold the same fields: the same field paths, with the same values.  This is
the equality of Go maps, which have no order of keys. -/
def sameFields (a b : JMap) : Prop := subFields a b ∧ subFields b a

/-- The paths that a pass of `Sanitize` over `obj` writes: the two identity fields that
are always set, the name and the namespace when not empty, the keys of the kept
annotations and labels, and the keep-paths that resolve in `obj`. -/
def producedPath (obj : JMap) (keepAnnotations keepLabels : List Regexp) (keepPaths : List String)
    (q : List String) : Prop :=
  q = ["apiVersion"] ∨ q = ["kind"] ∨
  (q = ["metadata", "name"] ∧ GetName obj ≠ "") ∨
  (q = ["metadata", "namespace"] ∧ GetNamespace obj ≠ "") ∨
  (∃ k s, q = ["metadata", "annotations", k] ∧
    mapGet (keepMatching ((GetAnnotations obj).getD []) keepAnnotations) k = some s) ∨
  (∃ k s, q = ["metadata", "labels", k] ∧
    mapGet (keepMatching ((GetLabels obj).getD []) keepLabels) k = some s) ∨
  (∃ kp ∈ keepPaths, q = pathToSegments kp ∧ ∃ v, NestedFieldNoCopy obj q = .ok (some v))

/-! ## Example inputs -/

/-- A time parser that knows one instant. -/
def exampleParseTime : String → Option Int :=
  fun s => if s = "2020-01-01T00:00:00Z" then some 63713433600 else none

/-- The pattern `^kube-system/` of the examples, as a predicate. -/
def reKubeSystem : Regexp := ⟨fun s => s.data.take 12 = "kube-system/".data⟩

/-- The pattern `^Running$`. -/
def reRunning : Regexp := ⟨fun s => s = "Running"⟩

/-- The pattern `^app\.`. -/
def reApp : Regexp := ⟨fun s => s.data.take 4 = "app.".data⟩

/-- A pod in `kube-system` whose `status` is a string, not a mapping. -/
def podDns : JMap :=
  [("apiVersion", .str "v1"), ("kind", .str "Pod"),
   ("metadata", .obj [("name", .str "dns"), ("namespace", .str "kube-system")]),
   ("status", .str "Running")]

/-- A pending pod with two annotations, one label and a spec. -/
def podWeb : JMap :=
  [("apiVersion", .str "v1"), ("kind", .str "Pod"),
   ("metadata", .obj [("name", .str "web"), ("namespace", .str "default"),
     ("annotations", .obj [("app.owner", .str "x"), ("other", .str "y")]),
     ("labels", .obj [("app.tier", .str "front")])]),
   ("spec", .obj [("nodeName", .str "n1"), ("priority", .num 3)]),
   ("status", .obj [("phase", .str "Pending")])]

/-- A pod without a status, whose `spec` is a string. -/
def podBare : JMap :=
  [("apiVersion", .str "v1"), ("kind", .str "Pod"),
   ("metadata", .obj [("name", .str "bare")]),
   ("spec", .str "opaque")]

/-- The record `Sanitize` returns for `podWeb` under the patterns `^app\.`, the keep-path
`spec/nodeName` and the ignore-path `status`. -/
def podWebSanitized : JMap :=
  [("metadata", .obj [("name", .str "web"), ("namespace", .str "default"),
     ("annotations", .obj [("app.owner", .str "x")]),
     ("labels", .obj [("app.tier", .str "front")])]),
   ("apiVersion", .str "v1"), ("kind", .str "Pod"),
   ("spec", .obj [("nodeName", .str "n1")])]

/-- The empty file system. -/
def emptyFs : FileSystem := fun _ => none

/-- A policy with the single filter `status/phase=^Running$`. -/
def gvkRunning : GVK :=
  { KeepLabels := [], KeepAnnotations := [reApp], KeepPaths := ["spec/nodeName"],
    IgnorePaths := [], IgnoreNames := [reKubeSystem],
    PathValueFilters := [("status/phase", reRunning)],
    GroupVersionKind := ("", "", "pod") }

/-- A pair whose cluster calls all succeed and return `items`. -/
def envReturning (items : List JMap) : PairEnv :=
  { clientConfig := .ok (), client := .ok (), list := .ok (.ok items), writeOk := true }

/-- The pattern `^web$`. -/
def reWeb : Regexp := ⟨fun s => s = "web"⟩

/-- The pattern `^Pod$`. -/
def rePod : Regexp := ⟨fun s => s = "Pod"⟩

/-- The record `Sanitize` returns for `podWeb` under the ignore-path
`metadata/namespace` alone. -/
def podWebNoNamespace : JMap :=
  [("metadata", .obj [("name", .str "web")]), ("apiVersion", .str "v1"), ("kind", .str "Pod")]

/-- The record `Sanitize` returns for `podWeb` when `spec/nodeName` is both the keep-path
and the ignore-path. -/
def podWebEmptySpec : JMap :=
  [("metadata", .obj [("name", .str "web"), ("namespace", .str "default")]),
   ("apiVersion", .str "v1"), ("kind", .str "Pod"), ("spec", .obj [])]

/-- The identity fields of `podWeb`. -/
def podWebIdentity : JMap :=
  [("metadata", .obj [("name", .str "web"), ("namespace", .str "default")]),
   ("apiVersion", .str "v1"), ("kind", .str "Pod")]

/-- A record without a `kind`. -/
def podNoKind : JMap :=
  [("apiVersion", .str "v1"), ("metadata", .obj [("name", .str "nokind")])]

/-- The record `Sanitize` returns for `podNoKind`: the `kind` is the empty string. -/
def podNoKindSanitized : JMap :=
  [("metadata", .obj [("name", .str "nokind")]), ("apiVersion", .str "v1"), ("kind", .str "")]

/-! ## Theorems -/

/-- C1. Early-drop rules of `Sanitize`: when the identity key `genKey` of the record
matches one of `ignoreNames`, or the record has a non-nil deletion timestamp while
`keepDeleted` is false, `Sanitize` returns `(nil, nil)`, whatever the filters, the
keep/ignore paths and the label/annotation patterns are. -/
theorem Sanitize_early_drop (parseTime : String → Option Int) (obj : JMap)
    (ignoreNames : List Regexp) (pathValueFilters : List (String × Regexp))
    (keepAnnotations keepLabels : List Regexp) (keepPaths ignorePaths : List String)
    (keepDeleted : Bool)
    (h : matchesAny (genKey obj) ignoreNames = true ∨
      ((GetDeletionTimestamp parseTime obj).isSome = true ∧ keepDeleted = false)) :
    Sanitize parseTime obj ignoreNames pathValueFilters keepAnnotations keepLabels
      keepPaths ignorePaths keepDeleted = .ok none := by
  unfold Sanitize
  rcases h with h | ⟨hd, hk⟩
  · simp [h]
  · simp [hd, hk]

/-- Witness for `Sanitize_early_drop`: a pod of `kube-system` is dropped by name although
its `status/phase` filter target is malformed. -/
theorem Sanitize_early_drop_witness :
    (matchesAny (genKey podDns) [reKubeSystem] = true ∨
      ((GetDeletionTimestamp exampleParseTime podDns).isSome = true ∧ false = false)) ∧
    Sanitize exampleParseTime podDns [reKubeSystem] [("status/phase", reRunning)] [] []
      ["spec"] [] false = .ok none :=
  ⟨Or.inl (by decide),
    Sanitize_early_drop exampleParseTime podDns [reKubeSystem] [("status/phase", reRunning)]
      [] [] ["spec"] [] false (Or.inl (by decide))⟩

/-! ### Path-value filters -/

/-- The filter loop runs to its end when every filter target is missing or matches. -/
theorem checkPathValueFilters_pass (obj : JMap) (key : String) (filters : List (String × Regexp))
    (h : ∀ f ∈ filters, NestedString obj (pathToSegments f.1) = .ok none ∨
      ∃ v, NestedString obj (pathToSegments f.1) = .ok (some v) ∧ f.2.MatchString v = true) :
    checkPathValueFilters obj key filters = .ok true := by
  induction filters with
  | nil => rfl
  | cons f rest ih =>
    obtain ⟨path, re⟩ := f
    have ih' := ih (fun g hg => h g (List.mem_cons_of_mem _ hg))
    rcases h (path, re) (List.mem_cons_self _ _) with h0 | ⟨v, h1, h2⟩
    · simp only [] at h0
      simp [checkPathValueFilters, h0, ih']
    · simp only [] at h1 h2
      simp [checkPathValueFilters, h1, h2, ih']

/-- The filter loop drops the record when no target is malformed and one does not match. -/
theorem checkPathValueFilters_drop (obj : JMap) (key : String) (filters : List (String × Regexp))
    (hok : ∀ f ∈ filters, ∃ r, NestedString obj (pathToSegments f.1) = .ok r)
    (h : ∃ f ∈ filters, ∃ v, NestedString obj (pathToSegments f.1) = .ok (some v) ∧
      f.2.MatchString v = false) :
    checkPathValueFilters obj key filters = .ok false := by
  induction filters with
  | nil => simp at h
  | cons f rest ih =>
    obtain ⟨path, re⟩ := f
    obtain ⟨r, hr⟩ := hok (path, re) (List.mem_cons_self _ _)
    simp only [] at hr
    cases r with
    | none =>
      obtain ⟨g, hg, v, hv, hm⟩ := h
      rcases List.mem_cons.1 hg with rfl | hg'
      · simp [hr] at hv
      · simp only [checkPathValueFilters, hr]
        exact ih (fun g hg => hok g (List.mem_cons_of_mem _ hg)) ⟨g, hg', v, hv, hm⟩
    | some w =>
      by_cases hw : re.MatchString w = true
      · obtain ⟨g, hg, v, hv, hm⟩ := h
        rcases List.mem_cons.1 hg with rfl | hg'
        · simp only [] at hv hm
          rw [hr] at hv
          cases hv
          simp [hw] at hm
        · simp only [checkPathValueFilters, hr, hw]
          exact ih (fun g hg => hok g (List.mem_cons_of_mem _ hg)) ⟨g, hg', v, hv, hm⟩
      · simp [checkPathValueFilters, hr, hw]

/-- The filter loop fails when one target is malformed and no filter drops the record. -/
theorem checkPathValueFilters_malformed (obj : JMap) (key : String)
    (filters : List (String × Regexp))
    (hother : ∀ f ∈ filters, (∃ e, NestedString obj (pathToSegments f.1) = .error e) ∨
      NestedString obj (pathToSegments f.1) = .ok none ∨
      ∃ v, NestedString obj (pathToSegments f.1) = .ok (some v) ∧ f.2.MatchString v = true)
    (hmal : ∃ f ∈ filters, ∃ e, NestedString obj (pathToSegments f.1) = .error e) :
    ∃ e, checkPathValueFilters obj key filters = .error e := by
  induction filters with
  | nil => simp at hmal
  | cons f rest ih =>
    obtain ⟨path, re⟩ := f
    have step : (∃ g ∈ rest, ∃ e, NestedString obj (pathToSegments g.1) = .error e) →
        ∃ e, checkPathValueFilters obj key rest = .error e :=
      ih (fun g hg => hother g (List.mem_cons_of_mem _ hg))
    rcases hother (path, re) (List.mem_cons_self _ _) with ⟨e, he⟩ | h0 | ⟨v, h1, h2⟩
    · simp only [] at he
      exact ⟨.getNestedMap key path e, by simp [checkPathValueFilters, he]⟩
    · simp only [] at h0
      obtain ⟨g, hg, e, he⟩ := hmal
      rcases List.mem_cons.1 hg with rfl | hg'
      · simp [h0] at he
      · simp only [checkPathValueFilters, h0]
        exact step ⟨g, hg', e, he⟩
    · simp only [] at h1 h2
      obtain ⟨g, hg, e, he⟩ := hmal
      rcases List.mem_cons.1 hg with rfl | hg'
      · simp [h1] at he
      · simp only [checkPathValueFilters, h1, h2]
        exact step ⟨g, hg', e, he⟩

/-- Past the filters, `Sanitize` returns a record or an error, never `(nil, nil)`. -/
theorem Sanitize_after_filters_ne_absent (obj sanObj : JMap) (keepPaths ignorePaths : List String) :
    (match copyKeepPaths obj sanObj keepPaths with
      | .error e => (.error e : Except SanitizeError (Option JMap))
      | .ok s => .ok (some (removeIgnorePaths s ignorePaths))) ≠ .ok none := by
  cases copyKeepPaths obj sanObj keepPaths <;> simp

/-- C2. Path-value filters, missing is not failing: for a record that is not excluded by
name and not dropped for pending deletion, and whose filter paths each resolve to a
string or do not resolve (no error), `Sanitize` returns `(nil, nil)` if and only if some
filter path resolves to a string that its regex does not match.  A filter whose path is
missing never drops the record. -/
theorem Sanitize_absent_iff_filter_mismatch (parseTime : String → Option Int) (obj : JMap)
    (ignoreNames : List Regexp) (pathValueFilters : List (String × Regexp))
    (keepAnnotations keepLabels : List Regexp) (keepPaths ignorePaths : List String)
    (keepDeleted : Bool)
    (hname : matchesAny (genKey obj) ignoreNames = false)
    (hdel : ¬ ((GetDeletionTimestamp parseTime obj).isSome = true ∧ keepDeleted = false))
    (hres : ∀ f ∈ pathValueFilters, (∃ v, NestedString obj (pathToSegments f.1) = .ok (some v)) ∨
      NestedString obj (pathToSegments f.1) = .ok none) :
    Sanitize parseTime obj ignoreNames pathValueFilters keepAnnotations keepLabels
        keepPaths ignorePaths keepDeleted = .ok none ↔
      ∃ f ∈ pathValueFilters, ∃ v, NestedString obj (pathToSegments f.1) = .ok (some v) ∧
        f.2.MatchString v = false := by
  have hdel' : ((GetDeletionTimestamp parseTime obj).isSome && !keepDeleted) = false := by
    cases h1 : (GetDeletionTimestamp parseTime obj).isSome <;> cases h2 : keepDeleted <;>
      simp_all
  have hok : ∀ f ∈ pathValueFilters, ∃ r, NestedString obj (pathToSegments f.1) = .ok r := by
    intro f hf
    rcases hres f hf with ⟨v, hv⟩ | h0
    · exact ⟨_, hv⟩
    · exact ⟨_, h0⟩
  unfold Sanitize
  simp only [hname, hdel', Bool.false_eq_true, if_false]
  by_cases hex : ∃ f ∈ pathValueFilters, ∃ v,
      NestedString obj (pathToSegments f.1) = .ok (some v) ∧ f.2.MatchString v = false
  · rw [checkPathValueFilters_drop obj _ _ hok hex]
    simp [hex]
  · have hall : ∀ f ∈ pathValueFilters, NestedString obj (pathToSegments f.1) = .ok none ∨
        ∃ v, NestedString obj (pathToSegments f.1) = .ok (some v) ∧ f.2.MatchString v = true := by
      intro f hf
      rcases hres f hf with ⟨v, hv⟩ | h0
      · right
        refine ⟨v, hv, ?_⟩
        cases hm : f.2.MatchString v with
        | true => rfl
        | false => exact absurd ⟨f, hf, v, hv, hm⟩ hex
      · exact Or.inl h0
    rw [checkPathValueFilters_pass obj _ _ hall]
    simp only [hex, iff_false]
    exact Sanitize_after_filters_ne_absent _ _ _ _

/-- Witness for `Sanitize_absent_iff_filter_mismatch`: with the filter
`status/phase=^Running$`, the pending pod is dropped. -/
theorem Sanitize_absent_iff_filter_mismatch_witness :
    Sanitize exampleParseTime podWeb [reKubeSystem] [("status/phase", reRunning)] [reApp] []
        ["spec/nodeName"] [] false = .ok none ↔
      ∃ f ∈ [("status/phase", reRunning)], ∃ v,
        NestedString podWeb (pathToSegments f.1) = .ok (some v) ∧ f.2.MatchString v = false :=
  Sanitize_absent_iff_filter_mismatch exampleParseTime podWeb [reKubeSystem]
    [("status/phase", reRunning)] [reApp] [] ["spec/nodeName"] [] false (by decide)
    (by decide)
    (by
      intro f hf
      simp only [List.mem_singleton] at hf
      subst hf
      exact Or.inl ⟨"Pending", rfl⟩)

/-- The example of the specification: with the filter `status/phase=^Running$` a pending
pod is dropped and a pod without `status.phase` is kept. -/
theorem Sanitize_filter_examples :
    Sanitize exampleParseTime podWeb [] [("status/phase", reRunning)] [] [] [] [] false =
      .ok none ∧
    Sanitize exampleParseTime podBare [] [("status/phase", reRunning)] [] [] [] [] false =
      .ok (some [("metadata", .obj [("name", .str "bare")]), ("apiVersion", .str "v1"),
        ("kind", .str "Pod")]) :=
  ⟨rfl, rfl⟩

/-! ### Maps -/

/-- Reading a key after writing it gives the value written. -/
theorem mapGet_mapSet_self {α : Type} (m : List (String × α)) (k : String) (v : α) :
    mapGet (mapSet m k v) k = some v := by
  induction m with
  | nil => simp [mapSet, mapGet]
  | cons e rest ih =>
    obtain ⟨k', v'⟩ := e
    by_cases h : k' = k <;> simp [mapSet, mapGet, h, ih]

/-- Writing a key does not change what another key reads. -/
theorem mapGet_mapSet_of_ne {α : Type} (m : List (String × α)) (k k' : String) (v : α)
    (h : k' ≠ k) : mapGet (mapSet m k v) k' = mapGet m k' := by
  induction m with
  | nil => simp [mapSet, mapGet, Ne.symm h]
  | cons e rest ih =>
    obtain ⟨a, b⟩ := e
    by_cases ha : a = k
    · subst ha
      simp [mapSet, mapGet, Ne.symm h]
    · by_cases hb : a = k' <;> simp [mapSet, mapGet, ha, hb, ih, h]

/-- A deleted key is absent. -/
theorem mapGet_mapDelete_self {α : Type} (m : List (String × α)) (k : String) :
    mapGet (mapDelete m k) k = none := by
  induction m with
  | nil => simp [mapDelete, mapGet]
  | cons e rest ih =>
    obtain ⟨a, b⟩ := e
    by_cases ha : a = k <;> simp [mapDelete, mapGet, ha, ih]

/-- Deleting a key does not change what another key reads. -/
theorem mapGet_mapDelete_of_ne {α : Type} (m : List (String × α)) (k k' : String)
    (h : k' ≠ k) : mapGet (mapDelete m k) k' = mapGet m k' := by
  induction m with
  | nil => simp [mapDelete, mapGet]
  | cons e rest ih =>
    obtain ⟨a, b⟩ := e
    by_cases ha : a = k
    · subst ha
      simp [mapDelete, mapGet, Ne.symm h, ih]
    · by_cases hb : a = k' <;> simp [mapDelete, mapGet, ha, hb, ih, h]

/-- Writing the value a key already holds changes nothing. -/
theorem mapSet_of_mapGet {α : Type} (m : List (String × α)) (k : String) (v : α)
    (h : mapGet m k = some v) : mapSet m k v = m := by
  induction m with
  | nil => simp [mapGet] at h
  | cons e rest ih =>
    obtain ⟨a, b⟩ := e
    by_cases ha : a = k
    · subst ha
      simp [mapGet] at h
      simp [mapSet, h]
    · simp [mapGet, ha] at h
      simp [mapSet, ha, ih h]

/-! ### Paths -/

/-- One step of the walk through a mapping. -/
theorem nestedFrom_obj_cons (m : JMap) (f : String) (fs : List String) :
    nestedFrom (.obj m) (f :: fs) =
      match mapGet m f with
      | none => .ok none
      | some v => nestedFrom v fs := by
  cases h : mapGet m f <;> simp [nestedFrom, h]

/-- The empty path is found at the value itself. -/
theorem nestedFrom_nil (v : JVal) : nestedFrom v [] = .ok (some v) := by
  cases v <;> simp [nestedFrom]

/-- A value under which a non-empty path is found is a mapping. -/
theorem nestedFrom_found_obj (x : JVal) (f : String) (fs : List String) (w : JVal)
    (h : nestedFrom x (f :: fs) = .ok (some w)) : ∃ m, x = .obj m := by
  cases x <;> simp [nestedFrom] at h
  exact ⟨_, rfl⟩

/-- The walk along `p ++ r` continues along `r` from the value found at `p`. -/
theorem nestedFrom_append (x y : JVal) (p r : List String)
    (h : nestedFrom x p = .ok (some y)) : nestedFrom x (p ++ r) = nestedFrom y r := by
  induction p generalizing x with
  | nil =>
    rw [nestedFrom_nil] at h
    cases h
    rfl
  | cons f ps ih =>
    obtain ⟨m, rfl⟩ := nestedFrom_found_obj x f ps y h
    rw [nestedFrom_obj_cons] at h
    rw [List.cons_append, nestedFrom_obj_cons]
    cases hg : mapGet m f with
    | none => simp [hg] at h
    | some x' =>
      simp only [hg] at h ⊢
      exact ih x' h

/-- Prefixes of lists with a head. -/
theorem cons_isPrefix_cons (a b : String) (l₁ l₂ : List String) :
    (a :: l₁) <+: (b :: l₂) ↔ a = b ∧ l₁ <+: l₂ := by
  constructor
  · rintro ⟨t, ht⟩
    simp only [List.cons_append, List.cons.injEq] at ht
    exact ⟨ht.1, t, ht.2⟩
  · rintro ⟨rfl, t, rfl⟩
    exact ⟨t, rfl⟩

/-- The empty path leads to every path. -/
theorem nil_isPrefix (l : List String) : [] <+: l := ⟨l, rfl⟩

/-- Shape of a successful deep set: the first key holds the mapping that results from
setting the rest of the path in the old mapping (or in a new one). -/
theorem setNested_cons_cons_ok (m m' : JMap) (v : JVal) (f g : String) (gs : List String)
    (h : setNestedFieldNoCopy m v (f :: g :: gs) = .ok m') :
    ∃ sub sub', (mapGet m f = some (.obj sub) ∨ (mapGet m f = none ∧ sub = [])) ∧
      setNestedFieldNoCopy sub v (g :: gs) = .ok sub' ∧ m' = mapSet m f (.obj sub') := by
  cases hg : mapGet m f with
  | none =>
    simp only [setNestedFieldNoCopy, hg] at h
    cases hs : setNestedFieldNoCopy [] v (g :: gs) with
    | error e => simp [hs] at h
    | ok sub' =>
      simp [hs] at h
      exact ⟨[], sub', Or.inr ⟨rfl, rfl⟩, hs, h.symm⟩
  | some x =>
    cases x with
    | obj sub =>
      simp only [setNestedFieldNoCopy, hg] at h
      cases hs : setNestedFieldNoCopy sub v (g :: gs) with
      | error e => simp [hs] at h
      | ok sub' =>
        simp [hs] at h
        exact ⟨sub, sub', Or.inl rfl, hs, h.symm⟩
    | _ => simp [setNestedFieldNoCopy, hg] at h

/-- After a set, the paths under the target resolve in the value that was set. -/
theorem nestedFrom_set_under (m m' : JMap) (v : JVal) (fs r : List String)
    (h : setNestedFieldNoCopy m v fs = .ok m') :
    nestedFrom (.obj m') (fs ++ r) = nestedFrom v r := by
  induction fs generalizing m m' with
  | nil => simp [setNestedFieldNoCopy] at h
  | cons f rest ih =>
    cases rest with
    | nil =>
      simp [setNestedFieldNoCopy] at h
      subst h
      simp [nestedFrom_obj_cons, mapGet_mapSet_self]
    | cons g gs =>
      obtain ⟨sub, sub', _, hs, rfl⟩ := setNested_cons_cons_ok m m' v f g gs h
      rw [List.cons_append, nestedFrom_obj_cons, mapGet_mapSet_self]
      exact ih sub sub' hs

/-- After a set, a path that neither leads to the target nor lies under it resolves as
before. -/
theorem nestedFrom_set_frame (m m' : JMap) (v : JVal) (fs p : List String)
    (h : setNestedFieldNoCopy m v fs = .ok m')
    (h1 : ¬ fs <+: p) (h2 : ¬ p <+: fs) :
    nestedFrom (.obj m') p = nestedFrom (.obj m) p := by
  induction fs generalizing m m' p with
  | nil => simp [setNestedFieldNoCopy] at h
  | cons f rest ih =>
    cases p with
    | nil => exact absurd (nil_isPrefix _) h2
    | cons a ps =>
      by_cases ha : a = f
      · subst ha
        rw [cons_isPrefix_cons] at h1 h2
        simp only [true_and] at h1 h2
        cases rest with
        | nil => exact absurd (nil_isPrefix _) h1
        | cons g gs =>
          obtain ⟨sub, sub', hsub, hs, rfl⟩ := setNested_cons_cons_ok m m' v a g gs h
          rw [nestedFrom_obj_cons, nestedFrom_obj_cons, mapGet_mapSet_self]
          have key := ih sub sub' ps hs h1 h2
          rcases hsub with hsub | ⟨hsub, rfl⟩
          · simp only [hsub]
            exact key
          · simp only [hsub]
            rw [key]
            cases ps with
            | nil => exact absurd (nil_isPrefix _) h2
            | cons b bs => simp [nestedFrom_obj_cons, mapGet]
      · cases rest with
        | nil =>
          simp [setNestedFieldNoCopy] at h
          subst h
          rw [nestedFrom_obj_cons, nestedFrom_obj_cons, mapGet_mapSet_of_ne _ _ _ _ ha]
        | cons g gs =>
          obtain ⟨sub, sub', _, _, rfl⟩ := setNested_cons_cons_ok m m' v f g gs h
          rw [nestedFrom_obj_cons, nestedFrom_obj_cons, mapGet_mapSet_of_ne _ _ _ _ ha]

/-- One step of a deep removal. -/
theorem removeNested_cons_cons (m : JMap) (f g : String) (gs : List String) :
    RemoveNestedField m (f :: g :: gs) =
      match mapGet m f with
      | some (.obj sub) => mapSet m f (.obj (RemoveNestedField sub (g :: gs)))
      | _ => m := by
  cases h : mapGet m f with
  | none => simp [RemoveNestedField, h]
  | some x => cases x <;> simp [RemoveNestedField, h]

/-- After a removal, a path that neither leads to the target nor lies under it resolves
as before. -/
theorem nestedFrom_remove_frame (m : JMap) (fs p : List String)
    (h1 : ¬ fs <+: p) (h2 : ¬ p <+: fs) :
    nestedFrom (.obj (RemoveNestedField m fs)) p = nestedFrom (.obj m) p := by
  induction fs generalizing m p with
  | nil => simp [RemoveNestedField]
  | cons f rest ih =>
    cases p with
    | nil => exact absurd (nil_isPrefix _) h2
    | cons a ps =>
      by_cases ha : a = f
      · subst ha
        rw [cons_isPrefix_cons] at h1 h2
        simp only [true_and] at h1 h2
        cases rest with
        | nil => exact absurd (nil_isPrefix _) h1
        | cons g gs =>
          rw [removeNested_cons_cons]
          cases hg : mapGet m a with
          | none => rfl
          | some x =>
            cases x with
            | obj sub =>
              simp only []
              rw [nestedFrom_obj_cons, nestedFrom_obj_cons, mapGet_mapSet_self, hg]
              exact ih sub ps h1 h2
            | _ => rfl
      · cases rest with
        | nil =>
          simp only [RemoveNestedField]
          rw [nestedFrom_obj_cons, nestedFrom_obj_cons, mapGet_mapDelete_of_ne _ _ _ ha]
        | cons g gs =>
          rw [removeNested_cons_cons]
          cases hg : mapGet m f with
          | none => rfl
          | some x =>
            cases x with
            | obj sub =>
              simp only []
              rw [nestedFrom_obj_cons, nestedFrom_obj_cons, mapGet_mapSet_of_ne _ _ _ _ ha]
            | _ => rfl

/-- A path found after a removal was found before it. -/
theorem nestedFrom_remove_found (m : JMap) (fs p : List String) (w : JVal)
    (h : nestedFrom (.obj (RemoveNestedField m fs)) p = .ok (some w)) :
    ∃ w', nestedFrom (.obj m) p = .ok (some w') := by
  induction fs generalizing m p w with
  | nil => exact ⟨w, by simpa [RemoveNestedField] using h⟩
  | cons f rest ih =>
    cases p with
    | nil => exact ⟨_, nestedFrom_nil _⟩
    | cons a ps =>
      cases rest with
      | nil =>
        simp only [RemoveNestedField] at h
        by_cases ha : a = f
        · subst ha
          simp [nestedFrom_obj_cons, mapGet_mapDelete_self] at h
        · rw [nestedFrom_obj_cons, mapGet_mapDelete_of_ne _ _ _ ha] at h
          exact ⟨w, by rw [nestedFrom_obj_cons]; exact h⟩
      | cons g gs =>
        rw [removeNested_cons_cons] at h
        cases hg : mapGet m f with
        | none => rw [hg] at h; exact ⟨w, h⟩
        | some x =>
          cases x with
          | obj sub =>
            simp only [hg] at h
            by_cases ha : a = f
            · subst ha
              rw [nestedFrom_obj_cons, mapGet_mapSet_self] at h
              obtain ⟨w', hw'⟩ := ih sub ps w h
              exact ⟨w', by rw [nestedFrom_obj_cons, hg]; exact hw'⟩
            · rw [nestedFrom_obj_cons, mapGet_mapSet_of_ne _ _ _ _ ha] at h
              exact ⟨w, by rw [nestedFrom_obj_cons]; exact h⟩
          | _ => simp only [hg] at h; exact ⟨w, h⟩

/-! ### Keep-paths -/

/-- Setting a path to the value it already resolves to changes nothing. -/
theorem setNested_of_found (m : JMap) (v : JVal) (fs : List String) (hne : fs ≠ [])
    (h : nestedFrom (.obj m) fs = .ok (some v)) : setNestedFieldNoCopy m v fs = .ok m := by
  induction fs generalizing m with
  | nil => exact absurd rfl hne
  | cons f rest ih =>
    rw [nestedFrom_obj_cons] at h
    cases hg : mapGet m f with
    | none => simp [hg] at h
    | some x =>
      simp only [hg] at h
      cases rest with
      | nil =>
        rw [nestedFrom_nil] at h
        cases h
        simp [setNestedFieldNoCopy, mapSet_of_mapGet _ _ _ hg]
      | cons g gs =>
        obtain ⟨sub, rfl⟩ := nestedFrom_found_obj x g gs v h
        have hs := ih sub (by simp) h
        simp [setNestedFieldNoCopy, hg, hs, mapSet_of_mapGet _ _ _ hg]

/-- A set below a mapping that is found at `p` sets the rest of the path in that
mapping. -/
theorem setNested_through (m m' sub : JMap) (w : JVal) (p r : List String) (hr : r ≠ [])
    (h : setNestedFieldNoCopy m w (p ++ r) = .ok m')
    (hp : nestedFrom (.obj m) p = .ok (some (.obj sub))) :
    ∃ sub', setNestedFieldNoCopy sub w r = .ok sub' ∧
      nestedFrom (.obj m') p = .ok (some (.obj sub')) := by
  induction p generalizing m m' with
  | nil =>
    rw [nestedFrom_nil] at hp
    cases hp
    exact ⟨m', h, nestedFrom_nil _⟩
  | cons f ps ih =>
    rw [nestedFrom_obj_cons] at hp
    cases hg : mapGet m f with
    | none => simp [hg] at hp
    | some x =>
      simp only [hg] at hp
      cases hpr : ps ++ r with
      | nil => simp [hr] at hpr
      | cons g gs =>
        rw [List.cons_append, hpr] at h
        obtain ⟨s0, s0', hs0, hset, rfl⟩ := setNested_cons_cons_ok m m' w f g gs h
        rcases hs0 with hs0 | ⟨hs0, _⟩
        · rw [hg] at hs0
          cases hs0
          rw [← hpr] at hset
          obtain ⟨sub', h1, h2⟩ := ih s0 s0' hset hp
          exact ⟨sub', h1, by rw [nestedFrom_obj_cons, mapGet_mapSet_self]; exact h2⟩
        · rw [hg] at hs0
          cases hs0

/-- One copy from `obj` keeps every path on which the new record already agrees with
`obj`. -/
theorem copyNestedField_keeps (obj sanObj sanObj' : JMap) (q p : List String) (b : Bool)
    (v : JVal) (h : copyNestedField obj sanObj q = .ok (b, sanObj'))
    (hsrc : NestedFieldNoCopy obj p = .ok (some v))
    (hsan : NestedFieldNoCopy sanObj p = .ok (some v)) :
    NestedFieldNoCopy sanObj' p = .ok (some v) := by
  unfold copyNestedField at h
  cases hq : NestedFieldNoCopy obj q with
  | error e => simp [hq] at h
  | ok r =>
    cases r with
    | none =>
      simp [hq] at h
      rw [← h.2]
      exact hsan
    | some w =>
      simp only [hq, SetNestedField] at h
      cases hset : setNestedFieldNoCopy sanObj w q with
      | error e => simp [hset] at h
      | ok s1 =>
        simp [hset] at h
        obtain ⟨_, rfl⟩ := h
        unfold NestedFieldNoCopy at hq hsrc hsan ⊢
        by_cases h1 : q <+: p
        · obtain ⟨r, rfl⟩ := h1
          rw [nestedFrom_set_under _ _ _ _ _ hset]
          rw [nestedFrom_append _ _ _ _ hq] at hsrc
          exact hsrc
        · by_cases h2 : p <+: q
          · obtain ⟨r, rfl⟩ := h2
            have hr : r ≠ [] := by
              rintro rfl
              exact h1 (by simp)
            rw [nestedFrom_append _ _ _ _ hsrc] at hq
            cases r with
            | nil => exact absurd rfl hr
            | cons g gs =>
              obtain ⟨sub, rfl⟩ := nestedFrom_found_obj v g gs w hq
              obtain ⟨sub', hs', hres⟩ := setNested_through _ _ sub w p (g :: gs) hr hset hsan
              rw [setNested_of_found sub w (g :: gs) hr hq] at hs'
              cases hs'
              exact hres
          · rw [nestedFrom_set_frame _ _ _ _ _ hset h1 h2]
            exact hsan

/-- The loop over the keep-paths keeps every path on which the new record already agrees
with `obj`. -/
theorem copyKeepPaths_keeps (obj : JMap) (p : List String) (v : JVal)
    (hsrc : NestedFieldNoCopy obj p = .ok (some v)) (keepPaths : List String)
    (sanObj sanObj' : JMap) (h : copyKeepPaths obj sanObj keepPaths = .ok sanObj')
    (hsan : NestedFieldNoCopy sanObj p = .ok (some v)) :
    NestedFieldNoCopy sanObj' p = .ok (some v) := by
  induction keepPaths generalizing sanObj with
  | nil =>
    simp [copyKeepPaths] at h
    rw [← h]
    exact hsan
  | cons path rest ih =>
    simp only [copyKeepPaths] at h
    cases hc : copyNestedField obj sanObj (pathToSegments path) with
    | error e => simp [hc] at h
    | ok r =>
      obtain ⟨b, s1⟩ := r
      simp only [hc] at h
      exact ih s1 h (copyNestedField_keeps obj sanObj s1 _ p b v hc hsrc hsan)

/-- A keep-path that resolves in `obj` resolves to the same value after the loop. -/
theorem copyKeepPaths_copies (obj : JMap) (path : String) (v : JVal)
    (hsrc : NestedFieldNoCopy obj (pathToSegments path) = .ok (some v))
    (keepPaths : List String) (hmem : path ∈ keepPaths)
    (sanObj sanObj' : JMap) (h : copyKeepPaths obj sanObj keepPaths = .ok sanObj') :
    NestedFieldNoCopy sanObj' (pathToSegments path) = .ok (some v) := by
  induction keepPaths generalizing sanObj with
  | nil => simp at hmem
  | cons q rest ih =>
    simp only [copyKeepPaths] at h
    cases hc : copyNestedField obj sanObj (pathToSegments q) with
    | error e => simp [hc] at h
    | ok r =>
      obtain ⟨b, s1⟩ := r
      simp only [hc] at h
      rcases List.mem_cons.1 hmem with rfl | hin
      · refine copyKeepPaths_keeps obj _ v hsrc rest s1 sanObj' h ?_
        unfold copyNestedField at hc
        simp only [hsrc, SetNestedField] at hc
        cases hset : setNestedFieldNoCopy sanObj v (pathToSegments path) with
        | error e => simp [hset] at hc
        | ok s2 =>
          simp [hset] at hc
          obtain ⟨_, rfl⟩ := hc
          have := nestedFrom_set_under _ _ _ _ [] hset
          rw [List.append_nil, nestedFrom_nil] at this
          exact this
      · exact ih hin s1 h

/-- The loop over the ignore-paths leaves alone every path that no ignore-path leads to
or lies under. -/
theorem removeIgnorePaths_frame (p : List String) (ignorePaths : List String) (sanObj : JMap)
    (h : ∀ ip ∈ ignorePaths, ¬ pathToSegments ip <+: p ∧ ¬ p <+: pathToSegments ip) :
    NestedFieldNoCopy (removeIgnorePaths sanObj ignorePaths) p = NestedFieldNoCopy sanObj p := by
  induction ignorePaths generalizing sanObj with
  | nil => rfl
  | cons ip rest ih =>
    simp only [removeIgnorePaths]
    rw [ih _ (fun q hq => h q (List.mem_cons_of_mem _ hq))]
    obtain ⟨h1, h2⟩ := h ip (List.mem_cons_self _ _)
    exact nestedFrom_remove_frame sanObj _ p h1 h2

/-- A record returned by `Sanitize` is the result of the two path loops on the base
record. -/
theorem Sanitize_ok_some (parseTime : String → Option Int) (obj : JMap)
    (ignoreNames : List Regexp) (pathValueFilters : List (String × Regexp))
    (keepAnnotations keepLabels : List Regexp) (keepPaths ignorePaths : List String)
    (keepDeleted : Bool) (out : JMap)
    (h : Sanitize parseTime obj ignoreNames pathValueFilters keepAnnotations keepLabels
      keepPaths ignorePaths keepDeleted = .ok (some out)) :
    ∃ s, copyKeepPaths obj (copyLabels obj (copyAnnotations obj (identityRecord obj)
        keepAnnotations) keepLabels) keepPaths = .ok s ∧
      out = removeIgnorePaths s ignorePaths := by
  unfold Sanitize at h
  simp only [] at h
  split at h
  · simp at h
  · split at h
    · simp at h
    · split at h
      · simp at h
      · simp at h
      · split at h
        · simp at h
        · rename_i s hs
          simp at h
          exact ⟨s, hs, h.symm⟩

/-- C5. Keep-paths are copied: when `Sanitize` returns a record, every path of `keepPaths`
(in any order of the list) that resolves in the source record to a value `v`, and that
no ignore-path is a prefix of or extends, resolves in the output record to the same
`v`. -/
theorem Sanitize_keepPaths_copied (parseTime : String → Option Int) (obj : JMap)
    (ignoreNames : List Regexp) (pathValueFilters : List (String × Regexp))
    (keepAnnotations keepLabels : List Regexp) (keepPaths ignorePaths : List String)
    (keepDeleted : Bool) (out : JMap)
    (h : Sanitize parseTime obj ignoreNames pathValueFilters keepAnnotations keepLabels
      keepPaths ignorePaths keepDeleted = .ok (some out))
    (path : String) (hmem : path ∈ keepPaths) (v : JVal)
    (hsrc : NestedFieldNoCopy obj (pathToSegments path) = .ok (some v))
    (hign : ∀ ip ∈ ignorePaths, ¬ pathToSegments ip <+: pathToSegments path ∧
      ¬ pathToSegments path <+: pathToSegments ip) :
    NestedFieldNoCopy out (pathToSegments path) = .ok (some v) := by
  obtain ⟨s, hs, rfl⟩ := Sanitize_ok_some _ _ _ _ _ _ _ _ _ _ h
  rw [removeIgnorePaths_frame _ _ _ hign]
  exact copyKeepPaths_copies obj path v hsrc keepPaths hmem _ s hs

/-- Witness for `Sanitize_keepPaths_copied`: the keep-path `spec/nodeName` of `podWeb`. -/
theorem Sanitize_keepPaths_copied_witness :
    NestedFieldNoCopy podWebSanitized (pathToSegments "spec/nodeName") =
      .ok (some (.str "n1")) :=
  Sanitize_keepPaths_copied exampleParseTime podWeb [reKubeSystem] [] [reApp] [reApp]
    ["spec/nodeName"] ["status"] false podWebSanitized rfl "spec/nodeName" (by simp)
    (.str "n1") rfl (by decide)

/-! ### Annotations and labels -/

/-- The new record with its identity fields has no annotations and no labels, and its
`metadata`, when present, is a mapping. -/
theorem identityRecord_shape (obj : JMap) :
    NestedFieldNoCopy (identityRecord obj) ["metadata", "annotations"] = .ok none ∧
    NestedFieldNoCopy (identityRecord obj) ["metadata", "labels"] = .ok none ∧
    (mapGet (identityRecord obj) "metadata" = none ∨
      ∃ sub, mapGet (identityRecord obj) "metadata" = some (.obj sub)) := by
  by_cases h1 : (GetName obj).length = 0 <;> by_cases h2 : (GetNamespace obj).length = 0 <;>
    simp [identityRecord, SetName, SetNamespace, SetAPIVersion, SetKind, h1, h2,
      setNestedFieldIgnoringError, SetNestedField, setNestedFieldNoCopy, RemoveNestedField,
      NestedFieldNoCopy, nestedFrom, mapGet, mapSet, mapDelete]

/-- A set of a two-segment path succeeds when the first segment is absent or a mapping. -/
theorem setNested_two_ok (m : JMap) (v : JVal) (a b : String)
    (h : mapGet m a = none ∨ ∃ sub, mapGet m a = some (.obj sub)) :
    ∃ m', setNestedFieldNoCopy m v [a, b] = .ok m' ∧
      ∃ sub', mapGet m' a = some (.obj sub') := by
  rcases h with h | ⟨sub, h⟩
  · exact ⟨mapSet m a (.obj (mapSet [] b v)), by simp [setNestedFieldNoCopy, h], _,
      mapGet_mapSet_self _ _ _⟩
  · exact ⟨mapSet m a (.obj (mapSet sub b v)), by simp [setNestedFieldNoCopy, h], _,
      mapGet_mapSet_self _ _ _⟩

/-- The sub-map that `keepMatching` builds holds exactly the entries of the matching
keys. -/
theorem mapGet_keepMatching (m : List (String × String)) (keep : List Regexp) (k : String) :
    mapGet (keepMatching m keep) k = if matchesAny k keep then mapGet m k else none := by
  induction m with
  | nil => simp [keepMatching, mapGet]
  | cons e rest ih =>
    obtain ⟨a, b⟩ := e
    unfold keepMatching at ih ⊢
    by_cases hm : matchesAny a keep = true
    · by_cases ha : a = k
      · subst ha
        simp [List.filter, hm, mapGet]
      · simp only [List.filter, hm, mapGet, ha, if_false]
        exact ih
    · by_cases ha : a = k
      · subst ha
        simp only [List.filter, hm, mapGet]
        rw [ih]
        simp [hm]
      · simp only [List.filter, hm, mapGet, ha, if_false]
        exact ih

/-- A set of `metadata/<field>` on a record whose `metadata` is absent or a mapping: it
succeeds, the value is found at that path, `metadata` is a mapping, and other paths are
untouched. -/
theorem setMetadataField_spec (san : JMap) (field : String) (v : JVal)
    (hmeta : mapGet san "metadata" = none ∨ ∃ sub, mapGet san "metadata" = some (.obj sub)) :
    ∃ m', setNestedFieldNoCopy san v ["metadata", field] = .ok m' ∧
      NestedFieldNoCopy m' ["metadata", field] = .ok (some v) ∧
      (∃ sub, mapGet m' "metadata" = some (.obj sub)) ∧
      ∀ p, ¬ ["metadata", field] <+: p → ¬ p <+: ["metadata", field] →
        NestedFieldNoCopy m' p = NestedFieldNoCopy san p := by
  obtain ⟨m', hset, hsub⟩ := setNested_two_ok san v "metadata" field hmeta
  refine ⟨m', hset, ?_, hsub, fun p h1 h2 => nestedFrom_set_frame _ _ _ _ p hset h1 h2⟩
  have := nestedFrom_set_under _ _ _ _ [] hset
  rw [List.append_nil, nestedFrom_nil] at this
  exact this

/-- The annotations step: what it leaves at `metadata/annotations`, that `metadata` stays
absent or a mapping, and that other paths are untouched. -/
theorem copyAnnotations_spec (obj san : JMap) (keep : List Regexp)
    (hmeta : mapGet san "metadata" = none ∨ ∃ sub, mapGet san "metadata" = some (.obj sub))
    (hnone : NestedFieldNoCopy san ["metadata", "annotations"] = .ok none) :
    NestedFieldNoCopy (copyAnnotations obj san keep) ["metadata", "annotations"] =
      (if keepMatching ((GetAnnotations obj).getD []) keep = [] then .ok none
       else .ok (some (.obj (ofStringMap (keepMatching ((GetAnnotations obj).getD []) keep))))) ∧
    (mapGet (copyAnnotations obj san keep) "metadata" = none ∨
      ∃ sub, mapGet (copyAnnotations obj san keep) "metadata" = some (.obj sub)) ∧
    ∀ p, ¬ ["metadata", "annotations"] <+: p → ¬ p <+: ["metadata", "annotations"] →
      NestedFieldNoCopy (copyAnnotations obj san keep) p = NestedFieldNoCopy san p := by
  unfold copyAnnotations
  cases hG : GetAnnotations obj with
  | none => simp [keepMatching, hnone, hmeta]
  | some ann =>
    simp only [Option.getD_some]
    cases hk : keepMatching ann keep with
    | nil => simp [hnone, hmeta]
    | cons e rest =>
      obtain ⟨m', hset, h1, h2, h3⟩ :=
        setMetadataField_spec san "annotations" (.obj (ofStringMap (e :: rest))) hmeta
      simp only [List.length_cons, gt_iff_lt, Nat.zero_lt_succ, if_true, SetAnnotations, hset]
      exact ⟨by simpa using h1, Or.inr h2, h3⟩

/-- The labels step: what it leaves at `metadata/labels`, that `metadata` stays absent or
a mapping, and that other paths are untouched. -/
theorem copyLabels_spec (obj san : JMap) (keep : List Regexp)
    (hmeta : mapGet san "metadata" = none ∨ ∃ sub, mapGet san "metadata" = some (.obj sub))
    (hnone : NestedFieldNoCopy san ["metadata", "labels"] = .ok none) :
    NestedFieldNoCopy (copyLabels obj san keep) ["metadata", "labels"] =
      (if keepMatching ((GetLabels obj).getD []) keep = [] then .ok none
       else .ok (some (.obj (ofStringMap (keepMatching ((GetLabels obj).getD []) keep))))) ∧
    (mapGet (copyLabels obj san keep) "metadata" = none ∨
      ∃ sub, mapGet (copyLabels obj san keep) "metadata" = some (.obj sub)) ∧
    ∀ p, ¬ ["metadata", "labels"] <+: p → ¬ p <+: ["metadata", "labels"] →
      NestedFieldNoCopy (copyLabels obj san keep) p = NestedFieldNoCopy san p := by
  unfold copyLabels
  cases hG : GetLabels obj with
  | none => simp [keepMatching, hnone, hmeta]
  | some lab =>
    simp only [Option.getD_some]
    cases hk : keepMatching lab keep with
    | nil => simp [hnone, hmeta]
    | cons e rest =>
      obtain ⟨m', hset, h1, h2, h3⟩ :=
        setMetadataField_spec san "labels" (.obj (ofStringMap (e :: rest))) hmeta
      simp only [List.length_cons, gt_iff_lt, Nat.zero_lt_succ, if_true, SetLabels, hset]
      exact ⟨by simpa using h1, Or.inr h2, h3⟩

/-- One copy leaves alone every path that the copied path neither leads to nor lies
under. -/
theorem copyNestedField_frame (obj sanObj sanObj' : JMap) (q p : List String) (b : Bool)
    (h : copyNestedField obj sanObj q = .ok (b, sanObj'))
    (h1 : ¬ q <+: p) (h2 : ¬ p <+: q) :
    NestedFieldNoCopy sanObj' p = NestedFieldNoCopy sanObj p := by
  unfold copyNestedField at h
  cases hq : NestedFieldNoCopy obj q with
  | error e => simp [hq] at h
  | ok r =>
    cases r with
    | none =>
      simp [hq] at h
      rw [← h.2]
    | some w =>
      simp only [hq, SetNestedField] at h
      cases hset : setNestedFieldNoCopy sanObj w q with
      | error e => simp [hset] at h
      | ok s1 =>
        simp [hset] at h
        obtain ⟨_, rfl⟩ := h
        exact nestedFrom_set_frame _ _ _ _ p hset h1 h2

/-- The loop over the keep-paths leaves alone every path that no keep-path leads to or
lies under. -/
theorem copyKeepPaths_frame (obj : JMap) (p : List String) (keepPaths : List String)
    (sanObj sanObj' : JMap) (h : copyKeepPaths obj sanObj keepPaths = .ok sanObj')
    (hk : ∀ q ∈ keepPaths, ¬ pathToSegments q <+: p ∧ ¬ p <+: pathToSegments q) :
    NestedFieldNoCopy sanObj' p = NestedFieldNoCopy sanObj p := by
  induction keepPaths generalizing sanObj with
  | nil =>
    simp [copyKeepPaths] at h
    rw [h]
  | cons path rest ih =>
    simp only [copyKeepPaths] at h
    cases hc : copyNestedField obj sanObj (pathToSegments path) with
    | error e => simp [hc] at h
    | ok r =>
      obtain ⟨b, s1⟩ := r
      simp only [hc] at h
      rw [ih s1 h (fun q hq => hk q (List.mem_cons_of_mem _ hq))]
      obtain ⟨h1, h2⟩ := hk path (List.mem_cons_self _ _)
      exact copyNestedField_frame obj sanObj s1 _ p b hc h1 h2

/-- The annotations and the labels of the base record, before the path loops. -/
theorem baseRecord_annotations_labels (obj : JMap) (keepAnnotations keepLabels : List Regexp) :
    NestedFieldNoCopy (copyLabels obj (copyAnnotations obj (identityRecord obj) keepAnnotations)
        keepLabels) ["metadata", "annotations"] =
      (if keepMatching ((GetAnnotations obj).getD []) keepAnnotations = [] then .ok none
       else .ok (some (.obj (ofStringMap
        (keepMatching ((GetAnnotations obj).getD []) keepAnnotations))))) ∧
    NestedFieldNoCopy (copyLabels obj (copyAnnotations obj (identityRecord obj) keepAnnotations)
        keepLabels) ["metadata", "labels"] =
      (if keepMatching ((GetLabels obj).getD []) keepLabels = [] then .ok none
       else .ok (some (.obj (ofStringMap (keepMatching ((GetLabels obj).getD []) keepLabels))))) := by
  obtain ⟨hA, hL, hM⟩ := identityRecord_shape obj
  obtain ⟨a1, a2, a3⟩ := copyAnnotations_spec obj (identityRecord obj) keepAnnotations hM hA
  have hL' : NestedFieldNoCopy (copyAnnotations obj (identityRecord obj) keepAnnotations)
      ["metadata", "labels"] = .ok none := by
    rw [a3 _ (by decide) (by decide)]
    exact hL
  obtain ⟨l1, _, l3⟩ := copyLabels_spec obj
    (copyAnnotations obj (identityRecord obj) keepAnnotations) keepLabels a2 hL'
  refine ⟨?_, l1⟩
  rw [l3 _ (by decide) (by decide)]
  exact a1

/-- C3, amended. Annotation and label filtering: when `Sanitize` returns a record and no
keep-path or ignore-path is a prefix of or extends `metadata/annotations`, the output's
annotations mapping consists of exactly the key/value pairs of the source annotations
(`GetAnnotations`) whose key matches one of `keepAnnotations`, and the output has no
annotations field at all when no source annotation key matches; the same holds for the
labels against `keepLabels` when no keep-path or ignore-path is a prefix of or extends
`metadata/labels`. -/
theorem Sanitize_annotations_labels (parseTime : String → Option Int) (obj : JMap)
    (ignoreNames : List Regexp) (pathValueFilters : List (String × Regexp))
    (keepAnnotations keepLabels : List Regexp) (keepPaths ignorePaths : List String)
    (keepDeleted : Bool) (out : JMap)
    (h : Sanitize parseTime obj ignoreNames pathValueFilters keepAnnotations keepLabels
      keepPaths ignorePaths keepDeleted = .ok (some out)) :
    ((∀ q ∈ keepPaths ++ ignorePaths,
        ¬ pathToSegments q <+: ["metadata", "annotations"] ∧
        ¬ ["metadata", "annotations"] <+: pathToSegments q) →
      NestedFieldNoCopy out ["metadata", "annotations"] =
        (if keepMatching ((GetAnnotations obj).getD []) keepAnnotations = [] then .ok none
         else .ok (some (.obj (ofStringMap
          (keepMatching ((GetAnnotations obj).getD []) keepAnnotations)))))) ∧
    ((∀ q ∈ keepPaths ++ ignorePaths,
        ¬ pathToSegments q <+: ["metadata", "labels"] ∧
        ¬ ["metadata", "labels"] <+: pathToSegments q) →
      NestedFieldNoCopy out ["metadata", "labels"] =
        (if keepMatching ((GetLabels obj).getD []) keepLabels = [] then .ok none
         else .ok (some (.obj (ofStringMap
          (keepMatching ((GetLabels obj).getD []) keepLabels)))))) ∧
    (∀ k, mapGet (keepMatching ((GetAnnotations obj).getD []) keepAnnotations) k =
      if matchesAny k keepAnnotations then mapGet ((GetAnnotations obj).getD []) k else none) ∧
    (∀ k, mapGet (keepMatching ((GetLabels obj).getD []) keepLabels) k =
      if matchesAny k keepLabels then mapGet ((GetLabels obj).getD []) k else none) := by
  obtain ⟨s, hs, rfl⟩ := Sanitize_ok_some _ _ _ _ _ _ _ _ _ _ h
  obtain ⟨bA, bL⟩ := baseRecord_annotations_labels obj keepAnnotations keepLabels
  refine ⟨?_, ?_, fun k => mapGet_keepMatching _ _ k, fun k => mapGet_keepMatching _ _ k⟩
  · intro hq
    rw [removeIgnorePaths_frame _ _ _ (fun ip hip => hq ip (List.mem_append_right _ hip)),
      copyKeepPaths_frame obj _ keepPaths _ s hs
        (fun q hqm => hq q (List.mem_append_left _ hqm))]
    exact bA
  · intro hq
    rw [removeIgnorePaths_frame _ _ _ (fun ip hip => hq ip (List.mem_append_right _ hip)),
      copyKeepPaths_frame obj _ keepPaths _ s hs
        (fun q hqm => hq q (List.mem_append_left _ hqm))]
    exact bL

/-- C3, as stated, fails: with the keep-path `metadata/annotations` the output keeps the
annotation `other`, whose key matches no pattern of `keepAnnotations`. -/
theorem Sanitize_annotations_counterexample :
    ∃ out, Sanitize exampleParseTime podWeb [] [] [reApp] [] ["metadata/annotations"] []
        false = .ok (some out) ∧
      matchesAny "other" [reApp] = false ∧
      NestedFieldNoCopy out ["metadata", "annotations", "other"] = .ok (some (.str "y")) :=
  ⟨_, rfl, rfl, rfl⟩


/-- Witness for `Sanitize_annotations_labels`: the pod `podWeb` keeps its annotation
`app.owner` and its label `app.tier`. -/
theorem Sanitize_annotations_labels_witness :
    NestedFieldNoCopy podWebSanitized ["metadata", "annotations"] =
      .ok (some (.obj [("app.owner", .str "x")])) ∧
    NestedFieldNoCopy podWebSanitized ["metadata", "labels"] =
      .ok (some (.obj [("app.tier", .str "front")])) :=
  ⟨((Sanitize_annotations_labels exampleParseTime podWeb [reKubeSystem] [] [reApp] [reApp]
      ["spec/nodeName"] ["status"] false podWebSanitized rfl).1 (by decide)).trans rfl,
   ((Sanitize_annotations_labels exampleParseTime podWeb [reKubeSystem] [] [reApp] [reApp]
      ["spec/nodeName"] ["status"] false podWebSanitized rfl).2.1 (by decide)).trans rfl⟩

/-- The example of the specification: under the pattern `^app\.` the annotations
`app.owner`, `other` become `app.owner` alone, and a record whose only annotation is
`other` gets no annotations field. -/
theorem Sanitize_annotation_examples :
    keepMatching [("app.owner", "x"), ("other", "y")] [reApp] = [("app.owner", "x")] ∧
    (∃ out, Sanitize exampleParseTime
        [("kind", .str "Pod"), ("metadata", .obj [("name", .str "solo"),
          ("annotations", .obj [("other", .str "y")])])]
        [] [] [reApp] [] [] [] false = .ok (some out) ∧
      NestedFieldNoCopy out ["metadata", "annotations"] = .ok none) :=
  ⟨by decide, _, rfl, rfl⟩

/-! ### The allow-list -/

/-- A path found after a set leads to the target, lies under it and is found in the
value set, or was found before. -/
theorem nestedFrom_set_found (m m' : JMap) (v : JVal) (fs p : List String) (w : JVal)
    (h : setNestedFieldNoCopy m v fs = .ok m')
    (hp : nestedFrom (.obj m') p = .ok (some w)) :
    p <+: fs ∨ (∃ r, p = fs ++ r ∧ nestedFrom v r = .ok (some w)) ∨
      nestedFrom (.obj m) p = .ok (some w) := by
  by_cases h1 : fs <+: p
  · obtain ⟨r, rfl⟩ := h1
    rw [nestedFrom_set_under _ _ _ _ _ h] at hp
    exact Or.inr (Or.inl ⟨r, rfl, hp⟩)
  · by_cases h2 : p <+: fs
    · exact Or.inl h2
    · rw [nestedFrom_set_frame _ _ _ _ _ h h1 h2] at hp
      exact Or.inr (Or.inr hp)

/-- A prefix of a prefix is a prefix. -/
theorem isPrefix_trans (a b c : List String) (h1 : a <+: b) (h2 : b <+: c) : a <+: c := by
  obtain ⟨t, rfl⟩ := h1
  obtain ⟨u, rfl⟩ := h2
  exact ⟨t ++ u, by simp⟩

/-- Only the empty path is found under a string. -/
theorem nestedFrom_str_found (s : String) (r : List String) (w : JVal)
    (h : nestedFrom (.str s) r = .ok (some w)) : r = [] := by
  cases r with
  | nil => rfl
  | cons a t => simp [nestedFrom] at h

/-- The values of a converted string map are strings. -/
theorem mapGet_ofStringMap (sm : List (String × String)) (k : String) (x : JVal)
    (h : mapGet (ofStringMap sm) k = some x) : ∃ s, x = .str s := by
  induction sm with
  | nil => simp [ofStringMap, mapGet] at h
  | cons e rest ih =>
    obtain ⟨a, b⟩ := e
    by_cases ha : a = k
    · simp [ofStringMap, mapGet, ha] at h
      exact ⟨b, h.symm⟩
    · simp only [ofStringMap, List.map_cons, mapGet, ha, if_false] at h
      exact ih h

/-- Under a string map only the empty path and its keys are found. -/
theorem nestedFrom_ofStringMap_found (sm : List (String × String)) (r : List String) (w : JVal)
    (h : nestedFrom (.obj (ofStringMap sm)) r = .ok (some w)) : r = [] ∨ ∃ k, r = [k] := by
  cases r with
  | nil => exact Or.inl rfl
  | cons k t =>
    right
    rw [nestedFrom_obj_cons] at h
    cases hg : mapGet (ofStringMap sm) k with
    | none => simp [hg] at h
    | some x =>
      simp only [hg] at h
      obtain ⟨s, rfl⟩ := mapGet_ofStringMap sm k x hg
      rw [nestedFrom_str_found s t w h]
      exact ⟨k, rfl⟩

/-- Setting a string at `q` keeps the found paths inside a set `A` that holds the paths
leading to `q`. -/
theorem setString_allowed (A : List String → Prop) (m : JMap) (s : String) (q : List String)
    (hq : ∀ p, p <+: q → A p)
    (hm : ∀ p w, NestedFieldNoCopy m p = .ok (some w) → A p) :
    ∀ p w, NestedFieldNoCopy (setNestedFieldIgnoringError m (.str s) q) p = .ok (some w) →
      A p := by
  intro p w hp
  unfold setNestedFieldIgnoringError SetNestedField at hp
  cases hset : setNestedFieldNoCopy m (.str s) q with
  | error e =>
    simp only [hset] at hp
    exact hm p w hp
  | ok m' =>
    simp only [hset] at hp
    rcases nestedFrom_set_found _ _ _ _ _ _ hset hp with h | ⟨r, rfl, hr⟩ | h
    · exact hq p h
    · rw [nestedFrom_str_found s r w hr]
      exact hq _ ⟨[], by simp⟩
    · exact hm p w h

/-- A removal keeps the found paths inside `A`. -/
theorem remove_allowed (A : List String → Prop) (m : JMap) (q : List String)
    (hm : ∀ p w, NestedFieldNoCopy m p = .ok (some w) → A p) :
    ∀ p w, NestedFieldNoCopy (RemoveNestedField m q) p = .ok (some w) → A p := by
  intro p w hp
  obtain ⟨w', hw'⟩ := nestedFrom_remove_found m q p w hp
  exact hm p w' hw'

/-- Setting a string map at `q` keeps the found paths inside a set `A` that holds the
paths leading to the keys under `q`. -/
theorem setStringMap_allowed (A : List String → Prop) (m m' : JMap)
    (sm : List (String × String)) (q : List String)
    (hq : ∀ k p, p <+: q ++ [k] → A p)
    (hm : ∀ p w, NestedFieldNoCopy m p = .ok (some w) → A p)
    (hset : setNestedFieldNoCopy m (.obj (ofStringMap sm)) q = .ok m') :
    ∀ p w, NestedFieldNoCopy m' p = .ok (some w) → A p := by
  intro p w hp
  rcases nestedFrom_set_found _ _ _ _ _ _ hset hp with h | ⟨r, rfl, hr⟩ | h
  · exact hq "" p (isPrefix_trans _ _ _ h ⟨[""], rfl⟩)
  · rcases nestedFrom_ofStringMap_found sm r w hr with rfl | ⟨k, rfl⟩
    · exact hq "" _ ⟨[""], by simp⟩
    · exact hq k _ ⟨[], by simp⟩
  · exact hm p w h

/-- The record with the identity fields holds allowed paths only. -/
theorem identityRecord_allowed (obj : JMap) (keepPaths : List String) :
    ∀ p w, NestedFieldNoCopy (identityRecord obj) p = .ok (some w) → allowedPath keepPaths p := by
  have hid : ∀ q ∈ identityPaths, ∀ p, p <+: q → allowedPath keepPaths p :=
    fun q hq p hp => Or.inl ⟨q, hq, hp⟩
  have h0 : ∀ p w, NestedFieldNoCopy ([] : JMap) p = .ok (some w) → allowedPath keepPaths p := by
    intro p w hp
    cases p with
    | nil => exact hid ["kind"] (by simp [identityPaths]) [] (nil_isPrefix _)
    | cons a t => simp [NestedFieldNoCopy, nestedFrom_obj_cons, mapGet] at hp
  have h1 : ∀ p w, NestedFieldNoCopy (SetName [] (GetName obj)) p = .ok (some w) →
      allowedPath keepPaths p := by
    unfold SetName
    split
    · exact remove_allowed _ _ _ h0
    · exact setString_allowed _ _ _ _ (hid _ (by simp [identityPaths])) h0
  have h2 : ∀ p w, NestedFieldNoCopy (SetNamespace (SetName [] (GetName obj))
      (GetNamespace obj)) p = .ok (some w) → allowedPath keepPaths p := by
    unfold SetNamespace
    split
    · exact remove_allowed _ _ _ h1
    · exact setString_allowed _ _ _ _ (hid _ (by simp [identityPaths])) h1
  have h3 := setString_allowed (allowedPath keepPaths) _ (GetAPIVersion obj) ["apiVersion"]
    (hid _ (by simp [identityPaths])) h2
  exact setString_allowed (allowedPath keepPaths) _ (GetKind obj) ["kind"]
    (hid _ (by simp [identityPaths])) h3

/-- The base record, with its filtered annotations and labels, holds allowed paths
only. -/
theorem baseRecord_allowed (obj : JMap) (keepAnnotations keepLabels : List Regexp)
    (keepPaths : List String) :
    ∀ p w, NestedFieldNoCopy (copyLabels obj (copyAnnotations obj (identityRecord obj)
      keepAnnotations) keepLabels) p = .ok (some w) → allowedPath keepPaths p := by
  have hA : ∀ p w, NestedFieldNoCopy (copyAnnotations obj (identityRecord obj)
      keepAnnotations) p = .ok (some w) → allowedPath keepPaths p := by
    unfold copyAnnotations
    cases GetAnnotations obj with
    | none => exact identityRecord_allowed obj keepPaths
    | some ann =>
      simp only []
      split
      · unfold SetAnnotations
        cases hset : setNestedFieldNoCopy (identityRecord obj)
            (.obj (ofStringMap (keepMatching ann keepAnnotations)))
            ["metadata", "annotations"] with
        | error e => exact identityRecord_allowed obj keepPaths
        | ok m' =>
          exact setStringMap_allowed _ _ m' _ _
            (fun k p hp => Or.inr (Or.inl ⟨k, hp⟩)) (identityRecord_allowed obj keepPaths) hset
      · exact identityRecord_allowed obj keepPaths
  unfold copyLabels
  cases GetLabels obj with
  | none => exact hA
  | some lab =>
    simp only []
    split
    · unfold SetLabels
      cases hset : setNestedFieldNoCopy (copyAnnotations obj (identityRecord obj) keepAnnotations)
          (.obj (ofStringMap (keepMatching lab keepLabels))) ["metadata", "labels"] with
      | error e => exact hA
      | ok m' =>
        exact setStringMap_allowed _ _ m' _ _
          (fun k p hp => Or.inr (Or.inr (Or.inl ⟨k, hp⟩))) hA hset
    · exact hA

/-- The loop over keep-paths that all belong to `keepPaths` keeps the found paths
allowed. -/
theorem copyKeepPaths_allowed (obj : JMap) (keepPaths : List String) (l : List String)
    (hl : ∀ q ∈ l, q ∈ keepPaths) (sanObj sanObj' : JMap)
    (h : copyKeepPaths obj sanObj l = .ok sanObj')
    (hm : ∀ p w, NestedFieldNoCopy sanObj p = .ok (some w) → allowedPath keepPaths p) :
    ∀ p w, NestedFieldNoCopy sanObj' p = .ok (some w) → allowedPath keepPaths p := by
  induction l generalizing sanObj with
  | nil =>
    simp [copyKeepPaths] at h
    rw [← h]
    exact hm
  | cons path rest ih =>
    simp only [copyKeepPaths] at h
    cases hc : copyNestedField obj sanObj (pathToSegments path) with
    | error e => simp [hc] at h
    | ok r =>
      obtain ⟨b, s1⟩ := r
      simp only [hc] at h
      refine ih (fun q hq => hl q (List.mem_cons_of_mem _ hq)) s1 h ?_
      intro p w hp
      unfold copyNestedField at hc
      cases hq : NestedFieldNoCopy obj (pathToSegments path) with
      | error e => simp [hq] at hc
      | ok r =>
        cases r with
        | none =>
          simp [hq] at hc
          rw [← hc.2] at hp
          exact hm p w hp
        | some x =>
          simp only [hq, SetNestedField] at hc
          cases hset : setNestedFieldNoCopy sanObj x (pathToSegments path) with
          | error e => simp [hset] at hc
          | ok s2 =>
            simp [hset] at hc
            obtain ⟨_, rfl⟩ := hc
            have hin : path ∈ keepPaths := hl path (List.mem_cons_self _ _)
            rcases nestedFrom_set_found _ _ _ _ _ _ hset hp with h' | ⟨r, rfl, _⟩ | h'
            · exact Or.inr (Or.inr (Or.inr ⟨path, hin, Or.inl h'⟩))
            · exact Or.inr (Or.inr (Or.inr ⟨path, hin, Or.inr ⟨r, rfl⟩⟩))
            · exact hm p w h'

/-- The loop over the ignore-paths adds no found path. -/
theorem removeIgnorePaths_found (ignorePaths : List String) (sanObj : JMap) (p : List String)
    (w : JVal) (h : NestedFieldNoCopy (removeIgnorePaths sanObj ignorePaths) p = .ok (some w)) :
    ∃ w', NestedFieldNoCopy sanObj p = .ok (some w') := by
  induction ignorePaths generalizing sanObj w with
  | nil => exact ⟨w, h⟩
  | cons ip rest ih =>
    simp only [removeIgnorePaths] at h
    obtain ⟨w1, h1⟩ := ih _ w h
    exact nestedFrom_remove_found sanObj _ p w1 h1

/-- C4. Allow-list invariant of sanitized records: when `Sanitize` returns a record, every
field path found in it is an allowed path: one of `apiVersion`, `kind`, `metadata/name`,
`metadata/namespace`, a key under `metadata/annotations` or `metadata/labels` (or a
mapping on the way to these), or a path that lies on, under or above a path of
`keepPaths`. -/
theorem Sanitize_allow_list (parseTime : String → Option Int) (obj : JMap)
    (ignoreNames : List Regexp) (pathValueFilters : List (String × Regexp))
    (keepAnnotations keepLabels : List Regexp) (keepPaths ignorePaths : List String)
    (keepDeleted : Bool) (out : JMap)
    (h : Sanitize parseTime obj ignoreNames pathValueFilters keepAnnotations keepLabels
      keepPaths ignorePaths keepDeleted = .ok (some out))
    (p : List String) (w : JVal) (hp : NestedFieldNoCopy out p = .ok (some w)) :
    allowedPath keepPaths p := by
  obtain ⟨s, hs, rfl⟩ := Sanitize_ok_some _ _ _ _ _ _ _ _ _ _ h
  obtain ⟨w', hw'⟩ := removeIgnorePaths_found ignorePaths s p w hp
  exact copyKeepPaths_allowed obj keepPaths keepPaths (fun q hq => hq) _ s hs
    (baseRecord_allowed obj keepAnnotations keepLabels keepPaths) p w' hw'

/-- Witness for `Sanitize_allow_list`: the annotation `app.owner` kept from `podWeb`. -/
theorem Sanitize_allow_list_witness :
    allowedPath ["spec/nodeName"] ["metadata", "annotations", "app.owner"] :=
  Sanitize_allow_list exampleParseTime podWeb [reKubeSystem] [] [reApp] [reApp]
    ["spec/nodeName"] ["status"] false podWebSanitized rfl
    ["metadata", "annotations", "app.owner"] (.str "x") rfl

/-! ### The cache file -/

/-- C6. Evaluation of the worker on a pair whose fetch yields no record (an empty list,
or a list whose records are all dropped): `extractList` returns a nil slice, the cache
file is written and exists, `ReadRawObjects` of that file returns `(nil, nil)` as if
there were no file, and the next pass of the worker calls the cluster again. -/
theorem workerPair_empty_result_is_refetched (parseTime : String → Option Int)
    (keepDeleted : Bool) (context gvkString filename : String) (gvkConfig : GVK) :
    ((workerPair parseTime keepDeleted context gvkString gvkConfig (envReturning []) filename
        emptyFs).failure = none ∧
      ((workerPair parseTime keepDeleted context gvkString gvkConfig (envReturning []) filename
        emptyFs).fs filename).isSome = true ∧
      ReadRawObjects (workerPair parseTime keepDeleted context gvkString gvkConfig
        (envReturning []) filename emptyFs).fs filename = .ok none ∧
      (workerPair parseTime keepDeleted context gvkString gvkConfig (envReturning []) filename
        (workerPair parseTime keepDeleted context gvkString gvkConfig (envReturning []) filename
          emptyFs).fs).calledKube = true) ∧
    ((workerPair exampleParseTime false "c1" "pod" gvkRunning (envReturning [podDns, podWeb])
        "pod/c1.json" emptyFs).failure = none ∧
      ReadRawObjects (workerPair exampleParseTime false "c1" "pod" gvkRunning
        (envReturning [podDns, podWeb]) "pod/c1.json" emptyFs).fs "pod/c1.json" = .ok none ∧
      (workerPair exampleParseTime false "c1" "pod" gvkRunning (envReturning [podDns, podWeb])
        "pod/c1.json"
        (workerPair exampleParseTime false "c1" "pod" gvkRunning (envReturning [podDns, podWeb])
          "pod/c1.json" emptyFs).fs).calledKube = true) := by
  have h1 : workerPair parseTime keepDeleted context gvkString gvkConfig (envReturning [])
      filename emptyFs =
      ⟨fun p => if p = filename then some (.file (.json .null)) else emptyFs p, none, [], [],
        true⟩ := by
    simp [workerPair, ReadRawObjects, emptyFs, envReturning, extractList, extractItems,
      WriteRawObjects, jsonMarshal, sanitizeCalls]
  refine ⟨?_, rfl, rfl, rfl⟩
  rw [h1]
  refine ⟨rfl, by simp, by simp [ReadRawObjects, jsonUnmarshal], ?_⟩
  simp [workerPair, ReadRawObjects, jsonUnmarshal, envReturning, extractList, extractItems,
    WriteRawObjects]

/-! ### The error count -/

/-- The errors sent by `extractList` are those of the failed calls of `Sanitize`. -/
theorem extractItems_sent (parseTime : String → Option Int) (cfg : GVK) (keepDeleted : Bool)
    (l : RawObjects) (items : List JMap) :
    (extractItems parseTime cfg keepDeleted l items).2 ≠ [] ↔
      ∃ res ∈ sanitizeCalls parseTime (.ok items) cfg keepDeleted, ∃ se, res = .error se := by
  induction items generalizing l with
  | nil => simp [extractItems, sanitizeCalls]
  | cons uObj rest ih =>
    simp only [sanitizeCalls, List.map_cons, List.mem_cons, exists_eq_or_imp] at ih ⊢
    cases hS : Sanitize parseTime uObj cfg.IgnoreNames cfg.PathValueFilters cfg.KeepAnnotations
        cfg.KeepLabels cfg.KeepPaths cfg.IgnorePaths keepDeleted with
    | error e => simp [extractItems, hS]
    | ok r =>
      cases r with
      | none => simp [extractItems, hS, ih]
      | some s => simp [extractItems, hS, ih]

/-- One pass of the worker sends an error exactly when it abandons the pair on one of the
three sending branches or a call of `Sanitize` fails. -/
theorem workerPair_sent (parseTime : String → Option Int) (keepDeleted : Bool)
    (context gvkString : String) (cfg : GVK) (env : PairEnv) (filename : String)
    (fs : FileSystem) :
    (workerPair parseTime keepDeleted context gvkString cfg env filename fs).sent ≠ [] ↔
      (∃ e, (workerPair parseTime keepDeleted context gvkString cfg env filename fs).failure = some e ∧
        sentStage e = true) ∨
      ∃ res ∈ (workerPair parseTime keepDeleted context gvkString cfg env filename fs).sanitizeResults,
        ∃ se, res = .error se := by
  unfold workerPair
  cases hread : ReadRawObjects fs filename with
  | error e => simp [sentStage]
  | ok cached =>
    cases cached with
    | some c => simp
    | none =>
      cases hcc : env.clientConfig with
      | error e => simp [sentStage]
      | ok u =>
        cases hcl : env.client with
        | error e => simp [sentStage]
        | ok u' =>
          cases hl : env.list with
          | error e => simp [sentStage, sanitizeCalls]
          | ok rawList =>
            cases rawList with
            | error e => simp [extractList, sentStage, sanitizeCalls]
            | ok items =>
              have key := extractItems_sent parseTime cfg keepDeleted none items
              cases hw : WriteRawObjects fs env.writeOk filename
                  (extractItems parseTime cfg keepDeleted none items).1 with
              | error e => simpa [extractList, hw, sentStage] using key
              | ok fs' => simpa [extractList, hw, sentStage] using key

/-- Every result of one context's loop is a pass of `workerPair`. -/
theorem mem_workerContext (parseTime : String → Option Int) (keepDeleted : Bool)
    (mkFilename : String → String → String) (env : String → String → PairEnv)
    (context : String) (fs : FileSystem) (gvkConfigs : List (String × GVK)) (r : PairResult)
    (h : r ∈ workerContext parseTime keepDeleted mkFilename env context fs gvkConfigs) :
    ∃ gvkString cfg pe filename fs', r = workerPair parseTime keepDeleted context gvkString cfg
      pe filename fs' := by
  induction gvkConfigs generalizing fs with
  | nil => simp [workerContext] at h
  | cons g rest ih =>
    obtain ⟨gvkString, cfg⟩ := g
    simp only [workerContext, List.mem_cons] at h
    rcases h with h | h
    · exact ⟨_, _, _, _, _, h⟩
    · exact ih _ h

/-- Every result of a run is a pass of `workerPair`. -/
theorem mem_runWorkers (parseTime : String → Option Int) (keepDeleted : Bool)
    (mkFilename : String → String → String) (env : String → String → PairEnv)
    (gvkConfigs : List (String × GVK)) (fs : FileSystem) (contexts : List String)
    (r : PairResult)
    (h : r ∈ runWorkers parseTime keepDeleted mkFilename env gvkConfigs fs contexts) :
    ∃ context gvkString cfg pe filename fs', r = workerPair parseTime keepDeleted context
      gvkString cfg pe filename fs' := by
  induction contexts generalizing fs with
  | nil => simp [runWorkers] at h
  | cons c rest ih =>
    simp only [runWorkers, List.mem_append] at h
    rcases h with h | h
    · exact ⟨c, mem_workerContext _ _ _ _ _ _ _ _ h⟩
    · exact ih _ h

/-- Some error was sent exactly when some pass sent an error. -/
theorem sentCount_pos (results : List PairResult) :
    0 < sentCount results ↔ ∃ r ∈ results, r.sent ≠ [] := by
  induction results with
  | nil => simp [sentCount]
  | cons r rest ih =>
    have hsum : sentCount (r :: rest) = r.sent.length + sentCount rest := by
      simp [sentCount]
    rw [hsum, List.exists_mem_cons_iff, ← ih]
    cases hs : r.sent with
    | nil => simp
    | cons e es => simp

/-- Whenever the count is read, it is at most the number of errors sent. -/
theorem errorCount_le_sentCount (counted : Nat) (results : List PairResult) :
    errorCount counted results ≤ sentCount results :=
  Nat.min_le_right _ _

/-- Read after the counting goroutine has counted every error sent, the error count is
the number of errors sent. -/
theorem errorCount_of_counted (counted : Nat) (results : List PairResult)
    (h : sentCount results ≤ counted) : errorCount counted results = sentCount results :=
  Nat.min_eq_right h

/-- Read after the counting goroutine has counted every error sent, the error count is
positive exactly when some pass sent an error. -/
theorem errorCount_pos (counted : Nat) (results : List PairResult)
    (h : sentCount results ≤ counted) :
    0 < errorCount counted results ↔ ∃ r ∈ results, r.sent ≠ [] := by
  rw [errorCount_of_counted counted results h]
  exact sentCount_pos results

/-- Whenever the count is read, a positive count means that some pass sent an error. -/
theorem sent_of_errorCount_pos (counted : Nat) (results : List PairResult)
    (h : 0 < errorCount counted results) : ∃ r ∈ results, r.sent ≠ [] :=
  (sentCount_pos results).1 (Nat.lt_of_lt_of_le h (errorCount_le_sentCount counted results))

/-- An error built on one of the three sending branches is sent. -/
theorem workerPair_failure_sent (parseTime : String → Option Int) (keepDeleted : Bool)
    (context gvkString : String) (cfg : GVK) (pe : PairEnv) (filename : String)
    (fs : FileSystem) (e : KvErr)
    (h : (workerPair parseTime keepDeleted context gvkString cfg pe filename fs).failure = some e)
    (hs : sentStage e = true) :
    e ∈ (workerPair parseTime keepDeleted context gvkString cfg pe filename fs).sent := by
  unfold workerPair at h ⊢
  cases hread : ReadRawObjects fs filename with
  | error e' => simp [hread] at h ⊢; exact h.symm
  | ok cached =>
    cases cached with
    | some c => simp [hread] at h
    | none =>
      cases hcc : pe.clientConfig with
      | error e' => simp [hread, hcc] at h ⊢; exact h.symm
      | ok u =>
        cases hcl : pe.client with
        | error e' => simp [hread, hcc, hcl] at h ⊢; exact h.symm
        | ok u' =>
          cases hl : pe.list with
          | error e' =>
            simp [hread, hcc, hcl, hl] at h
            subst h
            simp [sentStage] at hs
          | ok rawList =>
            cases rawList with
            | error e' =>
              simp [hread, hcc, hcl, hl, extractList] at h
              subst h
              simp [sentStage] at hs
            | ok items =>
              cases hw : WriteRawObjects fs pe.writeOk filename
                  (extractItems parseTime cfg keepDeleted none items).1 with
              | error e' =>
                simp [hread, hcc, hcl, hl, extractList, hw] at h
                subst h
                simp [sentStage] at hs
              | ok fs' => simp [hread, hcc, hcl, hl, extractList, hw] at h

/-- C7, amended. For every run in which no pair is abandoned at the list, list-extraction
or cache-write stage, and in which the counting goroutine has counted every error sent
when the count is read, the error count that decides the exit status is positive if and
only if some (context, kind) pair failed (at cache read, client-config resolution or
client creation) or some call of `Sanitize` returned an error; and the error of every
failed pair is sent to the error channel. -/
theorem errorCount_pos_iff (parseTime : String → Option Int) (keepDeleted : Bool)
    (mkFilename : String → String → String) (env : String → String → PairEnv)
    (gvkConfigs : List (String × GVK)) (fs : FileSystem) (contexts : List String)
    (counted : Nat)
    (hstage : ∀ r ∈ runWorkers parseTime keepDeleted mkFilename env gvkConfigs fs contexts,
      ∀ e, r.failure = some e → sentStage e = true)
    (hcounted : sentCount (runWorkers parseTime keepDeleted mkFilename env gvkConfigs fs
      contexts) ≤ counted) :
    (0 < errorCount counted
        (runWorkers parseTime keepDeleted mkFilename env gvkConfigs fs contexts) ↔
      ∃ r ∈ runWorkers parseTime keepDeleted mkFilename env gvkConfigs fs contexts,
        r.failure.isSome = true ∨ ∃ res ∈ r.sanitizeResults, ∃ se, res = .error se) ∧
    (∀ r ∈ runWorkers parseTime keepDeleted mkFilename env gvkConfigs fs contexts,
      ∀ e, r.failure = some e → e ∈ r.sent) := by
  constructor
  · rw [errorCount_pos counted _ hcounted]
    constructor
    · rintro ⟨r, hr, hsent⟩
      refine ⟨r, hr, ?_⟩
      obtain ⟨c, g, cfg, pe, fn, fs', rfl⟩ := mem_runWorkers _ _ _ _ _ _ _ _ hr
      rcases (workerPair_sent _ _ _ _ _ _ _ _).1 hsent with ⟨e, he, _⟩ | h
      · exact Or.inl (by simp [he])
      · exact Or.inr h
    · rintro ⟨r, hr, h⟩
      refine ⟨r, hr, ?_⟩
      have hst := hstage r hr
      obtain ⟨c, g, cfg, pe, fn, fs', rfl⟩ := mem_runWorkers _ _ _ _ _ _ _ _ hr
      refine (workerPair_sent _ _ _ _ _ _ _ _).2 ?_
      rcases h with h | h
      · obtain ⟨e, he⟩ := Option.isSome_iff_exists.1 h
        exact Or.inl ⟨e, he, hst e he⟩
      · exact Or.inr h
  · intro r hr e he
    have hs := hstage r hr e he
    obtain ⟨c, g, cfg, pe, fn, fs', rfl⟩ := mem_runWorkers _ _ _ _ _ _ _ _ hr
    exact workerPair_failure_sent _ _ _ _ _ _ _ _ e he hs

/-- C7, as stated, fails: in this run of one pair every stage succeeds, so no pair fails,
yet `Sanitize` fails on the one record (its keep-path `spec/nodeName` runs through a
string) and the error is sent to the channel; read after the counting goroutine has
counted it, the error count is 1 and the exit status 1. -/
theorem errorCount_counterexample :
    (∀ r ∈ runWorkers exampleParseTime false (fun c g => g ++ "/" ++ c ++ ".json")
        (fun _ _ => envReturning [podBare]) [("pod", gvkRunning)] emptyFs ["c1"],
      r.failure = none) ∧
    sentCount (runWorkers exampleParseTime false (fun c g => g ++ "/" ++ c ++ ".json")
      (fun _ _ => envReturning [podBare]) [("pod", gvkRunning)] emptyFs ["c1"]) = 1 ∧
    errorCount 1 (runWorkers exampleParseTime false (fun c g => g ++ "/" ++ c ++ ".json")
      (fun _ _ => envReturning [podBare]) [("pod", gvkRunning)] emptyFs ["c1"]) = 1 ∧
    exitStatus 1 (runWorkers exampleParseTime false (fun c g => g ++ "/" ++ c ++ ".json")
      (fun _ _ => envReturning [podBare]) [("pod", gvkRunning)] emptyFs ["c1"]) = 1 := by
  have h : runWorkers exampleParseTime false (fun c g => g ++ "/" ++ c ++ ".json")
      (fun _ _ => envReturning [podBare]) [("pod", gvkRunning)] emptyFs ["c1"] =
      [workerPair exampleParseTime false "c1" "pod" gvkRunning (envReturning [podBare])
        "pod/c1.json" emptyFs] := rfl
  refine ⟨?_, rfl, rfl, rfl⟩
  rw [h]
  intro r hr
  simp only [List.mem_singleton] at hr
  subst hr
  rfl

/-- Witness for `errorCount_pos_iff`: two contexts whose client cannot be created, the
count read after both errors are counted. -/
theorem errorCount_pos_iff_witness :
    (0 < errorCount 2 (runWorkers exampleParseTime false (fun c g => g ++ "/" ++ c ++ ".json")
        (fun _ _ => { envReturning [] with client := .error "no route" })
        [("pod", gvkRunning)] emptyFs ["c1", "c2"]) ↔
      ∃ r ∈ runWorkers exampleParseTime false (fun c g => g ++ "/" ++ c ++ ".json")
        (fun _ _ => { envReturning [] with client := .error "no route" })
        [("pod", gvkRunning)] emptyFs ["c1", "c2"],
        r.failure.isSome = true ∨ ∃ res ∈ r.sanitizeResults, ∃ se, res = .error se) ∧
    (∀ r ∈ runWorkers exampleParseTime false (fun c g => g ++ "/" ++ c ++ ".json")
        (fun _ _ => { envReturning [] with client := .error "no route" })
        [("pod", gvkRunning)] emptyFs ["c1", "c2"],
      ∀ e, r.failure = some e → e ∈ r.sent) :=
  errorCount_pos_iff exampleParseTime false (fun c g => g ++ "/" ++ c ++ ".json")
    (fun _ _ => { envReturning [] with client := .error "no route" })
    [("pod", gvkRunning)] emptyFs ["c1", "c2"] 2
    (by
      have h : runWorkers exampleParseTime false (fun c g => g ++ "/" ++ c ++ ".json")
          (fun _ _ => { envReturning [] with client := .error "no route" })
          [("pod", gvkRunning)] emptyFs ["c1", "c2"] =
          [⟨emptyFs, some ⟨"failed to create client (is proxy configured correctly?)",
              ["gvk", "pod", "context", "c1"]⟩, [],
              [⟨"failed to create client (is proxy configured correctly?)",
                ["gvk", "pod", "context", "c1"]⟩], false⟩,
           ⟨emptyFs, some ⟨"failed to create client (is proxy configured correctly?)",
              ["gvk", "pod", "context", "c2"]⟩, [],
              [⟨"failed to create client (is proxy configured correctly?)",
                ["gvk", "pod", "context", "c2"]⟩], false⟩] := rfl
      rw [h]
      intro r hr e he
      simp only [List.mem_cons, List.mem_singleton, List.not_mem_nil, or_false] at hr
      rcases hr with rfl | rfl <;>
      · simp only [Option.some.injEq] at he
        subst he
        rfl)
    (Nat.le_of_eq rfl)

/-- The read of the error count does not wait for the counting goroutine: in the run of
the two contexts whose client cannot be created, two errors are sent (the channel holds
both), and read before either is counted the error count is 0 and the exit status 0. -/
theorem errorCount_unsynchronised :
    sentCount (runWorkers exampleParseTime false (fun c g => g ++ "/" ++ c ++ ".json")
      (fun _ _ => { envReturning [] with client := .error "no route" })
      [("pod", gvkRunning)] emptyFs ["c1", "c2"]) = 2 ∧
    errorCount 0 (runWorkers exampleParseTime false (fun c g => g ++ "/" ++ c ++ ".json")
      (fun _ _ => { envReturning [] with client := .error "no route" })
      [("pod", gvkRunning)] emptyFs ["c1", "c2"]) = 0 ∧
    exitStatus 0 (runWorkers exampleParseTime false (fun c g => g ++ "/" ++ c ++ ".json")
      (fun _ _ => { envReturning [] with client := .error "no route" })
      [("pod", gvkRunning)] emptyFs ["c1", "c2"]) = 0 :=
  ⟨rfl, rfl, rfl⟩

/-- Whenever the count is read, a positive error count means that some (context, kind)
pair failed at cache read, client-config resolution or client creation, or that some call
of `Sanitize` returned an error. -/
theorem errorCount_pos_only_if (parseTime : String → Option Int) (keepDeleted : Bool)
    (mkFilename : String → String → String) (env : String → String → PairEnv)
    (gvkConfigs : List (String × GVK)) (fs : FileSystem) (contexts : List String)
    (counted : Nat)
    (h : 0 < errorCount counted
      (runWorkers parseTime keepDeleted mkFilename env gvkConfigs fs contexts)) :
    ∃ r ∈ runWorkers parseTime keepDeleted mkFilename env gvkConfigs fs contexts,
      (∃ e, r.failure = some e ∧ sentStage e = true) ∨
      ∃ res ∈ r.sanitizeResults, ∃ se, res = .error se := by
  obtain ⟨r, hr, hsent⟩ := sent_of_errorCount_pos counted _ h
  refine ⟨r, hr, ?_⟩
  obtain ⟨c, g, cfg, pe, fn, fs', rfl⟩ := mem_runWorkers _ _ _ _ _ _ _ _ hr
  exact (workerPair_sent _ _ _ _ _ _ _ _).1 hsent

/-! ### The kind-key parser -/

/-- The cut fails exactly when the separator does not occur. -/
theorem cutFirst_none (sep : Char) (l : List Char) : cutFirst sep l = none ↔ sep ∉ l := by
  induction l with
  | nil => simp [cutFirst]
  | cons c cs ih =>
    simp only [cutFirst]
    by_cases h : c = sep
    · simp [h]
    · simp only [h, if_false]
      cases hc : cutFirst sep cs with
      | none => simp [hc] at ih; simp [ih, Ne.symm h]
      | some p => simp [hc] at ih; simp [ih]

/-- The two parts of a cut are the text before and the text after the first separator. -/
theorem cutFirst_some (sep : Char) (l a b : List Char) (h : cutFirst sep l = some (a, b)) :
    a = l.takeWhile (fun c => c != sep) ∧ b = (l.dropWhile (fun c => c != sep)).drop 1 ∧ sep ∈ l := by
  induction l generalizing a b with
  | nil => simp [cutFirst] at h
  | cons c cs ih =>
    simp only [cutFirst] at h
    by_cases hc : c = sep
    · simp [hc] at h
      simp [hc, h.1.symm, h.2.symm]
    · simp only [hc, if_false] at h
      cases hcs : cutFirst sep cs with
      | none => simp [hcs] at h
      | some p =>
        obtain ⟨a', b'⟩ := p
        simp [hcs] at h
        obtain ⟨ha, hb, hm⟩ := ih a' b' hcs
        have hne : (c != sep) = true := by simpa using hc
        simp [List.takeWhile_cons, List.dropWhile_cons, hne, ← h.1, ← h.2, ha, hb, hm]

/-- The cut of `a ++ sep :: b` when `a` has no separator. -/
theorem cutFirst_append (sep : Char) (a b : List Char) (h : sep ∉ a) :
    cutFirst sep (a ++ sep :: b) = some (a, b) := by
  induction a with
  | nil => simp [cutFirst]
  | cons c cs ih =>
    have hc : ¬ c = sep := fun hc => h (by simp [hc])
    have hcs : sep ∉ cs := fun hm => h (List.mem_cons_of_mem _ hm)
    simp [cutFirst, hc, ih hcs]

/-- C8. Kind-key parsing equals the documented algorithm: for every key, except the keys
whose part after the first dot has no dot and matches `^v\d+`, `parseGVKString` returns
the `(group, version, kind)` of `parseGVKDocumented`: `("", "", key)` without a dot;
`(rest, "", kind)` when `rest` has no dot; `(tail, head, kind)` when `rest = head.tail`
and `head` matches the version pattern; `(rest, "", kind)` otherwise. -/
theorem parseGVKString_documented (key : String)
    (h : ¬ (hasDot key = true ∧ hasDot (afterFirstDot key) = false ∧
      versionRegexp.MatchString (afterFirstDot key) = true)) :
    parseGVKString key = parseGVKDocumented key := by
  unfold parseGVKString parseGVKDocumented stringsSplitN2
  cases h1 : cutFirst '.' key.data with
  | none =>
    have hd : hasDot key = false := by
      simpa [hasDot] using (cutFirst_none '.' key.data).1 h1
    simp [hd]
  | some p =>
    obtain ⟨a, b⟩ := p
    obtain ⟨ha, hb, hm⟩ := cutFirst_some '.' key.data a b h1
    have hd : hasDot key = true := by simpa [hasDot] using hm
    have hk : beforeFirstDot key = String.mk a := by simp [beforeFirstDot, ha]
    have hr : afterFirstDot key = String.mk b := by simp [afterFirstDot, hb]
    rw [hr] at h
    simp only [hd, hk, hr]
    cases h2 : cutFirst '.' b with
    | none =>
      have hd2 : hasDot (String.mk b) = false := by
        simpa [hasDot] using (cutFirst_none '.' b).1 h2
      have hv : versionRegexp.MatchString (String.mk b) = false := by
        cases hv : versionRegexp.MatchString (String.mk b) with
        | false => rfl
        | true => exact absurd ⟨hd, hd2, hv⟩ h
      simp [hd2, hv]
    | some q =>
      obtain ⟨a', b'⟩ := q
      obtain ⟨ha', hb', hm'⟩ := cutFirst_some '.' b a' b' h2
      have hd2 : hasDot (String.mk b) = true := by simpa [hasDot] using hm'
      have hk2 : beforeFirstDot (String.mk b) = String.mk a' := by simp [beforeFirstDot, ha']
      have hr2 : afterFirstDot (String.mk b) = String.mk b' := by simp [afterFirstDot, hb']
      simp [hd2, hk2, hr2]

/-- Witness for `parseGVKString_documented`, at the key of the repository's test. -/
theorem parseGVKString_documented_witness :
    parseGVKString "group.v1alpha1.mlowery.github.com" =
      parseGVKDocumented "group.v1alpha1.mlowery.github.com" :=
  parseGVKString_documented "group.v1alpha1.mlowery.github.com" (by decide)

/-- The four cases of `Test_parseGVKString` in config_test.go. -/
theorem parseGVKString_tests :
    parseGVKString "namespace" = ("", "", "namespace") ∧
    parseGVKString "namespace." = ("", "", "namespace") ∧
    parseGVKString "group.mlowery.github.com" = ("mlowery.github.com", "", "group") ∧
    parseGVKString "group.v1alpha1.mlowery.github.com" =
      ("mlowery.github.com", "v1alpha1", "group") := by
  decide

/-- C9, as stated, fails: `pod.v1` has a dot-free kind and a dot-free qualifier that
matches the version pattern, and `parseGVKString` returns it as the group, with an empty
version. -/
theorem parseGVKString_version_only_counterexample :
    hasDot "pod" = false ∧ hasDot "v1" = false ∧ versionRegexp.MatchString "v1" = true ∧
    parseGVKString ("pod" ++ "." ++ "v1") = ("v1", "", "pod") ∧
    parseGVKString ("pod" ++ "." ++ "v1") ≠ ("", "v1", "pod") := by
  decide

/-- C9, amended. Single qualifier: for every key `kind.rest` where `kind` and `rest`
contain no dot, whether or not `rest` matches the version pattern, `parseGVKString`
returns group = `rest`, version = `""` and kind = `kind`. -/
theorem parseGVKString_single_qualifier (kind rest : String)
    (hk : hasDot kind = false) (hr : hasDot rest = false) :
    parseGVKString (kind ++ "." ++ rest) = (rest, "", kind) := by
  have hk' : '.' ∉ kind.data := by simpa [hasDot] using hk
  have hr' : '.' ∉ rest.data := by simpa [hasDot] using hr
  have hdata : (kind ++ "." ++ rest).data = kind.data ++ '.' :: rest.data := by
    simp [String.data_append]
  have h2 : cutFirst '.' rest.data = none := (cutFirst_none _ _).2 hr'
  simp [parseGVKString, stringsSplitN2, hdata, cutFirst_append _ _ _ hk', h2]

/-- Witness for `parseGVKString_single_qualifier`. -/
theorem parseGVKString_single_qualifier_witness :
    parseGVKString ("pod" ++ "." ++ "v1") = ("v1", "", "pod") :=
  parseGVKString_single_qualifier "pod" "v1" (by decide) (by decide)

/-! ### Malformed filter targets -/

/-- C10, as stated, fails: the pod `podDns` is not excluded by name, has no deletion
timestamp and has a single filter, `status/phase`, whose path runs through the string
`status`; `Sanitize` returns an error, not the record. -/
theorem Sanitize_malformed_filter_counterexample :
    matchesAny (genKey podDns) [] = false ∧
    (GetDeletionTimestamp exampleParseTime podDns).isSome = false ∧
    NestedFieldNoCopy podDns ["status"] = .ok (some (.str "Running")) ∧
    Sanitize exampleParseTime podDns [] [("status/phase", reRunning)] [] [] [] [] false =
      .error (.getNestedMap "kube-system/dns" "status/phase" (.notMap ["phase"])) :=
  ⟨rfl, rfl, rfl, rfl⟩

/-- C10, amended. A malformed filter target is an error: for a record that is not
excluded by name and not dropped for pending deletion, when no filter drops the record
(each target is malformed, missing or matching) and `NestedString` reports an error for
the path of some filter (it runs through a value that is neither a mapping nor null, or
ends at a value that is not a string), `Sanitize` returns an error and no record. -/
theorem Sanitize_malformed_filter_error (parseTime : String → Option Int) (obj : JMap)
    (ignoreNames : List Regexp) (pathValueFilters : List (String × Regexp))
    (keepAnnotations keepLabels : List Regexp) (keepPaths ignorePaths : List String)
    (keepDeleted : Bool)
    (hname : matchesAny (genKey obj) ignoreNames = false)
    (hdel : ¬ ((GetDeletionTimestamp parseTime obj).isSome = true ∧ keepDeleted = false))
    (hother : ∀ f ∈ pathValueFilters,
      (∃ e, NestedString obj (pathToSegments f.1) = .error e) ∨
      NestedString obj (pathToSegments f.1) = .ok none ∨
      ∃ v, NestedString obj (pathToSegments f.1) = .ok (some v) ∧ f.2.MatchString v = true)
    (hmal : ∃ f ∈ pathValueFilters, ∃ e, NestedString obj (pathToSegments f.1) = .error e) :
    ∃ e, Sanitize parseTime obj ignoreNames pathValueFilters keepAnnotations keepLabels
        keepPaths ignorePaths keepDeleted = .error e := by
  have hdel' : ((GetDeletionTimestamp parseTime obj).isSome && !keepDeleted) = false := by
    cases h1 : (GetDeletionTimestamp parseTime obj).isSome <;> cases h2 : keepDeleted <;>
      simp_all
  obtain ⟨e, he⟩ := checkPathValueFilters_malformed obj (genKey obj) pathValueFilters hother hmal
  exact ⟨e, by unfold Sanitize; simp [hname, hdel', he]⟩

/-- Witness for `Sanitize_malformed_filter_error`, at a pod whose `status` is a string. -/
theorem Sanitize_malformed_filter_error_witness :
    ∃ e, Sanitize exampleParseTime podDns [] [("status/phase", reRunning)] [reApp] []
      ["spec"] [] false = .error e :=
  Sanitize_malformed_filter_error exampleParseTime podDns [] [("status/phase", reRunning)]
    [reApp] [] ["spec"] [] false (by decide) (by decide)
    (by
      intro f hf
      simp only [List.mem_singleton] at hf
      subst hf
      exact Or.inl ⟨.notMap ["phase"], rfl⟩)
    ⟨("status/phase", reRunning), by simp, .notMap ["phase"], rfl⟩

/-! ### The cache file name -/

/-- A split is never empty. -/
theorem splitChars_ne_nil (sep : Char) (l : List Char) : splitChars sep l ≠ [] := by
  induction l with
  | nil => simp [splitChars]
  | cons c cs ih =>
    simp only [splitChars]
    split
    · simp
    · split <;> simp

/-- A text without the separator is its own single part. -/
theorem splitChars_of_not_mem (sep : Char) (l : List Char) (h : sep ∉ l) :
    splitChars sep l = [l] := by
  induction l with
  | nil => rfl
  | cons c cs ih =>
    have hc : ¬ c = sep := fun hc => h (by simp [hc])
    have hcs : sep ∉ cs := fun hm => h (List.mem_cons_of_mem _ hm)
    simp [splitChars, hc, ih hcs]

/-- The parts of `a ++ sep :: b` are the parts of `a` followed by the parts of `b`. -/
theorem splitChars_append (sep : Char) (a b : List Char) :
    splitChars sep (a ++ sep :: b) = splitChars sep a ++ splitChars sep b := by
  induction a with
  | nil => simp [splitChars]
  | cons c cs ih =>
    by_cases hc : c = sep
    · simp [splitChars, hc, ih]
    · simp only [List.cons_append, splitChars, hc, if_false]
      have ih' : splitChars sep (cs.append (sep :: b)) = splitChars sep cs ++ splitChars sep b := ih
      rw [ih']
      cases hs : splitChars sep cs with
      | nil => exact absurd hs (splitChars_ne_nil _ _)
      | cons h t => simp

/-- A step of the cleaning keeps the kept elements well formed. -/
theorem keptOk_cleanStep (rooted : Bool) (kept : List (List Char)) (elem : List Char)
    (hk : keptOk rooted kept) (he : '/' ∉ elem) : keptOk rooted (cleanStep rooted kept elem) := by
  unfold cleanStep
  by_cases h1 : elem = [] ∨ elem = ['.']
  · simp [h1, hk]
  · simp only [h1, if_false]
    push_neg at h1
    by_cases h2 : elem = ['.', '.']
    · simp only [h2, if_true]
      cases kept with
      | nil =>
        cases rooted <;> simp [keptOk]
      | cons top rest =>
        by_cases h3 : top = ['.', '.']
        · cases rooted with
          | true => simpa [h3] using hk
          | false =>
            simp only [h3, if_true]
            refine ⟨by simpa [h3] using hk, by simp, by simp, by simp, fun _ => ⟨rfl, ?_⟩⟩
            simp
        · simp only [h3, if_false]
          exact hk.1
    · simp only [h2, if_false]
      exact ⟨hk, h1.1, he, h1.2, fun h => absurd h h2⟩

/-- Every part of a split is free of the separator. -/
theorem not_mem_of_mem_splitChars (sep : Char) (l e : List Char) (h : e ∈ splitChars sep l) :
    sep ∉ e := by
  induction l generalizing e with
  | nil =>
    simp [splitChars] at h
    simp [h]
  | cons c cs ih =>
    simp only [splitChars] at h
    by_cases hc : c = sep
    · simp only [hc, if_true, List.mem_cons] at h
      rcases h with rfl | h
      · simp
      · exact ih e h
    · simp only [hc, if_false] at h
      cases hs : splitChars sep cs with
      | nil => exact absurd hs (splitChars_ne_nil _ _)
      | cons x t =>
        rw [hs] at h ih
        simp only [List.mem_cons] at h
        rcases h with rfl | h
        · have := ih x (by simp)
          simp [this, Ne.symm hc]
        · exact ih e (by simp [h])

/-- The fold of the cleaning keeps the kept elements well formed. -/
theorem keptOk_foldl (rooted : Bool) (elems : List (List Char)) (kept : List (List Char))
    (hk : keptOk rooted kept) (he : ∀ e ∈ elems, '/' ∉ e) :
    keptOk rooted (elems.foldl (cleanStep rooted) kept) := by
  induction elems generalizing kept with
  | nil => exact hk
  | cons e rest ih =>
    simp only [List.foldl_cons]
    exact ih _ (keptOk_cleanStep rooted kept e hk (he e (by simp)))
      (fun x hx => he x (by simp [hx]))

/-- The kept elements of any path are well formed. -/
theorem keptOk_cleanElems (rooted : Bool) (path : List Char) :
    keptOk rooted (cleanElems rooted path) :=
  keptOk_foldl rooted _ [] trivial (fun e he => not_mem_of_mem_splitChars '/' path e he)

/-- Cleaning well-formed kept elements, first to last, keeps them all. -/
theorem foldl_cleanStep_reverse (rooted : Bool) (kept : List (List Char))
    (hk : keptOk rooted kept) : kept.reverse.foldl (cleanStep rooted) [] = kept := by
  induction kept with
  | nil => rfl
  | cons e rest ih =>
    obtain ⟨hrest, h1, _, h3, h4⟩ := hk
    rw [List.reverse_cons, List.foldl_append, ih hrest]
    simp only [List.foldl_cons, List.foldl_nil]
    unfold cleanStep
    simp only [h1, h3, or_self, if_false]
    by_cases h2 : e = ['.', '.']
    · obtain ⟨hr, htop⟩ := h4 h2
      subst hr
      cases rest with
      | nil => simp [h2]
      | cons top t =>
        have := htop top (by simp)
        simp [h2, this]
    · simp [h2]

/-- The parts of joined elements that hold no separator are the elements. -/
theorem splitChars_joinElems (elems : List (List Char)) (hne : elems ≠ [])
    (h : ∀ e ∈ elems, '/' ∉ e) : splitChars '/' (joinElems elems) = elems := by
  induction elems with
  | nil => exact absurd rfl hne
  | cons e rest ih =>
    cases rest with
    | nil => simpa [joinElems] using splitChars_of_not_mem '/' e (h e (by simp))
    | cons e' t =>
      simp only [joinElems]
      rw [splitChars_append, splitChars_of_not_mem '/' e (h e (by simp)),
        ih (by simp) (fun x hx => h x (List.mem_cons_of_mem _ hx))]
      rfl

/-- Well-formed kept elements are not empty and hold no separator. -/
theorem keptOk_mem (rooted : Bool) (kept : List (List Char)) (hk : keptOk rooted kept) :
    ∀ e ∈ kept, e ≠ [] ∧ '/' ∉ e := by
  induction kept with
  | nil => simp
  | cons e rest ih =>
    intro x hx
    rcases List.mem_cons.1 hx with rfl | hx
    · exact ⟨hk.2.1, hk.2.2.1⟩
    · exact ih hk.1 x hx

/-- A written path starts with the separator exactly when it is rooted. -/
theorem isRooted_renderElems (rooted : Bool) (kept : List (List Char))
    (hk : keptOk rooted kept) : isRooted (renderElems rooted kept) = rooted := by
  cases rooted with
  | true => simp [renderElems, isRooted]
  | false =>
    cases hrev : kept.reverse with
    | nil =>
      have : kept = [] := by simpa using hrev
      simp [renderElems, this, isRooted]
    | cons e rest =>
      have hne : kept ≠ [] := by
        intro h
        simp [h] at hrev
      have he : e ∈ kept := by
        have : e ∈ kept.reverse := by simp [hrev]
        simpa using this
      obtain ⟨he1, he2⟩ := keptOk_mem false kept hk e he
      simp only [renderElems, hne, if_false, hrev, Bool.false_eq_true]
      cases e with
      | nil => exact absurd rfl he1
      | cons c cs =>
        have hc : c ≠ '/' := fun h => he2 (by simp [h])
        cases rest with
        | nil =>
          simp only [joinElems, isRooted]
          split
          · rename_i heq
            simp at heq
            exact absurd heq.1 hc
          · rfl
        | cons e' t =>
          simp only [joinElems, List.cons_append, isRooted]
          split
          · rename_i heq
            simp at heq
            exact absurd heq.1 hc
          · rfl

/-- Cleaning a written path gives back its kept elements. -/
theorem cleanElems_renderElems (rooted : Bool) (kept : List (List Char))
    (hk : keptOk rooted kept) : cleanElems rooted (renderElems rooted kept) = kept := by
  have hmem := keptOk_mem rooted kept hk
  have hsplit : kept ≠ [] → splitChars '/' (joinElems kept.reverse) = kept.reverse :=
    fun hne => splitChars_joinElems kept.reverse (by simpa using hne)
      (fun e he => (hmem e (by simpa using he)).2)
  unfold cleanElems renderElems
  by_cases hne : kept = []
  · subst hne
    cases rooted <;> simp [splitChars, joinElems, cleanStep]
  · cases rooted with
    | true =>
      simp only [if_true, splitChars, hsplit hne]
      simp only [List.foldl_cons, cleanStep, true_or, if_true]
      exact foldl_cleanStep_reverse true kept hk
    | false =>
      simp only [Bool.false_eq_true, if_false, hne, hsplit hne]
      exact foldl_cleanStep_reverse false kept hk


/-- Cleaning `x/seg` keeps `seg` on top of the kept elements of `x`. -/
theorem cleanElems_append_segment (x seg : List Char) (hx : x ≠ [])
    (h1 : seg ≠ []) (h2 : '/' ∉ seg) (h3 : seg ≠ ['.']) (h4 : seg ≠ ['.', '.']) :
    isRooted (x ++ '/' :: seg) = isRooted x ∧
    cleanElems (isRooted x) (x ++ '/' :: seg) = seg :: cleanElems (isRooted x) x := by
  constructor
  · cases x with
    | nil => exact absurd rfl hx
    | cons c cs => by_cases hc : c = '/' <;> simp [isRooted, hc]
  · unfold cleanElems
    rw [splitChars_append, List.foldl_append, splitChars_of_not_mem '/' seg h2]
    simp [cleanStep, h1, h3, h4]

/-- A written path is not empty. -/
theorem renderElems_ne_nil (rooted : Bool) (kept : List (List Char))
    (hk : keptOk rooted kept) : renderElems rooted kept ≠ [] := by
  cases rooted with
  | true => simp [renderElems]
  | false =>
    intro h
    have := isRooted_renderElems false kept hk
    by_cases hne : kept = []
    · simp [renderElems, hne] at h
    · have h' := cleanElems_renderElems false kept hk
      rw [h] at h'
      simp [cleanElems, splitChars, cleanStep] at h'
      exact hne h'

/-- The `filepath.Join` of a non-empty first element. -/
theorem filepathJoin_of_ne (a b : String) (ha : a ≠ "") :
    (filepathJoin a b).data =
      renderElems (isRooted (a.data ++ '/' :: b.data))
        (cleanElems (isRooted (a.data ++ '/' :: b.data)) (a.data ++ '/' :: b.data)) := by
  have hdata : (a ++ "/" ++ b).data = a.data ++ '/' :: b.data := by
    simp [String.data_append]
  simp only [filepathJoin, ha, if_false, filepathClean, hdata]

/-- The directory `filepath.Join(workDir, gvkString)` for a kind key that is a plain
segment: the kind on top of the kept elements of the work directory. -/
theorem filepathJoin_segment (workDir seg : String) (hs : isPathSegment seg) :
    (filepathJoin workDir seg).data =
      renderElems (isRooted workDir.data)
        (seg.data :: cleanElems (isRooted workDir.data) workDir.data) := by
  obtain ⟨h1, h2, h3, h4⟩ := hs
  unfold filepathJoin
  by_cases hw : workDir = ""
  · subst hw
    have hne : seg ≠ "" := by
      intro h
      exact h1 (by simp [h])
    have hr : isRooted seg.data = false := by
      cases hd : seg.data with
      | nil => exact absurd hd h1
      | cons c cs =>
        have hc : c ≠ '/' := fun h => h2 (by simp [hd, h])
        simp only [isRooted]
        split
        · rename_i heq
          simp at heq
          exact absurd heq.1 hc
        · rfl
    simp only [if_true, hne, if_false, filepathClean, hr]
    simp [cleanElems, splitChars_of_not_mem '/' seg.data h2, cleanStep, h1, h3, h4, isRooted,
      splitChars]
  · have hwd : workDir.data ≠ [] := by
      intro h
      exact hw (String.ext h)
    obtain ⟨r1, r2⟩ := cleanElems_append_segment workDir.data seg.data hwd h1 h2 h3 h4
    have hdata : (workDir ++ "/" ++ seg).data = workDir.data ++ '/' :: seg.data := by
      simp [String.data_append]
    simp only [hw, if_false, filepathClean, hdata, r1, r2]

/-- The segment and the kept elements below it are well formed together. -/
theorem keptOk_cons_segment (rooted : Bool) (rest : List (List Char)) (seg : List Char)
    (hk : keptOk rooted rest)
    (h1 : seg ≠ []) (h2 : '/' ∉ seg) (h3 : seg ≠ ['.']) (h4 : seg ≠ ['.', '.']) :
    keptOk rooted (seg :: rest) :=
  ⟨hk, h1, h2, h3, fun h => absurd h h4⟩

/-- A file name `context.ext` is a plain segment when the context has no separator and
the extension is a plain segment. -/
theorem fileName_segment (context ext : String) (hc : '/' ∉ context.data)
    (he : isPathSegment ext) :
    (context ++ "." ++ ext).data ≠ [] ∧ '/' ∉ (context ++ "." ++ ext).data ∧
      (context ++ "." ++ ext).data ≠ ['.'] ∧ (context ++ "." ++ ext).data ≠ ['.', '.'] := by
  obtain ⟨e1, e2, e3, _⟩ := he
  have hdata : (context ++ "." ++ ext).data = context.data ++ '.' :: ext.data := by
    simp [String.data_append]
  rw [hdata]
  refine ⟨by simp, ?_, ?_, ?_⟩
  · simp [hc, e2]
  · cases hcd : context.data with
    | nil => simpa using e1
    | cons c cs => simp
  · cases hcd : context.data with
    | nil =>
      cases hed : ext.data with
      | nil => exact absurd hed e1
      | cons x xs =>
        cases xs with
        | nil =>
          simp only [List.nil_append, ne_eq, List.cons.injEq, and_true, true_and]
          intro hx
          exact e3 (by simp [hed, hx])
        | cons y ys => simp
    | cons c cs =>
      cases cs with
      | nil =>
        cases hed : ext.data with
        | nil => exact absurd hed e1
        | cons x xs => simp
      | cons c' cs' => simp

/-- The path of `MkCacheFilename`: the file name on top of the kind on top of the kept
elements of the work directory, and the same elements are read back from the path. -/
theorem MkCacheFilename_elems (mkdirAll : String → Bool) (workDir context gvkString ext p : String)
    (hk : isPathSegment gvkString) (hc : '/' ∉ context.data) (he : isPathSegment ext)
    (h : MkCacheFilename mkdirAll workDir context gvkString ext = .ok p) :
    p.data = renderElems (isRooted workDir.data)
      ((context ++ "." ++ ext).data :: gvkString.data ::
        cleanElems (isRooted workDir.data) workDir.data) ∧
    cleanElems (isRooted p.data) p.data =
      (context ++ "." ++ ext).data :: gvkString.data ::
        cleanElems (isRooted workDir.data) workDir.data := by
  obtain ⟨f1, f2, f3, f4⟩ := fileName_segment context ext hc he
  have hd := filepathJoin_segment workDir gvkString hk
  have hkd : keptOk (isRooted workDir.data)
      (gvkString.data :: cleanElems (isRooted workDir.data) workDir.data) :=
    keptOk_cons_segment _ _ _ (keptOk_cleanElems _ _) hk.1 hk.2.1 hk.2.2.1 hk.2.2.2
  have hkf := keptOk_cons_segment _ _ _ hkd f1 f2 f3 f4
  have hdne : (filepathJoin workDir gvkString).data ≠ [] := by
    rw [hd]
    exact renderElems_ne_nil _ _ hkd
  have hdne' : filepathJoin workDir gvkString ≠ "" := by
    intro h0
    exact hdne (by simp [h0])
  have hp : p = filepathJoin (filepathJoin workDir gvkString) (context ++ "." ++ ext) := by
    unfold MkCacheFilename at h
    simp only [] at h
    split at h
    · simpa using h.symm
    · simp at h
  have hdata : (filepathJoin workDir gvkString ++ "/" ++ (context ++ "." ++ ext)).data =
      (filepathJoin workDir gvkString).data ++ '/' :: (context ++ "." ++ ext).data := by
    simp [String.data_append]
  obtain ⟨r1, r2⟩ := cleanElems_append_segment (filepathJoin workDir gvkString).data
    (context ++ "." ++ ext).data hdne f1 f2 f3 f4
  have hroot : isRooted (filepathJoin workDir gvkString).data = isRooted workDir.data := by
    rw [hd]
    exact isRooted_renderElems _ _ hkd
  have hpd : p.data = renderElems (isRooted workDir.data)
      ((context ++ "." ++ ext).data :: gvkString.data ::
        cleanElems (isRooted workDir.data) workDir.data) := by
    rw [hp, filepathJoin_of_ne _ _ hdne', r1, r2, hroot, hd, cleanElems_renderElems _ _ hkd]
  refine ⟨hpd, ?_⟩
  rw [hpd, isRooted_renderElems _ _ hkf, cleanElems_renderElems _ _ hkf]

/-- C12, amended. Cache locations never collide for plain segments: for every work
directory, every extension that is a plain path segment, and every two pairs of a context
identifier without a separator and a kind key that is a plain path segment, the paths
that `MkCacheFilename` returns are equal exactly when the pairs are equal; the path is
the cleaned work directory followed by the kind and by `context.ext`. -/
theorem MkCacheFilename_distinct (mkdirAll : String → Bool)
    (workDir ext context1 gvkString1 context2 gvkString2 p1 p2 : String)
    (he : isPathSegment ext)
    (hk1 : isPathSegment gvkString1) (hk2 : isPathSegment gvkString2)
    (hc1 : '/' ∉ context1.data) (hc2 : '/' ∉ context2.data)
    (h1 : MkCacheFilename mkdirAll workDir context1 gvkString1 ext = .ok p1)
    (h2 : MkCacheFilename mkdirAll workDir context2 gvkString2 ext = .ok p2) :
    (p1 = p2 ↔ (context1, gvkString1) = (context2, gvkString2)) ∧
    p1.data = renderElems (isRooted workDir.data)
      ((context1 ++ "." ++ ext).data :: gvkString1.data ::
        cleanElems (isRooted workDir.data) workDir.data) := by
  obtain ⟨a1, b1⟩ := MkCacheFilename_elems mkdirAll workDir context1 gvkString1 ext p1 hk1 hc1 he h1
  obtain ⟨_, b2⟩ := MkCacheFilename_elems mkdirAll workDir context2 gvkString2 ext p2 hk2 hc2 he h2
  refine ⟨⟨?_, ?_⟩, a1⟩
  · intro hp
    rw [hp, b2] at b1
    simp only [List.cons.injEq, and_true] at b1
    obtain ⟨hf, hg⟩ := b1
    have hf' : context2.data ++ '.' :: ext.data = context1.data ++ '.' :: ext.data := by
      simpa [String.data_append] using hf
    have hcd : context2.data = context1.data := List.append_cancel_right hf'
    rw [Prod.mk.injEq]
    exact ⟨(String.ext hcd).symm, (String.ext hg).symm⟩
  · intro hpair
    rw [Prod.mk.injEq] at hpair
    obtain ⟨rfl, rfl⟩ := hpair
    rw [h1] at h2
    simpa using h2

/-- C12, as stated, fails: the distinct pairs (context `x/y`, kind `k`) and (context `y`,
kind `k/x`) get the same path. -/
theorem MkCacheFilename_collision :
    MkCacheFilename (fun _ => true) "work" "x/y" "k" "json" = .ok "work/k/x/y.json" ∧
    MkCacheFilename (fun _ => true) "work" "y" "k/x" "json" = .ok "work/k/x/y.json" ∧
    (("x/y", "k") : String × String) ≠ ("y", "k/x") :=
  ⟨rfl, rfl, by decide⟩

/-- Witness for `MkCacheFilename_distinct`: two contexts of the kind `pod`. -/
theorem MkCacheFilename_distinct_witness :
    (("/tmp/work/pod/c1.json" : String) = "/tmp/work/pod/c2.json" ↔
      (("c1", "pod") : String × String) = ("c2", "pod")) ∧
    ("/tmp/work/pod/c1.json" : String).data = renderElems (isRooted "/tmp/work".data)
      (("c1" ++ "." ++ "json").data :: "pod".data ::
        cleanElems (isRooted "/tmp/work".data) "/tmp/work".data) :=
  MkCacheFilename_distinct (fun _ => true) "/tmp/work" "json" "c1" "pod" "c2" "pod"
    "/tmp/work/pod/c1.json" "/tmp/work/pod/c2.json"
    (by simp [isPathSegment]) (by simp [isPathSegment]) (by simp [isPathSegment])
    (by decide) (by decide) rfl rfl

/-! ### Idempotence: paths -/

/-- A path has at least one segment. -/
theorem pathToSegments_ne_nil (path : String) : pathToSegments path ≠ [] := by
  unfold pathToSegments stringsSplit
  intro h
  exact splitChars_ne_nil '/' _ (List.map_eq_nil_iff.1 h)

/-- A path found along `p ++ r` is found along `p`, and the rest is found from there. -/
theorem nestedFrom_append_found (x v : JVal) (p r : List String)
    (h : nestedFrom x (p ++ r) = .ok (some v)) :
    ∃ u, nestedFrom x p = .ok (some u) ∧ nestedFrom u r = .ok (some v) := by
  induction p generalizing x with
  | nil => exact ⟨x, nestedFrom_nil x, h⟩
  | cons f ps ih =>
    rw [List.cons_append] at h
    obtain ⟨m, rfl⟩ := nestedFrom_found_obj x f _ v h
    rw [nestedFrom_obj_cons] at h ⊢
    cases hg : mapGet m f with
    | none => simp [hg] at h
    | some x' =>
      simp only [hg] at h ⊢
      exact ih x' h

/-- Two paths that lead to the same path are comparable. -/
theorem isPrefix_comparable (a b c : List String) (h1 : a <+: c) (h2 : b <+: c) :
    a <+: b ∨ b <+: a := by
  induction c generalizing a b with
  | nil =>
    obtain ⟨t, ht⟩ := h1
    have : a = [] := (List.append_eq_nil.1 ht).1
    subst this
    exact Or.inl (nil_isPrefix _)
  | cons x xs ih =>
    cases a with
    | nil => exact Or.inl (nil_isPrefix _)
    | cons y ys =>
      cases b with
      | nil => exact Or.inr (nil_isPrefix _)
      | cons z zs =>
        rw [cons_isPrefix_cons] at h1 h2
        obtain ⟨rfl, h1⟩ := h1
        obtain ⟨rfl, h2⟩ := h2
        rcases ih ys zs h1 h2 with h | h
        · exact Or.inl ((cons_isPrefix_cons _ _ _ _).2 ⟨rfl, h⟩)
        · exact Or.inr ((cons_isPrefix_cons _ _ _ _).2 ⟨rfl, h⟩)

/-- A value has the leaf of a mapping exactly when it is a mapping. -/
theorem leafOf_eq_none (v : JVal) : leafOf v = none ↔ ∃ m, v = .obj m := by
  cases v <;> simp [leafOf]

/-- A value that is not a mapping is determined by its leaf. -/
theorem eq_of_leafOf_eq_some (v w u : JVal) (h : leafOf w = leafOf v) (hv : leafOf v = some u) :
    w = v := by
  cases v <;> cases w <;> simp_all [leafOf]

/-- The relation `subVal` is reflexive. -/
theorem subVal_refl (a : JVal) : subVal a a := fun _ v h => ⟨v, h, rfl⟩

/-- The relation `subVal` is transitive. -/
theorem subVal_trans (a b c : JVal) (h1 : subVal a b) (h2 : subVal b c) : subVal a c := by
  intro p v hp
  obtain ⟨w, hw, hl⟩ := h1 p v hp
  obtain ⟨u, hu, hl'⟩ := h2 p w hw
  exact ⟨u, hu, hl'.trans hl⟩

/-- The relation `subVal` goes down to the values found along a path. -/
theorem subVal_at (a b a' : JVal) (p : List String) (h : subVal a b)
    (ha : nestedFrom a p = .ok (some a')) :
    ∃ b', nestedFrom b p = .ok (some b') ∧ leafOf b' = leafOf a' ∧ subVal a' b' := by
  obtain ⟨b', hb, hl⟩ := h p a' ha
  refine ⟨b', hb, hl, ?_⟩
  intro r v hr
  have h1 : nestedFrom a (p ++ r) = .ok (some v) := by
    rw [nestedFrom_append a a' p r ha]
    exact hr
  obtain ⟨w, hw, hlw⟩ := h (p ++ r) v h1
  rw [nestedFrom_append b b' p r hb] at hw
  exact ⟨w, hw, hlw⟩

/-- An error of the walk under `a` is an error of the walk under any `b` above `a`. -/
theorem subVal_error (a b : JVal) (p : List String) (e : AccessError) (h : subVal a b)
    (ha : nestedFrom a p = .error e) : ∃ e', nestedFrom b p = .error e' := by
  induction p generalizing a b with
  | nil => simp [nestedFrom_nil] at ha
  | cons f fs ih =>
    obtain ⟨b0, hb0, hl0⟩ := h [] a (nestedFrom_nil a)
    rw [nestedFrom_nil] at hb0
    cases hb0
    cases a with
    | obj m =>
      obtain ⟨m', rfl⟩ := (leafOf_eq_none b).1 (by simpa [leafOf] using hl0)
      rw [nestedFrom_obj_cons] at ha
      cases hg : mapGet m f with
      | none => simp [hg] at ha
      | some a' =>
        simp only [hg] at ha
        have hf : nestedFrom (.obj m) [f] = .ok (some a') := by
          rw [nestedFrom_obj_cons]
          simp [hg, nestedFrom_nil]
        obtain ⟨b', hb', _, hsub⟩ := subVal_at _ _ a' [f] h hf
        obtain ⟨e', he'⟩ := ih a' b' hsub ha
        refine ⟨e', ?_⟩
        rw [nestedFrom_obj_cons] at hb' ⊢
        cases hg' : mapGet m' f with
        | none => simp [hg'] at hb'
        | some y =>
          simp only [hg', nestedFrom_nil] at hb' ⊢
          cases hb'
          exact he'
    | null => simp [nestedFrom] at ha
    | bool x =>
      have := eq_of_leafOf_eq_some _ b _ hl0 rfl
      subst this
      exact ⟨e, ha⟩
    | num x =>
      have := eq_of_leafOf_eq_some _ b _ hl0 rfl
      subst this
      exact ⟨e, ha⟩
    | str x =>
      have := eq_of_leafOf_eq_some _ b _ hl0 rfl
      subst this
      exact ⟨e, ha⟩
    | arr x =>
      have := eq_of_leafOf_eq_some _ b _ hl0 rfl
      subst this
      exact ⟨e, ha⟩

/-- Under a record `b` above `a`, a string read from `a` is read from `b`; when the read
from `b` succeeds, the read from `a` gives the same string or nothing. -/
theorem NestedString_sub (a b : JMap) (p : List String) (r : Option String)
    (h : subFields a b) (hb : NestedString b p = .ok r) :
    NestedString a p = .ok none ∨ NestedString a p = .ok r := by
  unfold NestedString NestedFieldNoCopy at hb ⊢
  cases ha : nestedFrom (.obj a) p with
  | error e =>
    obtain ⟨e', he'⟩ := subVal_error _ _ p e h ha
    simp [he'] at hb
  | ok o =>
    cases o with
    | none => exact Or.inl rfl
    | some v =>
      obtain ⟨w, hw, hl⟩ := h p v ha
      rw [hw] at hb
      cases w with
      | str s =>
        have := eq_of_leafOf_eq_some _ v _ hl.symm rfl
        subst this
        exact Or.inr hb
      | _ => simp at hb

/-! ### Idempotence: removals -/

/-- A removal below a found path leaves the path found, with the same leaf. -/
theorem remove_above (m : JMap) (p r : List String) (v : JVal) (hr : r ≠ [])
    (h : nestedFrom (.obj m) p = .ok (some v)) :
    ∃ w, nestedFrom (.obj (RemoveNestedField m (p ++ r))) p = .ok (some w) ∧
      leafOf w = leafOf v := by
  induction p generalizing m with
  | nil =>
    rw [nestedFrom_nil] at h
    cases h
    exact ⟨_, nestedFrom_nil _, rfl⟩
  | cons f ps ih =>
    rw [nestedFrom_obj_cons] at h
    cases hg : mapGet m f with
    | none => simp [hg] at h
    | some x =>
      simp only [hg] at h
      cases hpr : ps ++ r with
      | nil => simp [hr] at hpr
      | cons g gs =>
        rw [List.cons_append, hpr, removeNested_cons_cons, hg]
        cases x with
        | obj sub =>
          simp only []
          rw [nestedFrom_obj_cons, mapGet_mapSet_self, ← hpr]
          exact ih sub h
        | _ =>
          simp only []
          exact ⟨v, by rw [nestedFrom_obj_cons, hg]; exact h, rfl⟩

/-- A removal keeps every found path that does not lie on or under the removed one, with
the same leaf. -/
theorem remove_keeps (m : JMap) (fs p : List String) (v : JVal) (hn : ¬ fs <+: p)
    (h : nestedFrom (.obj m) p = .ok (some v)) :
    ∃ w, nestedFrom (.obj (RemoveNestedField m fs)) p = .ok (some w) ∧ leafOf w = leafOf v := by
  by_cases h2 : p <+: fs
  · obtain ⟨r, rfl⟩ := h2
    have hr : r ≠ [] := by
      rintro rfl
      exact hn (by simp)
    exact remove_above m p r v hr h
  · rw [nestedFrom_remove_frame m fs p hn h2]
    exact ⟨v, h, rfl⟩

/-- A path found after a removal was found before it, with the same leaf. -/
theorem remove_sub (m : JMap) (fs : List String) : subFields (RemoveNestedField m fs) m := by
  intro p w h
  induction fs generalizing m p w with
  | nil => exact ⟨w, by simpa [RemoveNestedField] using h, rfl⟩
  | cons f rest ih =>
    cases p with
    | nil =>
      rw [nestedFrom_nil] at h
      cases h
      exact ⟨_, nestedFrom_nil _, rfl⟩
    | cons a ps =>
      cases rest with
      | nil =>
        simp only [RemoveNestedField] at h
        by_cases ha : a = f
        · subst ha
          simp [nestedFrom_obj_cons, mapGet_mapDelete_self] at h
        · rw [nestedFrom_obj_cons, mapGet_mapDelete_of_ne _ _ _ ha] at h
          exact ⟨w, by rw [nestedFrom_obj_cons]; exact h, rfl⟩
      | cons g gs =>
        rw [removeNested_cons_cons] at h
        cases hg : mapGet m f with
        | none => rw [hg] at h; exact ⟨w, h, rfl⟩
        | some x =>
          cases x with
          | obj sub =>
            simp only [hg] at h
            by_cases ha : a = f
            · subst ha
              rw [nestedFrom_obj_cons, mapGet_mapSet_self] at h
              obtain ⟨w', hw', hl⟩ := ih sub ps w h
              exact ⟨w', by rw [nestedFrom_obj_cons, hg]; exact hw', hl⟩
            · rw [nestedFrom_obj_cons, mapGet_mapSet_of_ne _ _ _ _ ha] at h
              exact ⟨w, by rw [nestedFrom_obj_cons]; exact h, rfl⟩
          | _ => simp only [hg] at h; exact ⟨w, h, rfl⟩

/-- After a removal nothing is found on or under the removed path. -/
theorem remove_gone (m : JMap) (fs r : List String) (hne : fs ≠ []) (v : JVal) :
    nestedFrom (.obj (RemoveNestedField m fs)) (fs ++ r) ≠ .ok (some v) := by
  induction fs generalizing m with
  | nil => exact absurd rfl hne
  | cons f rest ih =>
    cases rest with
    | nil =>
      simp [RemoveNestedField, nestedFrom_obj_cons, mapGet_mapDelete_self]
    | cons g gs =>
      rw [removeNested_cons_cons]
      cases hg : mapGet m f with
      | none => simp [nestedFrom_obj_cons, hg]
      | some x =>
        cases x with
        | obj sub =>
          simp only []
          rw [List.cons_append, nestedFrom_obj_cons, mapGet_mapSet_self]
          exact ih sub (by simp)
        | _ => simp [nestedFrom_obj_cons, hg, nestedFrom]

/-- The loop over the ignore-paths only removes fields. -/
theorem removeIgnorePaths_sub (ignorePaths : List String) (sanObj : JMap) :
    subFields (removeIgnorePaths sanObj ignorePaths) sanObj := by
  induction ignorePaths generalizing sanObj with
  | nil => exact subVal_refl _
  | cons ip rest ih =>
    simp only [removeIgnorePaths]
    exact subVal_trans _ _ _ (ih _) (remove_sub sanObj _)

/-- The loop over the ignore-paths keeps every found path that lies on or under no
ignore-path, with the same leaf. -/
theorem removeIgnorePaths_keeps (ignorePaths : List String) (sanObj : JMap) (p : List String)
    (v : JVal) (hn : ∀ ip ∈ ignorePaths, ¬ pathToSegments ip <+: p)
    (h : NestedFieldNoCopy sanObj p = .ok (some v)) :
    ∃ w, NestedFieldNoCopy (removeIgnorePaths sanObj ignorePaths) p = .ok (some w) ∧
      leafOf w = leafOf v := by
  induction ignorePaths generalizing sanObj v with
  | nil => exact ⟨v, h, rfl⟩
  | cons ip rest ih =>
    simp only [removeIgnorePaths]
    obtain ⟨w1, h1, l1⟩ := remove_keeps sanObj (pathToSegments ip) p v
      (hn ip (List.mem_cons_self _ _)) h
    obtain ⟨w2, h2, l2⟩ := ih _ w1 (fun q hq => hn q (List.mem_cons_of_mem _ hq)) h1
    exact ⟨w2, h2, l2.trans l1⟩

/-- After the loop over the ignore-paths nothing is found on or under an ignore-path. -/
theorem removeIgnorePaths_gone (ignorePaths : List String) (sanObj : JMap) (ip : String)
    (hip : ip ∈ ignorePaths) (p : List String) (hp : pathToSegments ip <+: p) (v : JVal) :
    NestedFieldNoCopy (removeIgnorePaths sanObj ignorePaths) p ≠ .ok (some v) := by
  induction ignorePaths generalizing sanObj with
  | nil => simp at hip
  | cons q rest ih =>
    simp only [removeIgnorePaths]
    rcases List.mem_cons.1 hip with rfl | hin
    · intro h
      obtain ⟨w, hw, _⟩ := removeIgnorePaths_sub rest _ p v h
      obtain ⟨r, rfl⟩ := hp
      exact remove_gone sanObj _ r (pathToSegments_ne_nil _) w hw
    · exact ih _ hin

/-! ### Idempotence: the base record -/

/-- A string of length zero is the empty string. -/
theorem length_eq_zero_iff (s : String) : s.length = 0 ↔ s = "" := by
  constructor
  · intro h
    apply String.ext
    exact List.length_eq_zero.1 h
  · rintro rfl
    rfl

/-- The identity fields of the new record. -/
theorem identityRecord_values (obj : JMap) :
    NestedFieldNoCopy (identityRecord obj) ["apiVersion"] =
      .ok (some (.str (GetAPIVersion obj))) ∧
    NestedFieldNoCopy (identityRecord obj) ["kind"] = .ok (some (.str (GetKind obj))) ∧
    (GetName obj ≠ "" → NestedFieldNoCopy (identityRecord obj) ["metadata", "name"] =
      .ok (some (.str (GetName obj)))) ∧
    (GetNamespace obj ≠ "" → NestedFieldNoCopy (identityRecord obj) ["metadata", "namespace"] =
      .ok (some (.str (GetNamespace obj)))) := by
  by_cases h1 : (GetName obj).length = 0 <;> by_cases h2 : (GetNamespace obj).length = 0 <;>
    simp [identityRecord, SetName, SetNamespace, SetAPIVersion, SetKind, h1, h2,
      setNestedFieldIgnoringError, SetNestedField, setNestedFieldNoCopy, RemoveNestedField,
      NestedFieldNoCopy, nestedFrom, mapGet, mapSet, mapDelete, ← length_eq_zero_iff]

/-- Reading a converted string map. -/
theorem mapGet_ofStringMap_eq (sm : List (String × String)) (k : String) :
    mapGet (ofStringMap sm) k = (mapGet sm k).map JVal.str := by
  induction sm with
  | nil => simp [ofStringMap, mapGet]
  | cons e rest ih =>
    obtain ⟨a, b⟩ := e
    by_cases ha : a = k
    · simp [ofStringMap, mapGet, ha]
    · simp only [ofStringMap, List.map_cons, mapGet, ha, if_false]
      exact ih

/-- A mapping that converts to a string map reads as that string map. -/
theorem mapGet_of_toStringMap (m : JMap) (sm : List (String × String)) (k : String)
    (h : toStringMap m = some sm) : mapGet m k = (mapGet sm k).map JVal.str := by
  induction m generalizing sm with
  | nil =>
    simp [toStringMap] at h
    subst h
    simp [mapGet]
  | cons e rest ih =>
    obtain ⟨a, v⟩ := e
    cases v with
    | str s =>
      simp only [toStringMap] at h
      cases hr : toStringMap rest with
      | none => simp [hr] at h
      | some r =>
        simp [hr] at h
        subst h
        by_cases ha : a = k
        · simp [mapGet, ha]
        · simp only [mapGet, ha, if_false]
          exact ih r hr
    | _ => simp [toStringMap] at h

/-- What `NestedStringMap` returns is the conversion of the mapping found at the path. -/
theorem NestedStringMap_some (obj : JMap) (p : List String) (sm : List (String × String))
    (h : NestedStringMap obj p = .ok (some sm)) :
    ∃ m, NestedFieldNoCopy obj p = .ok (some (.obj m)) ∧ toStringMap m = some sm := by
  unfold NestedStringMap at h
  cases hn : NestedFieldNoCopy obj p with
  | error e => simp [hn] at h
  | ok o =>
    cases o with
    | none => simp [hn] at h
    | some v =>
      cases v with
      | obj m =>
        simp only [hn] at h
        cases ht : toStringMap m with
        | none => simp [ht] at h
        | some x =>
          simp [ht] at h
          subst h
          exact ⟨m, rfl, ht⟩
      | _ => simp [hn] at h

/-- A kept annotation is an annotation of the record: its key matches a pattern and the
record holds the string at that key. -/
theorem kept_annotation_found (obj : JMap) (keep : List Regexp) (k s : String)
    (h : mapGet (keepMatching ((GetAnnotations obj).getD []) keep) k = some s) :
    matchesAny k keep = true ∧
      NestedFieldNoCopy obj ["metadata", "annotations", k] = .ok (some (.str s)) := by
  rw [mapGet_keepMatching] at h
  by_cases hm : matchesAny k keep = true
  · simp only [hm, if_true] at h
    refine ⟨hm, ?_⟩
    cases hG : GetAnnotations obj with
    | none => simp [hG, mapGet] at h
    | some sm =>
      simp only [hG, Option.getD_some] at h
      unfold GetAnnotations at hG
      cases hN : NestedStringMap obj ["metadata", "annotations"] with
      | error e => simp [hN] at hG
      | ok o =>
        simp only [hN] at hG
        subst hG
        obtain ⟨m, hm1, hm2⟩ := NestedStringMap_some obj _ sm hN
        unfold NestedFieldNoCopy at hm1 ⊢
        have := nestedFrom_append _ _ ["metadata", "annotations"] [k] hm1
        simp only [List.cons_append, List.nil_append] at this
        rw [this, nestedFrom_obj_cons, mapGet_of_toStringMap m sm k hm2, h]
        simp [nestedFrom_nil]
  · simp [hm] at h

/-- A kept label is a label of the record. -/
theorem kept_label_found (obj : JMap) (keep : List Regexp) (k s : String)
    (h : mapGet (keepMatching ((GetLabels obj).getD []) keep) k = some s) :
    matchesAny k keep = true ∧
      NestedFieldNoCopy obj ["metadata", "labels", k] = .ok (some (.str s)) := by
  rw [mapGet_keepMatching] at h
  by_cases hm : matchesAny k keep = true
  · simp only [hm, if_true] at h
    refine ⟨hm, ?_⟩
    cases hG : GetLabels obj with
    | none => simp [hG, mapGet] at h
    | some sm =>
      simp only [hG, Option.getD_some] at h
      unfold GetLabels at hG
      cases hN : NestedStringMap obj ["metadata", "labels"] with
      | error e => simp [hN] at hG
      | ok o =>
        simp only [hN] at hG
        subst hG
        obtain ⟨m, hm1, hm2⟩ := NestedStringMap_some obj _ sm hN
        unfold NestedFieldNoCopy at hm1 ⊢
        have := nestedFrom_append _ _ ["metadata", "labels"] [k] hm1
        simp only [List.cons_append, List.nil_append] at this
        rw [this, nestedFrom_obj_cons, mapGet_of_toStringMap m sm k hm2, h]
        simp [nestedFrom_nil]
  · simp [hm] at h

/-- The base record away from the annotations and the labels is the identity record. -/
theorem baseRecord_frame (obj : JMap) (keepAnnotations keepLabels : List Regexp)
    (p : List String)
    (ha1 : ¬ ["metadata", "annotations"] <+: p) (ha2 : ¬ p <+: ["metadata", "annotations"])
    (hl1 : ¬ ["metadata", "labels"] <+: p) (hl2 : ¬ p <+: ["metadata", "labels"]) :
    NestedFieldNoCopy (copyLabels obj (copyAnnotations obj (identityRecord obj) keepAnnotations)
      keepLabels) p = NestedFieldNoCopy (identityRecord obj) p := by
  obtain ⟨hA, hL, hM⟩ := identityRecord_shape obj
  obtain ⟨_, a2, a3⟩ := copyAnnotations_spec obj (identityRecord obj) keepAnnotations hM hA
  have hL' : NestedFieldNoCopy (copyAnnotations obj (identityRecord obj) keepAnnotations)
      ["metadata", "labels"] = .ok none := by
    rw [a3 _ (by decide) (by decide)]
    exact hL
  obtain ⟨_, _, l3⟩ := copyLabels_spec obj
    (copyAnnotations obj (identityRecord obj) keepAnnotations) keepLabels a2 hL'
  rw [l3 p hl1 hl2, a3 p ha1 ha2]

/-- The string read at a path is the string found there. -/
theorem getNestedString_of_found (obj : JMap) (p : List String) (s : String)
    (h : NestedFieldNoCopy obj p = .ok (some (.str s))) : getNestedString obj p = s := by
  simp [getNestedString, NestedString, h]

/-- A non-empty string read at a path is found there. -/
theorem found_of_getNestedString (obj : JMap) (p : List String)
    (h : getNestedString obj p ≠ "") :
    NestedFieldNoCopy obj p = .ok (some (.str (getNestedString obj p))) := by
  unfold getNestedString NestedString at h ⊢
  cases hn : NestedFieldNoCopy obj p with
  | error e => simp [hn] at h
  | ok o =>
    cases o with
    | none => simp [hn] at h
    | some v =>
      cases v with
      | str s => simp
      | _ => simp [hn] at h

/-- The base record agrees with the record on every path it writes, when the record's
`apiVersion` and `kind` are strings. -/
theorem baseRecord_agrees (obj : JMap) (keepAnnotations keepLabels : List Regexp)
    (hv : ∃ s, NestedFieldNoCopy obj ["apiVersion"] = .ok (some (.str s)))
    (hk : ∃ s, NestedFieldNoCopy obj ["kind"] = .ok (some (.str s)))
    (q : List String) (hq : producedPath obj keepAnnotations keepLabels [] q) :
    ∃ v, NestedFieldNoCopy obj q = .ok (some v) ∧
      NestedFieldNoCopy (copyLabels obj (copyAnnotations obj (identityRecord obj) keepAnnotations)
        keepLabels) q = .ok (some v) := by
  obtain ⟨i1, i2, i3, i4⟩ := identityRecord_values obj
  obtain ⟨bA, bL⟩ := baseRecord_annotations_labels obj keepAnnotations keepLabels
  rcases hq with rfl | rfl | ⟨rfl, hn⟩ | ⟨rfl, hn⟩ | ⟨k, s, rfl, hks⟩ | ⟨k, s, rfl, hks⟩ | ⟨kp, hkp, _⟩
  · obtain ⟨s, hs⟩ := hv
    refine ⟨_, hs, ?_⟩
    rw [baseRecord_frame _ _ _ _ (by decide) (by decide) (by decide) (by decide), i1]
    have : GetAPIVersion obj = s := getNestedString_of_found obj _ s hs
    rw [this]
  · obtain ⟨s, hs⟩ := hk
    refine ⟨_, hs, ?_⟩
    rw [baseRecord_frame _ _ _ _ (by decide) (by decide) (by decide) (by decide), i2]
    have : GetKind obj = s := getNestedString_of_found obj _ s hs
    rw [this]
  · refine ⟨_, found_of_getNestedString obj _ hn, ?_⟩
    rw [baseRecord_frame _ _ _ _ (by decide) (by decide) (by decide) (by decide)]
    exact i3 hn
  · refine ⟨_, found_of_getNestedString obj _ hn, ?_⟩
    rw [baseRecord_frame _ _ _ _ (by decide) (by decide) (by decide) (by decide)]
    exact i4 hn
  · refine ⟨_, (kept_annotation_found obj keepAnnotations k s hks).2, ?_⟩
    have hne : keepMatching ((GetAnnotations obj).getD []) keepAnnotations ≠ [] := by
      intro h
      simp [h, mapGet] at hks
    simp only [hne, if_false] at bA
    unfold NestedFieldNoCopy at bA ⊢
    have := nestedFrom_append _ _ ["metadata", "annotations"] [k] bA
    simp only [List.cons_append, List.nil_append] at this
    rw [this, nestedFrom_obj_cons, mapGet_ofStringMap_eq, hks]
    simp [nestedFrom_nil]
  · refine ⟨_, (kept_label_found obj keepLabels k s hks).2, ?_⟩
    have hne : keepMatching ((GetLabels obj).getD []) keepLabels ≠ [] := by
      intro h
      simp [h, mapGet] at hks
    simp only [hne, if_false] at bL
    unfold NestedFieldNoCopy at bL ⊢
    have := nestedFrom_append _ _ ["metadata", "labels"] [k] bL
    simp only [List.cons_append, List.nil_append] at this
    rw [this, nestedFrom_obj_cons, mapGet_ofStringMap_eq, hks]
    simp [nestedFrom_nil]
  · simp at hkp

/-! ### Idempotence: what a pass writes -/

/-- Setting a non-empty string map at `q` keeps the found paths inside a set `A` that
holds the paths leading to the keys of the map under `q`. -/
theorem setStringMap_produced (A : List String → Prop) (m m' : JMap)
    (sm : List (String × String)) (q : List String) (hne : sm ≠ [])
    (hq : ∀ k s, mapGet sm k = some s → ∀ p, p <+: q ++ [k] → A p)
    (hm : ∀ p w, NestedFieldNoCopy m p = .ok (some w) → A p)
    (hset : setNestedFieldNoCopy m (.obj (ofStringMap sm)) q = .ok m') :
    ∀ p w, NestedFieldNoCopy m' p = .ok (some w) → A p := by
  intro p w hp
  obtain ⟨k0, s0, h0⟩ : ∃ k s, mapGet sm k = some s := by
    cases sm with
    | nil => exact absurd rfl hne
    | cons e rest => exact ⟨e.1, e.2, by simp [mapGet]⟩
  rcases nestedFrom_set_found _ _ _ _ _ _ hset hp with h | ⟨r, rfl, hr⟩ | h
  · exact hq k0 s0 h0 p (isPrefix_trans _ _ _ h ⟨[k0], rfl⟩)
  · rcases nestedFrom_ofStringMap_found sm r w hr with rfl | ⟨k, rfl⟩
    · exact hq k0 s0 h0 _ ⟨[k0], by simp⟩
    · rw [nestedFrom_obj_cons, mapGet_ofStringMap_eq] at hr
      cases hk : mapGet sm k with
      | none => simp [hk] at hr
      | some s => exact hq k s hk _ ⟨[], by simp⟩
  · exact hm p w h

/-- Every path found in the base record leads to a path that the pass writes. -/
theorem baseRecord_produced (obj : JMap) (keepAnnotations keepLabels : List Regexp)
    (keepPaths : List String) :
    ∀ p w, NestedFieldNoCopy (copyLabels obj (copyAnnotations obj (identityRecord obj)
      keepAnnotations) keepLabels) p = .ok (some w) →
      ∃ q, producedPath obj keepAnnotations keepLabels keepPaths q ∧ p <+: q := by
  have h0 : ∀ p w, NestedFieldNoCopy ([] : JMap) p = .ok (some w) →
      ∃ q, producedPath obj keepAnnotations keepLabels keepPaths q ∧ p <+: q := by
    intro p w hp
    cases p with
    | nil => exact ⟨["kind"], Or.inr (Or.inl rfl), nil_isPrefix _⟩
    | cons a t => simp [NestedFieldNoCopy, nestedFrom_obj_cons, mapGet] at hp
  have h1 : ∀ p w, NestedFieldNoCopy (SetName [] (GetName obj)) p = .ok (some w) →
      ∃ q, producedPath obj keepAnnotations keepLabels keepPaths q ∧ p <+: q := by
    unfold SetName
    by_cases hn : (GetName obj).length = 0
    · simp only [hn, if_true]
      exact remove_allowed _ _ _ h0
    · simp only [hn, if_false]
      exact setString_allowed _ _ _ _
        (fun p hp => ⟨_, Or.inr (Or.inr (Or.inl ⟨rfl, fun h => hn (by simp [h])⟩)), hp⟩) h0
  have h2 : ∀ p w, NestedFieldNoCopy (SetNamespace (SetName [] (GetName obj))
      (GetNamespace obj)) p = .ok (some w) →
      ∃ q, producedPath obj keepAnnotations keepLabels keepPaths q ∧ p <+: q := by
    unfold SetNamespace
    by_cases hn : (GetNamespace obj).length = 0
    · simp only [hn, if_true]
      exact remove_allowed _ _ _ h1
    · simp only [hn, if_false]
      exact setString_allowed _ _ _ _
        (fun p hp => ⟨_, Or.inr (Or.inr (Or.inr (Or.inl ⟨rfl, fun h => hn (by simp [h])⟩))), hp⟩)
        h1
  have h3 := setString_allowed
    (fun p => ∃ q, producedPath obj keepAnnotations keepLabels keepPaths q ∧ p <+: q)
    _ (GetAPIVersion obj) ["apiVersion"] (fun p hp => ⟨_, Or.inl rfl, hp⟩) h2
  have h4 : ∀ p w, NestedFieldNoCopy (identityRecord obj) p = .ok (some w) →
      ∃ q, producedPath obj keepAnnotations keepLabels keepPaths q ∧ p <+: q :=
    setString_allowed
      (fun p => ∃ q, producedPath obj keepAnnotations keepLabels keepPaths q ∧ p <+: q)
      _ (GetKind obj) ["kind"] (fun p hp => ⟨_, Or.inr (Or.inl rfl), hp⟩) h3
  have hA : ∀ p w, NestedFieldNoCopy (copyAnnotations obj (identityRecord obj)
      keepAnnotations) p = .ok (some w) →
      ∃ q, producedPath obj keepAnnotations keepLabels keepPaths q ∧ p <+: q := by
    unfold copyAnnotations
    cases hG : GetAnnotations obj with
    | none => exact h4
    | some ann =>
      simp only []
      by_cases hlen : (keepMatching ann keepAnnotations).length > 0
      · simp only [hlen, if_true]
        unfold SetAnnotations
        cases hset : setNestedFieldNoCopy (identityRecord obj)
            (.obj (ofStringMap (keepMatching ann keepAnnotations)))
            ["metadata", "annotations"] with
        | error e => exact h4
        | ok m' =>
          refine setStringMap_produced _ _ m' _ _ ?_ ?_ h4 hset
          · intro h
            simp [h] at hlen
          · intro k s hks p hp
            exact ⟨_, Or.inr (Or.inr (Or.inr (Or.inr (Or.inl
              ⟨k, s, rfl, by simpa [hG] using hks⟩)))), hp⟩
      · simp only [hlen, if_false]
        exact h4
  unfold copyLabels
  cases hG : GetLabels obj with
  | none => exact hA
  | some lab =>
    simp only []
    by_cases hlen : (keepMatching lab keepLabels).length > 0
    · simp only [hlen, if_true]
      unfold SetLabels
      cases hset : setNestedFieldNoCopy (copyAnnotations obj (identityRecord obj) keepAnnotations)
          (.obj (ofStringMap (keepMatching lab keepLabels))) ["metadata", "labels"] with
      | error e => exact hA
      | ok m' =>
        refine setStringMap_produced _ _ m' _ _ ?_ ?_ hA hset
        · intro h
          simp [h] at hlen
        · intro k s hks p hp
          exact ⟨_, Or.inr (Or.inr (Or.inr (Or.inr (Or.inr (Or.inl
            ⟨k, s, rfl, by simpa [hG] using hks⟩))))), hp⟩
    · simp only [hlen, if_false]
      exact hA

/-- A path written by a pass without keep-paths is written by the pass with keep-paths. -/
theorem producedPath_mono (obj : JMap) (keepAnnotations keepLabels : List Regexp)
    (keepPaths : List String) (q : List String)
    (h : producedPath obj keepAnnotations keepLabels [] q) :
    producedPath obj keepAnnotations keepLabels keepPaths q := by
  unfold producedPath at h ⊢
  refine h.imp_right (Or.imp_right (Or.imp_right (Or.imp_right (Or.imp_right
    (Or.imp_right ?_)))))
  rintro ⟨kp, hkp, _⟩
  simp at hkp

/-- When two records agree at a path `q`, a path comparable with `q` that is found in the
first is found in the second, with the same leaf. -/
theorem agree_sub (a b : JMap) (q p : List String) (u v : JVal)
    (ha : NestedFieldNoCopy a q = .ok (some u)) (hb : NestedFieldNoCopy b q = .ok (some u))
    (hc : p <+: q ∨ q <+: p) (hp : NestedFieldNoCopy a p = .ok (some v)) :
    ∃ w, NestedFieldNoCopy b p = .ok (some w) ∧ leafOf w = leafOf v := by
  unfold NestedFieldNoCopy at *
  rcases hc with ⟨r, rfl⟩ | ⟨r, rfl⟩
  · obtain ⟨w, hw, hwr⟩ := nestedFrom_append_found _ _ p r hb
    refine ⟨w, hw, ?_⟩
    rw [nestedFrom_append _ _ p r hp] at ha
    cases r with
    | nil =>
      rw [nestedFrom_nil] at ha hwr
      cases ha
      cases hwr
      rfl
    | cons g gs =>
      obtain ⟨m1, rfl⟩ := nestedFrom_found_obj v g gs u ha
      obtain ⟨m2, rfl⟩ := nestedFrom_found_obj w g gs u hwr
      rfl
  · rw [nestedFrom_append _ _ q r ha] at hp
    exact ⟨v, by rw [nestedFrom_append _ _ q r hb]; exact hp, rfl⟩

/-- The base record holds only fields of the record, when the record's `apiVersion` and
`kind` are strings. -/
theorem baseRecord_sub (obj : JMap) (keepAnnotations keepLabels : List Regexp)
    (hv : ∃ s, NestedFieldNoCopy obj ["apiVersion"] = .ok (some (.str s)))
    (hk : ∃ s, NestedFieldNoCopy obj ["kind"] = .ok (some (.str s))) :
    subFields (copyLabels obj (copyAnnotations obj (identityRecord obj) keepAnnotations)
      keepLabels) obj := by
  intro p v hp
  obtain ⟨q, hq, hpq⟩ := baseRecord_produced obj keepAnnotations keepLabels [] p v hp
  obtain ⟨u, hu1, hu2⟩ := baseRecord_agrees obj keepAnnotations keepLabels hv hk q hq
  exact agree_sub _ _ q p u v hu2 hu1 (Or.inl hpq) hp

/-- A set succeeds on a record whose fields are fields of a record in which the path is
found. -/
theorem setNested_succeeds (m x : JMap) (w : JVal) (fs : List String) (hne : fs ≠ [])
    (hsub : subVal (.obj m) (.obj x)) (hx : nestedFrom (.obj x) fs = .ok (some w)) :
    ∃ m', setNestedFieldNoCopy m w fs = .ok m' := by
  induction fs generalizing m x with
  | nil => exact absurd rfl hne
  | cons f rest ih =>
    cases rest with
    | nil => exact ⟨mapSet m f w, by simp [setNestedFieldNoCopy]⟩
    | cons g gs =>
      rw [nestedFrom_obj_cons] at hx
      cases hxf : mapGet x f with
      | none => simp [hxf] at hx
      | some y =>
        simp only [hxf] at hx
        obtain ⟨xs, rfl⟩ := nestedFrom_found_obj y g gs w hx
        cases hmf : mapGet m f with
        | none =>
          have hsub' : subVal (.obj []) (.obj xs) := by
            intro p v hp
            cases p with
            | nil =>
              rw [nestedFrom_nil] at hp
              cases hp
              exact ⟨_, nestedFrom_nil _, rfl⟩
            | cons a t => simp [nestedFrom_obj_cons, mapGet] at hp
          obtain ⟨s', hs'⟩ := ih [] xs (by simp) hsub' hx
          exact ⟨mapSet m f (.obj s'), by simp [setNestedFieldNoCopy, hmf, hs']⟩
        | some a' =>
          have hf : nestedFrom (.obj m) [f] = .ok (some a') := by
            rw [nestedFrom_obj_cons]
            simp [hmf, nestedFrom_nil]
          obtain ⟨b', hb', hl, hsub'⟩ := subVal_at _ _ a' [f] hsub hf
          rw [nestedFrom_obj_cons] at hb'
          simp only [hxf, nestedFrom_nil] at hb'
          cases hb'
          obtain ⟨sub, rfl⟩ := (leafOf_eq_none a').1 (by simpa [leafOf] using hl.symm)
          obtain ⟨s', hs'⟩ := ih sub xs (by simp) hsub' hx
          exact ⟨mapSet m f (.obj s'), by simp [setNestedFieldNoCopy, hmf, hs']⟩

/-- A copy from `obj` keeps the fields of the new record among the fields of `obj`. -/
theorem setNested_sub (m m' x : JMap) (w : JVal) (fs : List String)
    (hsub : subFields m x) (hx : NestedFieldNoCopy x fs = .ok (some w))
    (hset : setNestedFieldNoCopy m w fs = .ok m') : subFields m' x := by
  intro p v hp
  have hfs : NestedFieldNoCopy m' fs = .ok (some w) := by
    have := nestedFrom_set_under _ _ _ _ [] hset
    rw [List.append_nil, nestedFrom_nil] at this
    exact this
  rcases nestedFrom_set_found _ _ _ _ _ _ hset hp with h | ⟨r, rfl, _⟩ | h
  · exact agree_sub m' x fs p w v hfs hx (Or.inl h) hp
  · exact agree_sub m' x fs _ w v hfs hx (Or.inr ⟨r, rfl⟩) hp
  · exact hsub p v h

/-- The loop over the keep-paths keeps the fields of the new record among the fields of
`obj`. -/
theorem copyKeepPaths_sub (obj : JMap) (keepPaths : List String) (sanObj sanObj' : JMap)
    (h : copyKeepPaths obj sanObj keepPaths = .ok sanObj') (hsub : subFields sanObj obj) :
    subFields sanObj' obj := by
  induction keepPaths generalizing sanObj with
  | nil =>
    simp [copyKeepPaths] at h
    rw [← h]
    exact hsub
  | cons path rest ih =>
    simp only [copyKeepPaths] at h
    cases hc : copyNestedField obj sanObj (pathToSegments path) with
    | error e => simp [hc] at h
    | ok r =>
      obtain ⟨b, s1⟩ := r
      simp only [hc] at h
      refine ih s1 h ?_
      unfold copyNestedField at hc
      cases hq : NestedFieldNoCopy obj (pathToSegments path) with
      | error e => simp [hq] at hc
      | ok o =>
        cases o with
        | none =>
          simp [hq] at hc
          rw [← hc.2]
          exact hsub
        | some x =>
          simp only [hq, SetNestedField] at hc
          cases hset : setNestedFieldNoCopy sanObj x (pathToSegments path) with
          | error e => simp [hset] at hc
          | ok s2 =>
            simp [hset] at hc
            obtain ⟨_, rfl⟩ := hc
            exact setNested_sub sanObj s2 obj x _ hsub hq hset

/-- The loop over the keep-paths succeeds on a record whose fields are fields of `obj`,
when no keep-path is malformed in `obj`. -/
theorem copyKeepPaths_succeeds (obj : JMap) (keepPaths : List String) (sanObj : JMap)
    (hok : ∀ kp ∈ keepPaths, ∃ r, NestedFieldNoCopy obj (pathToSegments kp) = .ok r)
    (hsub : subFields sanObj obj) : ∃ sanObj', copyKeepPaths obj sanObj keepPaths = .ok sanObj' := by
  induction keepPaths generalizing sanObj with
  | nil => exact ⟨sanObj, rfl⟩
  | cons path rest ih =>
    obtain ⟨r, hr⟩ := hok path (List.mem_cons_self _ _)
    have hrest : ∀ kp ∈ rest, ∃ r, NestedFieldNoCopy obj (pathToSegments kp) = .ok r :=
      fun kp hkp => hok kp (List.mem_cons_of_mem _ hkp)
    cases r with
    | none =>
      obtain ⟨s', hs'⟩ := ih sanObj hrest hsub
      exact ⟨s', by simp [copyKeepPaths, copyNestedField, hr, hs']⟩
    | some w =>
      obtain ⟨s1, hs1⟩ := setNested_succeeds sanObj obj w _ (pathToSegments_ne_nil path) hsub hr
      obtain ⟨s', hs'⟩ := ih s1 hrest (setNested_sub sanObj s1 obj w _ hsub hr hs1)
      exact ⟨s', by simp [copyKeepPaths, copyNestedField, hr, SetNestedField, hs1, hs']⟩

/-- A loop over keep-paths that succeeded met no malformed keep-path. -/
theorem copyKeepPaths_ok (obj : JMap) (keepPaths : List String) (sanObj sanObj' : JMap)
    (h : copyKeepPaths obj sanObj keepPaths = .ok sanObj') :
    ∀ kp ∈ keepPaths, ∃ r, NestedFieldNoCopy obj (pathToSegments kp) = .ok r := by
  induction keepPaths generalizing sanObj with
  | nil => simp
  | cons path rest ih =>
    simp only [copyKeepPaths] at h
    cases hc : copyNestedField obj sanObj (pathToSegments path) with
    | error e => simp [hc] at h
    | ok r =>
      obtain ⟨b, s1⟩ := r
      simp only [hc] at h
      intro kp hkp
      rcases List.mem_cons.1 hkp with rfl | hin
      · unfold copyNestedField at hc
        cases hq : NestedFieldNoCopy obj (pathToSegments kp) with
        | error e => simp [hq] at hc
        | ok o => exact ⟨o, rfl⟩
      · exact ih s1 h kp hin

/-- Every path found after the loop over keep-paths is comparable with a path that the
pass writes. -/
theorem copyKeepPaths_produced (obj : JMap) (keepAnnotations keepLabels : List Regexp)
    (keepPaths : List String) (l : List String)
    (hl : ∀ q ∈ l, q ∈ keepPaths) (sanObj sanObj' : JMap)
    (h : copyKeepPaths obj sanObj l = .ok sanObj')
    (hm : ∀ p w, NestedFieldNoCopy sanObj p = .ok (some w) →
      ∃ q, producedPath obj keepAnnotations keepLabels keepPaths q ∧ (p <+: q ∨ q <+: p)) :
    ∀ p w, NestedFieldNoCopy sanObj' p = .ok (some w) →
      ∃ q, producedPath obj keepAnnotations keepLabels keepPaths q ∧ (p <+: q ∨ q <+: p) := by
  induction l generalizing sanObj with
  | nil =>
    simp [copyKeepPaths] at h
    rw [← h]
    exact hm
  | cons path rest ih =>
    simp only [copyKeepPaths] at h
    cases hc : copyNestedField obj sanObj (pathToSegments path) with
    | error e => simp [hc] at h
    | ok r =>
      obtain ⟨b, s1⟩ := r
      simp only [hc] at h
      refine ih (fun q hq => hl q (List.mem_cons_of_mem _ hq)) s1 h ?_
      intro p w hp
      unfold copyNestedField at hc
      cases hq : NestedFieldNoCopy obj (pathToSegments path) with
      | error e => simp [hq] at hc
      | ok r =>
        cases r with
        | none =>
          simp [hq] at hc
          rw [← hc.2] at hp
          exact hm p w hp
        | some x =>
          simp only [hq, SetNestedField] at hc
          cases hset : setNestedFieldNoCopy sanObj x (pathToSegments path) with
          | error e => simp [hset] at hc
          | ok s2 =>
            simp [hset] at hc
            obtain ⟨_, rfl⟩ := hc
            have hin : path ∈ keepPaths := hl path (List.mem_cons_self _ _)
            have hprod : producedPath obj keepAnnotations keepLabels keepPaths
                (pathToSegments path) :=
              Or.inr (Or.inr (Or.inr (Or.inr (Or.inr (Or.inr ⟨path, hin, rfl, x, hq⟩)))))
            rcases nestedFrom_set_found _ _ _ _ _ _ hset hp with h' | ⟨r, rfl, _⟩ | h'
            · exact ⟨_, hprod, Or.inl h'⟩
            · exact ⟨_, hprod, Or.inr ⟨r, rfl⟩⟩
            · exact hm p w h'

/-! ### Idempotence: string maps stay string maps -/

/-- A converted string map converts back. -/
theorem toStringMap_ofStringMap (sm : List (String × String)) :
    toStringMap (ofStringMap sm) = some sm := by
  induction sm with
  | nil => rfl
  | cons e rest ih =>
    obtain ⟨a, b⟩ := e
    have ih' : toStringMap (List.map (fun kv => (kv.1, JVal.str kv.2)) rest) = some rest := ih
    simp [ofStringMap, toStringMap, ih']

/-- Writing a string keeps a string map. -/
theorem toStringMap_mapSet (m : JMap) (k s : String) (sm : List (String × String))
    (h : toStringMap m = some sm) : ∃ sm', toStringMap (mapSet m k (.str s)) = some sm' := by
  induction m generalizing sm with
  | nil => exact ⟨[(k, s)], by simp [mapSet, toStringMap]⟩
  | cons e rest ih =>
    obtain ⟨a, v⟩ := e
    cases v with
    | str x =>
      simp only [toStringMap] at h
      cases hr : toStringMap rest with
      | none => simp [hr] at h
      | some r =>
        by_cases ha : a = k
        · exact ⟨(k, s) :: r, by simp [mapSet, ha, toStringMap, hr]⟩
        · obtain ⟨r', hr'⟩ := ih r hr
          exact ⟨(a, x) :: r', by simp [mapSet, ha, toStringMap, hr']⟩
    | _ => simp [toStringMap] at h

/-- Deleting a key keeps a string map. -/
theorem toStringMap_mapDelete (m : JMap) (k : String) (sm : List (String × String))
    (h : toStringMap m = some sm) : ∃ sm', toStringMap (mapDelete m k) = some sm' := by
  induction m generalizing sm with
  | nil => exact ⟨[], by simp [mapDelete, toStringMap]⟩
  | cons e rest ih =>
    obtain ⟨a, v⟩ := e
    cases v with
    | str x =>
      simp only [toStringMap] at h
      cases hr : toStringMap rest with
      | none => simp [hr] at h
      | some r =>
        obtain ⟨r', hr'⟩ := ih r hr
        by_cases ha : a = k
        · exact ⟨r', by simp [mapDelete, ha, hr']⟩
        · exact ⟨(a, x) :: r', by simp [mapDelete, ha, toStringMap, hr']⟩
    | _ => simp [toStringMap] at h

/-- A set of the key `k` under the path `a`: the mapping at `a` afterwards is the old
mapping there (or an empty one) with the key written. -/
theorem setNested_at_parent (m m' : JMap) (w : JVal) (a : List String) (k : String)
    (h : setNestedFieldNoCopy m w (a ++ [k]) = .ok m') :
    ∃ sub, nestedFrom (.obj m') a = .ok (some (.obj (mapSet sub k w))) ∧
      (nestedFrom (.obj m) a = .ok (some (.obj sub)) ∨ sub = []) := by
  induction a generalizing m m' with
  | nil =>
    simp [setNestedFieldNoCopy] at h
    subst h
    exact ⟨m, nestedFrom_nil _, Or.inl (nestedFrom_nil _)⟩
  | cons f rest ih =>
    cases hr : rest ++ [k] with
    | nil => simp at hr
    | cons g gs =>
      rw [List.cons_append, hr] at h
      obtain ⟨s0, s0', hs0, hset, rfl⟩ := setNested_cons_cons_ok m m' w f g gs h
      rw [← hr] at hset
      obtain ⟨sub, h1, h2⟩ := ih s0 s0' hset
      refine ⟨sub, by rw [nestedFrom_obj_cons, mapGet_mapSet_self]; exact h1, ?_⟩
      rcases h2 with h2 | h2
      · rcases hs0 with hs0 | ⟨_, rfl⟩
        · exact Or.inl (by rw [nestedFrom_obj_cons, hs0]; exact h2)
        · cases rest with
          | nil =>
            rw [nestedFrom_nil] at h2
            cases h2
            exact Or.inr rfl
          | cons x xs => simp [nestedFrom_obj_cons, mapGet] at h2
      · exact Or.inr h2

/-- A removal under the path `a`: the mapping at `a` afterwards is the old mapping there
after the removal of the rest of the path. -/
theorem remove_through (m sub : JMap) (a r : List String) (hr : r ≠ [])
    (h : nestedFrom (.obj m) a = .ok (some (.obj sub))) :
    nestedFrom (.obj (RemoveNestedField m (a ++ r))) a =
      .ok (some (.obj (RemoveNestedField sub r))) := by
  induction a generalizing m with
  | nil =>
    rw [nestedFrom_nil] at h
    cases h
    exact nestedFrom_nil _
  | cons f ps ih =>
    rw [nestedFrom_obj_cons] at h
    cases hg : mapGet m f with
    | none => simp [hg] at h
    | some x =>
      simp only [hg] at h
      cases hpr : ps ++ r with
      | nil => simp [hr] at hpr
      | cons g gs =>
        rw [List.cons_append, hpr, removeNested_cons_cons, hg]
        cases x with
        | obj s0 =>
          simp only []
          rw [nestedFrom_obj_cons, mapGet_mapSet_self, ← hpr]
          exact ih s0 h
        | null =>
          cases ps with
          | nil => simp [nestedFrom_nil] at h
          | cons y ys => simp [nestedFrom] at h
        | bool b =>
          cases ps with
          | nil => simp [nestedFrom_nil] at h
          | cons y ys => simp [nestedFrom] at h
        | num b =>
          cases ps with
          | nil => simp [nestedFrom_nil] at h
          | cons y ys => simp [nestedFrom] at h
        | str b =>
          cases ps with
          | nil => simp [nestedFrom_nil] at h
          | cons y ys => simp [nestedFrom] at h
        | arr b =>
          cases ps with
          | nil => simp [nestedFrom_nil] at h
          | cons y ys => simp [nestedFrom] at h

/-- A removal inside a string map leaves a string map. -/
theorem toStringMap_remove (m : JMap) (r : List String) (sm : List (String × String))
    (h : toStringMap m = some sm) : ∃ sm', toStringMap (RemoveNestedField m r) = some sm' := by
  cases r with
  | nil => exact ⟨sm, by simpa [RemoveNestedField] using h⟩
  | cons k rest =>
    cases rest with
    | nil => exact toStringMap_mapDelete m k sm h
    | cons g gs =>
      rw [removeNested_cons_cons]
      have hk := mapGet_of_toStringMap m sm k h
      cases hg : mapGet m k with
      | none => exact ⟨sm, h⟩
      | some x =>
        rw [hg] at hk
        cases hs : mapGet sm k with
        | none => simp [hs] at hk
        | some s =>
          simp [hs] at hk
          subst hk
          exact ⟨sm, h⟩

/-- A copy from `obj` keeps the mapping at `a` a string map, when `obj` holds a string
map at `a`. -/
theorem setNested_stringMap (m m' obj : JMap) (w : JVal) (a fs : List String)
    (mo : JMap) (smo : List (String × String))
    (ho : NestedFieldNoCopy obj a = .ok (some (.obj mo))) (hso : toStringMap mo = some smo)
    (hx : NestedFieldNoCopy obj fs = .ok (some w))
    (hset : setNestedFieldNoCopy m w fs = .ok m')
    (hm : ∀ x, NestedFieldNoCopy m a = .ok (some (.obj x)) → ∃ sm, toStringMap x = some sm) :
    ∀ x, NestedFieldNoCopy m' a = .ok (some (.obj x)) → ∃ sm, toStringMap x = some sm := by
  intro x hxa
  unfold NestedFieldNoCopy at *
  by_cases h1 : fs <+: a
  · obtain ⟨r, rfl⟩ := h1
    rw [nestedFrom_set_under _ _ _ _ _ hset] at hxa
    rw [nestedFrom_append _ _ fs r hx] at ho
    rw [ho] at hxa
    cases hxa
    exact ⟨smo, hso⟩
  · by_cases h2 : a <+: fs
    · obtain ⟨r, rfl⟩ := h2
      cases r with
      | nil => exact absurd (by simp) h1
      | cons k rest =>
        rw [nestedFrom_append _ _ a (k :: rest) ho, nestedFrom_obj_cons,
          mapGet_of_toStringMap mo smo k hso] at hx
        cases hs : mapGet smo k with
        | none => simp [hs] at hx
        | some s =>
          simp only [hs, Option.map_some'] at hx
          have hrest := nestedFrom_str_found s rest w hx
          subst hrest
          rw [nestedFrom_nil] at hx
          cases hx
          obtain ⟨sub, hs1, hs2⟩ := setNested_at_parent m m' (.str s) a k hset
          rw [hs1] at hxa
          cases hxa
          rcases hs2 with hs2 | rfl
          · obtain ⟨sm0, hsm0⟩ := hm sub hs2
            exact toStringMap_mapSet sub k s sm0 hsm0
          · exact toStringMap_mapSet [] k s [] rfl
    · rw [nestedFrom_set_frame _ _ _ _ _ hset h1 h2] at hxa
      exact hm x hxa

/-- The loop over the keep-paths keeps the mapping at `a` a string map, when `obj` holds
a string map at `a`. -/
theorem copyKeepPaths_stringMap (obj : JMap) (a : List String)
    (mo : JMap) (smo : List (String × String))
    (ho : NestedFieldNoCopy obj a = .ok (some (.obj mo))) (hso : toStringMap mo = some smo)
    (keepPaths : List String) (sanObj sanObj' : JMap)
    (h : copyKeepPaths obj sanObj keepPaths = .ok sanObj')
    (hm : ∀ x, NestedFieldNoCopy sanObj a = .ok (some (.obj x)) →
      ∃ sm, toStringMap x = some sm) :
    ∀ x, NestedFieldNoCopy sanObj' a = .ok (some (.obj x)) → ∃ sm, toStringMap x = some sm := by
  induction keepPaths generalizing sanObj with
  | nil =>
    simp [copyKeepPaths] at h
    rw [← h]
    exact hm
  | cons path rest ih =>
    simp only [copyKeepPaths] at h
    cases hc : copyNestedField obj sanObj (pathToSegments path) with
    | error e => simp [hc] at h
    | ok r =>
      obtain ⟨b, s1⟩ := r
      simp only [hc] at h
      refine ih s1 h ?_
      unfold copyNestedField at hc
      cases hq : NestedFieldNoCopy obj (pathToSegments path) with
      | error e => simp [hq] at hc
      | ok o =>
        cases o with
        | none =>
          simp [hq] at hc
          rw [← hc.2]
          exact hm
        | some x =>
          simp only [hq, SetNestedField] at hc
          cases hset : setNestedFieldNoCopy sanObj x (pathToSegments path) with
          | error e => simp [hset] at hc
          | ok s2 =>
            simp [hset] at hc
            obtain ⟨_, rfl⟩ := hc
            exact setNested_stringMap sanObj s2 obj x a _ mo smo ho hso hq hset hm

/-- A removal keeps the mapping at `a` a string map. -/
theorem remove_stringMap (m : JMap) (a fs : List String) (hne : fs ≠ [])
    (hm : ∀ x, NestedFieldNoCopy m a = .ok (some (.obj x)) → ∃ sm, toStringMap x = some sm) :
    ∀ x, NestedFieldNoCopy (RemoveNestedField m fs) a = .ok (some (.obj x)) →
      ∃ sm, toStringMap x = some sm := by
  intro x hxa
  unfold NestedFieldNoCopy at *
  by_cases h1 : fs <+: a
  · obtain ⟨r, rfl⟩ := h1
    exact absurd hxa (remove_gone m fs r hne _)
  · by_cases h2 : a <+: fs
    · obtain ⟨r, rfl⟩ := h2
      have hr : r ≠ [] := by
        rintro rfl
        exact h1 (by simp)
      obtain ⟨w0, hw0, hl0⟩ := remove_sub m (a ++ r) a _ hxa
      obtain ⟨m0, rfl⟩ := (leafOf_eq_none w0).1 (by simpa [leafOf] using hl0)
      rw [remove_through m m0 a r hr hw0] at hxa
      cases hxa
      obtain ⟨sm0, hsm0⟩ := hm m0 hw0
      exact toStringMap_remove m0 r sm0 hsm0
    · rw [nestedFrom_remove_frame m fs a h1 h2] at hxa
      exact hm x hxa

/-- The loop over the ignore-paths keeps the mapping at `a` a string map. -/
theorem removeIgnorePaths_stringMap (a : List String) (ignorePaths : List String) (sanObj : JMap)
    (hm : ∀ x, NestedFieldNoCopy sanObj a = .ok (some (.obj x)) →
      ∃ sm, toStringMap x = some sm) :
    ∀ x, NestedFieldNoCopy (removeIgnorePaths sanObj ignorePaths) a = .ok (some (.obj x)) →
      ∃ sm, toStringMap x = some sm := by
  induction ignorePaths generalizing sanObj with
  | nil => exact hm
  | cons ip rest ih =>
    simp only [removeIgnorePaths]
    exact ih _ (remove_stringMap sanObj a _ (pathToSegments_ne_nil ip) hm)

/-! ### Idempotence: the two passes -/

/-- A filter loop that ran to its end met only missing or matching targets. -/
theorem checkPathValueFilters_true (obj : JMap) (key : String) (filters : List (String × Regexp))
    (h : checkPathValueFilters obj key filters = .ok true) :
    ∀ f ∈ filters, NestedString obj (pathToSegments f.1) = .ok none ∨
      ∃ v, NestedString obj (pathToSegments f.1) = .ok (some v) ∧ f.2.MatchString v = true := by
  induction filters with
  | nil => simp
  | cons f rest ih =>
    obtain ⟨path, re⟩ := f
    simp only [checkPathValueFilters] at h
    cases hn : NestedString obj (pathToSegments path) with
    | error e => simp [hn] at h
    | ok o =>
      cases o with
      | none =>
        simp only [hn] at h
        intro g hg
        rcases List.mem_cons.1 hg with rfl | hg'
        · exact Or.inl hn
        · exact ih h g hg'
      | some v =>
        simp only [hn] at h
        by_cases hm : re.MatchString v = true
        · simp only [hm, Bool.not_true, Bool.false_eq_true, if_false] at h
          intro g hg
          rcases List.mem_cons.1 hg with rfl | hg'
          · exact Or.inr ⟨v, hn, hm⟩
          · exact ih h g hg'
        · simp [hm] at h

/-- The steps of a pass of `Sanitize` that returns a record. -/
theorem Sanitize_steps (parseTime : String → Option Int) (obj : JMap)
    (ignoreNames : List Regexp) (pathValueFilters : List (String × Regexp))
    (keepAnnotations keepLabels : List Regexp) (keepPaths ignorePaths : List String)
    (keepDeleted : Bool) (out : JMap)
    (h : Sanitize parseTime obj ignoreNames pathValueFilters keepAnnotations keepLabels
      keepPaths ignorePaths keepDeleted = .ok (some out)) :
    matchesAny (genKey obj) ignoreNames = false ∧
    ((GetDeletionTimestamp parseTime obj).isSome && !keepDeleted) = false ∧
    checkPathValueFilters obj (genKey obj) pathValueFilters = .ok true ∧
    ∃ s, copyKeepPaths obj (copyLabels obj (copyAnnotations obj (identityRecord obj)
        keepAnnotations) keepLabels) keepPaths = .ok s ∧
      out = removeIgnorePaths s ignorePaths := by
  unfold Sanitize at h
  simp only [] at h
  by_cases h1 : matchesAny (genKey obj) ignoreNames = true
  · simp [h1] at h
  · simp only [h1, Bool.false_eq_true, if_false] at h
    by_cases h2 : ((GetDeletionTimestamp parseTime obj).isSome && !keepDeleted) = true
    · simp [h2] at h
    · simp only [h2, Bool.false_eq_true, if_false] at h
      cases h3 : checkPathValueFilters obj (genKey obj) pathValueFilters with
      | error e => simp [h3] at h
      | ok b =>
        cases b with
        | false => simp [h3] at h
        | true =>
          simp only [h3] at h
          cases h4 : copyKeepPaths obj (copyLabels obj (copyAnnotations obj (identityRecord obj)
              keepAnnotations) keepLabels) keepPaths with
          | error e => simp [h4] at h
          | ok s =>
            simp [h4] at h
            exact ⟨by simpa using h1, by simpa using h2, rfl, s, rfl, h.symm⟩

/-- A pass of `Sanitize` whose steps succeed returns the record of the two path loops. -/
theorem Sanitize_of_steps (parseTime : String → Option Int) (obj : JMap)
    (ignoreNames : List Regexp) (pathValueFilters : List (String × Regexp))
    (keepAnnotations keepLabels : List Regexp) (keepPaths ignorePaths : List String)
    (keepDeleted : Bool) (s : JMap)
    (h1 : matchesAny (genKey obj) ignoreNames = false)
    (h2 : ((GetDeletionTimestamp parseTime obj).isSome && !keepDeleted) = false)
    (h3 : checkPathValueFilters obj (genKey obj) pathValueFilters = .ok true)
    (h4 : copyKeepPaths obj (copyLabels obj (copyAnnotations obj (identityRecord obj)
        keepAnnotations) keepLabels) keepPaths = .ok s) :
    Sanitize parseTime obj ignoreNames pathValueFilters keepAnnotations keepLabels
      keepPaths ignorePaths keepDeleted = .ok (some (removeIgnorePaths s ignorePaths)) := by
  unfold Sanitize
  simp [h1, h2, h3, h4]

/-- The string read at a path of a record whose fields are fields of `b` is the string
read from `b`, or empty. -/
theorem getNestedString_sub (a b : JMap) (p : List String) (h : subFields a b) :
    getNestedString a p = getNestedString b p ∨ getNestedString a p = "" := by
  cases hn : NestedFieldNoCopy a p with
  | error e => exact Or.inr (by simp [getNestedString, NestedString, hn])
  | ok o =>
    cases o with
    | none => exact Or.inr (by simp [getNestedString, NestedString, hn])
    | some v =>
      cases v with
      | str s =>
        left
        obtain ⟨w, hw, hl⟩ := h p _ hn
        have := eq_of_leafOf_eq_some _ w _ hl rfl
        subst this
        rw [getNestedString_of_found a p s hn, getNestedString_of_found b p s hw]
      | _ => exact Or.inr (by simp [getNestedString, NestedString, hn])

/-- An ignore-path that leads to an allowed path lies strictly under a keep-path, under
the condition on the ignore-paths. -/
theorem ignorePath_under_keepPath (keepPaths ignorePaths : List String)
    (hign : ∀ ip ∈ ignorePaths,
      (∃ kp ∈ keepPaths, ∃ r, r ≠ [] ∧ pathToSegments ip = pathToSegments kp ++ r) ∨
      ¬ allowedPath keepPaths (pathToSegments ip))
    (ip : String) (hip : ip ∈ ignorePaths) (hall : allowedPath keepPaths (pathToSegments ip)) :
    ∃ kp ∈ keepPaths, ∃ r, r ≠ [] ∧ pathToSegments ip = pathToSegments kp ++ r := by
  rcases hign ip hip with h | h
  · exact h
  · exact absurd hall h

/-- A path that a pass writes, and every path that leads to it, is an allowed path. -/
theorem producedPath_allowed (obj : JMap) (keepAnnotations keepLabels : List Regexp)
    (keepPaths : List String) (q p : List String)
    (hq : producedPath obj keepAnnotations keepLabels keepPaths q) (hp : p <+: q) :
    allowedPath keepPaths p := by
  rcases hq with rfl | rfl | ⟨rfl, _⟩ | ⟨rfl, _⟩ | ⟨k, s, rfl, _⟩ | ⟨k, s, rfl, _⟩ |
    ⟨kp, hkp, rfl, _⟩
  · exact Or.inl ⟨_, by simp [identityPaths], hp⟩
  · exact Or.inl ⟨_, by simp [identityPaths], hp⟩
  · exact Or.inl ⟨_, by simp [identityPaths], hp⟩
  · exact Or.inl ⟨_, by simp [identityPaths], hp⟩
  · exact Or.inr (Or.inl ⟨k, hp⟩)
  · exact Or.inr (Or.inr (Or.inl ⟨k, hp⟩))
  · exact Or.inr (Or.inr (Or.inr ⟨kp, hkp, Or.inl hp⟩))

/-- A prefix is not longer than the list. -/
theorem isPrefix_length (a b : List String) (h : a <+: b) : a.length ≤ b.length := by
  obtain ⟨t, rfl⟩ := h
  simp

/-- A prefix of the same length is the list. -/
theorem isPrefix_eq_of_length (a b : List String) (h : a <+: b) (hl : b.length ≤ a.length) :
    a = b := by
  obtain ⟨t, rfl⟩ := h
  have : t = [] := by
    cases t with
    | nil => rfl
    | cons x xs =>
      simp only [List.length_append, List.length_cons] at hl
      omega
  simp [this]

/-- No ignore-path leads to an identity field, under the conditions on the
ignore-paths: such a path would be `metadata/name` or `metadata/namespace`. -/
theorem ignorePath_not_above_identity (keepPaths ignorePaths : List String)
    (hign1 : ∀ ip ∈ ignorePaths, pathToSegments ip ≠ ["metadata", "name"] ∧
      pathToSegments ip ≠ ["metadata", "namespace"])
    (hign2 : ∀ ip ∈ ignorePaths,
      (∃ kp ∈ keepPaths, ∃ r, r ≠ [] ∧ pathToSegments ip = pathToSegments kp ++ r) ∨
      ¬ allowedPath keepPaths (pathToSegments ip))
    (q : List String) (hq : q ∈ identityPaths) :
    ∀ ip ∈ ignorePaths, ¬ pathToSegments ip <+: q := by
  intro ip hip hpre
  obtain ⟨kp, _, r, hr, heq⟩ := ignorePath_under_keepPath keepPaths ignorePaths hign2 ip hip
    (Or.inl ⟨q, hq, hpre⟩)
  have hlen := isPrefix_length _ _ hpre
  have hkp : (pathToSegments kp).length ≥ 1 := by
    cases hk : pathToSegments kp with
    | nil => exact absurd hk (pathToSegments_ne_nil kp)
    | cons x xs => simp
  have hrl : r.length ≥ 1 := by
    cases r with
    | nil => exact absurd rfl hr
    | cons x xs => simp
  have hiplen : (pathToSegments ip).length ≥ 2 := by
    rw [heq, List.length_append]
    omega
  simp only [identityPaths, List.mem_cons, List.mem_singleton, List.not_mem_nil, or_false] at hq
  rcases hq with rfl | rfl | rfl | rfl
  · simp at hlen
    omega
  · simp at hlen
    omega
  · exact (hign1 ip hip).1 (isPrefix_eq_of_length _ _ hpre (by simpa using hiplen))
  · exact (hign1 ip hip).2 (isPrefix_eq_of_length _ _ hpre (by simpa using hiplen))

/-- After the loop over the keep-paths the new record agrees with `obj` on every path
that the pass writes, when the `apiVersion` and `kind` of `obj` are strings. -/
theorem pass_agrees (obj : JMap) (keepAnnotations keepLabels : List Regexp)
    (keepPaths : List String) (t : JMap)
    (hv : ∃ s, NestedFieldNoCopy obj ["apiVersion"] = .ok (some (.str s)))
    (hk : ∃ s, NestedFieldNoCopy obj ["kind"] = .ok (some (.str s)))
    (ht : copyKeepPaths obj (copyLabels obj (copyAnnotations obj (identityRecord obj)
        keepAnnotations) keepLabels) keepPaths = .ok t)
    (q : List String) (hq : producedPath obj keepAnnotations keepLabels keepPaths q) :
    ∃ v, NestedFieldNoCopy obj q = .ok (some v) ∧ NestedFieldNoCopy t q = .ok (some v) := by
  have base : producedPath obj keepAnnotations keepLabels [] q →
      ∃ v, NestedFieldNoCopy obj q = .ok (some v) ∧ NestedFieldNoCopy t q = .ok (some v) := by
    intro hq0
    obtain ⟨v, h1, h2⟩ := baseRecord_agrees obj keepAnnotations keepLabels hv hk q hq0
    exact ⟨v, h1, copyKeepPaths_keeps obj q v h1 keepPaths _ t ht h2⟩
  rcases hq with h | h | h | h | h | h | ⟨kp, hkp, rfl, v, hv'⟩
  · exact base (Or.inl h)
  · exact base (Or.inr (Or.inl h))
  · exact base (Or.inr (Or.inr (Or.inl h)))
  · exact base (Or.inr (Or.inr (Or.inr (Or.inl h))))
  · exact base (Or.inr (Or.inr (Or.inr (Or.inr (Or.inl h)))))
  · exact base (Or.inr (Or.inr (Or.inr (Or.inr (Or.inr (Or.inl h))))))
  · exact ⟨v, hv', copyKeepPaths_copies obj kp v hv' keepPaths hkp _ t ht⟩

/-- Every path found after the loop over the keep-paths is comparable with a path that
the pass writes. -/
theorem pass_produced (obj : JMap) (keepAnnotations keepLabels : List Regexp)
    (keepPaths : List String) (t : JMap)
    (ht : copyKeepPaths obj (copyLabels obj (copyAnnotations obj (identityRecord obj)
        keepAnnotations) keepLabels) keepPaths = .ok t) :
    ∀ p w, NestedFieldNoCopy t p = .ok (some w) →
      ∃ q, producedPath obj keepAnnotations keepLabels keepPaths q ∧ (p <+: q ∨ q <+: p) := by
  refine copyKeepPaths_produced obj keepAnnotations keepLabels keepPaths keepPaths
    (fun q hq => hq) _ t ht ?_
  intro p w hp
  obtain ⟨q, hq, hpq⟩ := baseRecord_produced obj keepAnnotations keepLabels keepPaths p w hp
  exact ⟨q, hq, Or.inl hpq⟩

/-- After the loop over the keep-paths the fields of the new record are fields of `obj`,
when the `apiVersion` and `kind` of `obj` are strings. -/
theorem pass_sub (obj : JMap) (keepAnnotations keepLabels : List Regexp)
    (keepPaths : List String) (t : JMap)
    (hv : ∃ s, NestedFieldNoCopy obj ["apiVersion"] = .ok (some (.str s)))
    (hk : ∃ s, NestedFieldNoCopy obj ["kind"] = .ok (some (.str s)))
    (ht : copyKeepPaths obj (copyLabels obj (copyAnnotations obj (identityRecord obj)
        keepAnnotations) keepLabels) keepPaths = .ok t) : subFields t obj :=
  copyKeepPaths_sub obj keepPaths _ t ht (baseRecord_sub obj keepAnnotations keepLabels hv hk)

/-- A string map of `obj` at `a`, part of which is kept by a pass, is read as a string
map from the record that the pass returns. -/
theorem pass_stringMap (obj sanObj t : JMap) (keepPaths ignorePaths : List String)
    (a : List String) (smo : List (String × String))
    (ho : NestedStringMap obj a = .ok (some smo))
    (hbase : ∀ x, NestedFieldNoCopy sanObj a = .ok (some (.obj x)) →
      ∃ sm, toStringMap x = some sm)
    (ht : copyKeepPaths obj sanObj keepPaths = .ok t) (k : String) (v : JVal)
    (hs : NestedFieldNoCopy (removeIgnorePaths t ignorePaths) (a ++ [k]) = .ok (some v)) :
    ∃ sms s, NestedStringMap (removeIgnorePaths t ignorePaths) a = .ok (some sms) ∧
      mapGet sms k = some s := by
  obtain ⟨mo, hmo, hsmo⟩ := NestedStringMap_some obj a smo ho
  have hJ := removeIgnorePaths_stringMap a ignorePaths t
    (copyKeepPaths_stringMap obj a mo smo hmo hsmo keepPaths sanObj t ht hbase)
  obtain ⟨u, hu, huk⟩ := nestedFrom_append_found _ _ a [k] hs
  obtain ⟨m, rfl⟩ := nestedFrom_found_obj u k [] v huk
  obtain ⟨sms, hsms⟩ := hJ m hu
  have hread : NestedStringMap (removeIgnorePaths t ignorePaths) a = .ok (some sms) := by
    have hu' : NestedFieldNoCopy (removeIgnorePaths t ignorePaths) a = .ok (some (.obj m)) := hu
    simp [NestedStringMap, hu', hsms]
  rw [nestedFrom_obj_cons, mapGet_of_toStringMap m sms k hsms] at huk
  cases hg : mapGet sms k with
  | none => simp [hg] at huk
  | some s => exact ⟨sms, s, hread, hg⟩

/-- A path that the first pass writes and that is found in its result is written by the
second pass. -/
theorem produced_again (obj t : JMap) (keepAnnotations keepLabels : List Regexp)
    (keepPaths ignorePaths : List String)
    (ht : copyKeepPaths obj (copyLabels obj (copyAnnotations obj (identityRecord obj)
        keepAnnotations) keepLabels) keepPaths = .ok t)
    (hname : GetName (removeIgnorePaths t ignorePaths) = GetName obj)
    (hns : GetNamespace (removeIgnorePaths t ignorePaths) = GetNamespace obj)
    (q : List String) (hq : producedPath obj keepAnnotations keepLabels keepPaths q)
    (u : JVal) (hu : NestedFieldNoCopy (removeIgnorePaths t ignorePaths) q = .ok (some u)) :
    producedPath (removeIgnorePaths t ignorePaths) keepAnnotations keepLabels keepPaths q := by
  obtain ⟨bA, bL⟩ := baseRecord_annotations_labels obj keepAnnotations keepLabels
  rcases hq with h | h | ⟨h, hn⟩ | ⟨h, hn⟩ | ⟨k, s, rfl, hks⟩ | ⟨k, s, rfl, hks⟩ |
    ⟨kp, hkp, rfl, _⟩
  · exact Or.inl h
  · exact Or.inr (Or.inl h)
  · exact Or.inr (Or.inr (Or.inl ⟨h, by rw [hname]; exact hn⟩))
  · exact Or.inr (Or.inr (Or.inr (Or.inl ⟨h, by rw [hns]; exact hn⟩)))
  · have hm := (kept_annotation_found obj keepAnnotations k s hks).1
    have hG : ∃ smo, NestedStringMap obj ["metadata", "annotations"] = .ok (some smo) := by
      cases hGA : GetAnnotations obj with
      | none => simp [hGA, keepMatching, mapGet] at hks
      | some smo =>
        unfold GetAnnotations at hGA
        cases hN : NestedStringMap obj ["metadata", "annotations"] with
        | error e => simp [hN] at hGA
        | ok o =>
          simp only [hN] at hGA
          exact ⟨smo, by rw [hGA]⟩
    obtain ⟨smo, hsmo⟩ := hG
    have hbase : ∀ x, NestedFieldNoCopy (copyLabels obj (copyAnnotations obj (identityRecord obj)
        keepAnnotations) keepLabels) ["metadata", "annotations"] = .ok (some (.obj x)) →
        ∃ sm, toStringMap x = some sm := by
      intro x hx
      rw [bA] at hx
      split at hx
      · simp at hx
      · simp at hx
        subst hx
        exact ⟨_, toStringMap_ofStringMap _⟩
    obtain ⟨sms, s', hread, hget⟩ := pass_stringMap obj _ t keepPaths ignorePaths
      ["metadata", "annotations"] smo hsmo hbase ht k u hu
    refine Or.inr (Or.inr (Or.inr (Or.inr (Or.inl ⟨k, s', rfl, ?_⟩))))
    rw [mapGet_keepMatching]
    simp [hm, GetAnnotations, hread, hget]
  · have hm := (kept_label_found obj keepLabels k s hks).1
    have hG : ∃ smo, NestedStringMap obj ["metadata", "labels"] = .ok (some smo) := by
      cases hGA : GetLabels obj with
      | none => simp [hGA, keepMatching, mapGet] at hks
      | some smo =>
        unfold GetLabels at hGA
        cases hN : NestedStringMap obj ["metadata", "labels"] with
        | error e => simp [hN] at hGA
        | ok o =>
          simp only [hN] at hGA
          exact ⟨smo, by rw [hGA]⟩
    obtain ⟨smo, hsmo⟩ := hG
    have hbase : ∀ x, NestedFieldNoCopy (copyLabels obj (copyAnnotations obj (identityRecord obj)
        keepAnnotations) keepLabels) ["metadata", "labels"] = .ok (some (.obj x)) →
        ∃ sm, toStringMap x = some sm := by
      intro x hx
      rw [bL] at hx
      split at hx
      · simp at hx
      · simp at hx
        subst hx
        exact ⟨_, toStringMap_ofStringMap _⟩
    obtain ⟨sms, s', hread, hget⟩ := pass_stringMap obj _ t keepPaths ignorePaths
      ["metadata", "labels"] smo hsmo hbase ht k u hu
    refine Or.inr (Or.inr (Or.inr (Or.inr (Or.inr (Or.inl ⟨k, s', rfl, ?_⟩)))))
    rw [mapGet_keepMatching]
    simp [hm, GetLabels, hread, hget]
  · exact Or.inr (Or.inr (Or.inr (Or.inr (Or.inr (Or.inr ⟨kp, hkp, rfl, u, hu⟩)))))

/-! ### Idempotence: the second pass -/

/-- A string of `obj` at a path that the pass writes and that no ignore-path removes is
the string at that path of the record that the pass returns. -/
theorem pass_keeps_string (obj : JMap) (keepAnnotations keepLabels : List Regexp)
    (keepPaths ignorePaths : List String) (t : JMap)
    (hv : ∃ s, NestedFieldNoCopy obj ["apiVersion"] = .ok (some (.str s)))
    (hk : ∃ s, NestedFieldNoCopy obj ["kind"] = .ok (some (.str s)))
    (ht : copyKeepPaths obj (copyLabels obj (copyAnnotations obj (identityRecord obj)
        keepAnnotations) keepLabels) keepPaths = .ok t)
    (q : List String) (hq : producedPath obj keepAnnotations keepLabels keepPaths q)
    (hn : ∀ ip ∈ ignorePaths, ¬ pathToSegments ip <+: q) (s : String)
    (hs : NestedFieldNoCopy obj q = .ok (some (.str s))) :
    NestedFieldNoCopy (removeIgnorePaths t ignorePaths) q = .ok (some (.str s)) := by
  obtain ⟨v, h1, h2⟩ := pass_agrees obj keepAnnotations keepLabels keepPaths t hv hk ht q hq
  rw [hs] at h1
  cases h1
  obtain ⟨w, hw, hl⟩ := removeIgnorePaths_keeps ignorePaths t q _ hn h2
  rw [eq_of_leafOf_eq_some (.str s) w (.str s) hl rfl] at hw
  exact hw

/-- The string read at a path is the same before and after a pass, when the pass writes
the path whenever the string is not empty and no ignore-path removes it. -/
theorem pass_string_eq (obj : JMap) (keepAnnotations keepLabels : List Regexp)
    (keepPaths ignorePaths : List String) (t : JMap)
    (hv : ∃ s, NestedFieldNoCopy obj ["apiVersion"] = .ok (some (.str s)))
    (hk : ∃ s, NestedFieldNoCopy obj ["kind"] = .ok (some (.str s)))
    (ht : copyKeepPaths obj (copyLabels obj (copyAnnotations obj (identityRecord obj)
        keepAnnotations) keepLabels) keepPaths = .ok t)
    (q : List String)
    (hq : getNestedString obj q ≠ "" →
      producedPath obj keepAnnotations keepLabels keepPaths q)
    (hn : ∀ ip ∈ ignorePaths, ¬ pathToSegments ip <+: q) :
    getNestedString (removeIgnorePaths t ignorePaths) q = getNestedString obj q := by
  have hsub : subFields (removeIgnorePaths t ignorePaths) obj :=
    subVal_trans _ _ _ (removeIgnorePaths_sub ignorePaths t)
      (pass_sub obj keepAnnotations keepLabels keepPaths t hv hk ht)
  by_cases h0 : getNestedString obj q = ""
  · rcases getNestedString_sub _ obj q hsub with h | h
    · exact h
    · rw [h, h0]
  · exact getNestedString_of_found _ q _
      (pass_keeps_string obj keepAnnotations keepLabels keepPaths ignorePaths t hv hk ht q
        (hq h0) hn _ (found_of_getNestedString obj q h0))

/-- C11, amended.  Idempotence of `Sanitize`: when a pass over a record whose
`apiVersion` and `kind` are strings returns a record `out`, and no ignore-path is
`metadata/name` or `metadata/namespace`, and every ignore-path lies strictly under a
keep-path or is not an allowed path of the policy, then a second pass with the same
policy over `out` returns a record (it is neither dropped nor turned into an error) with
the same fields as `out`: the same paths are found in both, with the same values at the
paths that do not hold a mapping. -/
theorem Sanitize_idempotent (parseTime : String → Option Int) (obj : JMap)
    (ignoreNames : List Regexp) (pathValueFilters : List (String × Regexp))
    (keepAnnotations keepLabels : List Regexp) (keepPaths ignorePaths : List String)
    (keepDeleted : Bool) (out : JMap)
    (h : Sanitize parseTime obj ignoreNames pathValueFilters keepAnnotations keepLabels
      keepPaths ignorePaths keepDeleted = .ok (some out))
    (hv : ∃ s, NestedFieldNoCopy obj ["apiVersion"] = .ok (some (.str s)))
    (hk : ∃ s, NestedFieldNoCopy obj ["kind"] = .ok (some (.str s)))
    (hign1 : ∀ ip ∈ ignorePaths, pathToSegments ip ≠ ["metadata", "name"] ∧
      pathToSegments ip ≠ ["metadata", "namespace"])
    (hign2 : ∀ ip ∈ ignorePaths,
      (∃ kp ∈ keepPaths, ∃ r, r ≠ [] ∧ pathToSegments ip = pathToSegments kp ++ r) ∨
      ¬ allowedPath keepPaths (pathToSegments ip)) :
    ∃ out', Sanitize parseTime out ignoreNames pathValueFilters keepAnnotations keepLabels
      keepPaths ignorePaths keepDeleted = .ok (some out') ∧ sameFields out' out := by
  obtain ⟨s1, s2, s3, t, ht, hout⟩ := Sanitize_steps parseTime obj ignoreNames
    pathValueFilters keepAnnotations keepLabels keepPaths ignorePaths keepDeleted out h
  subst hout
  have hST : subFields (removeIgnorePaths t ignorePaths) t := removeIgnorePaths_sub ignorePaths t
  have hSR : subFields (removeIgnorePaths t ignorePaths) obj :=
    subVal_trans _ _ _ hST (pass_sub obj keepAnnotations keepLabels keepPaths t hv hk ht)
  have hid := ignorePath_not_above_identity keepPaths ignorePaths hign1 hign2
  obtain ⟨sv, hsv⟩ := hv
  obtain ⟨sk, hsk⟩ := hk
  have hvS : NestedFieldNoCopy (removeIgnorePaths t ignorePaths) ["apiVersion"] =
      .ok (some (.str sv)) :=
    pass_keeps_string obj keepAnnotations keepLabels keepPaths ignorePaths t ⟨sv, hsv⟩
      ⟨sk, hsk⟩ ht _ (Or.inl rfl) (hid _ (by simp [identityPaths])) sv hsv
  have hkS : NestedFieldNoCopy (removeIgnorePaths t ignorePaths) ["kind"] =
      .ok (some (.str sk)) :=
    pass_keeps_string obj keepAnnotations keepLabels keepPaths ignorePaths t ⟨sv, hsv⟩
      ⟨sk, hsk⟩ ht _ (Or.inr (Or.inl rfl)) (hid _ (by simp [identityPaths])) sk hsk
  have hname : GetName (removeIgnorePaths t ignorePaths) = GetName obj :=
    pass_string_eq obj keepAnnotations keepLabels keepPaths ignorePaths t ⟨sv, hsv⟩
      ⟨sk, hsk⟩ ht _ (fun h0 => Or.inr (Or.inr (Or.inl ⟨rfl, h0⟩)))
      (hid _ (by simp [identityPaths]))
  have hns : GetNamespace (removeIgnorePaths t ignorePaths) = GetNamespace obj :=
    pass_string_eq obj keepAnnotations keepLabels keepPaths ignorePaths t ⟨sv, hsv⟩
      ⟨sk, hsk⟩ ht _ (fun h0 => Or.inr (Or.inr (Or.inr (Or.inl ⟨rfl, h0⟩))))
      (hid _ (by simp [identityPaths]))
  have hkey : genKey (removeIgnorePaths t ignorePaths) = genKey obj := by
    unfold genKey
    rw [hname, hns]
  have s1' : matchesAny (genKey (removeIgnorePaths t ignorePaths)) ignoreNames = false := by
    rw [hkey]
    exact s1
  have s2' : ((GetDeletionTimestamp parseTime (removeIgnorePaths t ignorePaths)).isSome &&
      !keepDeleted) = false := by
    rcases getNestedString_sub _ obj ["metadata", "deletionTimestamp"] hSR with hd | hd
    · have e : GetDeletionTimestamp parseTime (removeIgnorePaths t ignorePaths) =
          GetDeletionTimestamp parseTime obj := by
        unfold GetDeletionTimestamp
        rw [hd]
      rw [e]
      exact s2
    · have e : GetDeletionTimestamp parseTime (removeIgnorePaths t ignorePaths) = none := by
        unfold GetDeletionTimestamp
        simp [hd]
      simp [e]
  have s3' : checkPathValueFilters (removeIgnorePaths t ignorePaths)
      (genKey (removeIgnorePaths t ignorePaths)) pathValueFilters = .ok true := by
    apply checkPathValueFilters_pass
    intro f hf
    rcases checkPathValueFilters_true obj _ pathValueFilters s3 f hf with h0 | ⟨v, h1, h2⟩
    · rcases NestedString_sub _ obj _ none hSR h0 with h | h <;> exact Or.inl h
    · rcases NestedString_sub _ obj _ (some v) hSR h1 with h | h
      · exact Or.inl h
      · exact Or.inr ⟨v, h, h2⟩
  have hbaseS := baseRecord_sub (removeIgnorePaths t ignorePaths) keepAnnotations keepLabels
    ⟨sv, hvS⟩ ⟨sk, hkS⟩
  have hokS : ∀ kp ∈ keepPaths,
      ∃ r, NestedFieldNoCopy (removeIgnorePaths t ignorePaths) (pathToSegments kp) = .ok r := by
    intro kp hkp
    cases hn : NestedFieldNoCopy (removeIgnorePaths t ignorePaths) (pathToSegments kp) with
    | ok r => exact ⟨r, rfl⟩
    | error e =>
      obtain ⟨e', he'⟩ := subVal_error _ _ _ e hSR hn
      obtain ⟨r, hr⟩ := copyKeepPaths_ok obj keepPaths _ t ht kp hkp
      have hr' : nestedFrom (.obj obj) (pathToSegments kp) = .ok r := hr
      rw [hr'] at he'
      cases he'
  obtain ⟨t', ht'⟩ := copyKeepPaths_succeeds (removeIgnorePaths t ignorePaths) keepPaths _
    hokS hbaseS
  refine ⟨_, Sanitize_of_steps parseTime _ ignoreNames pathValueFilters keepAnnotations
    keepLabels keepPaths ignorePaths keepDeleted t' s1' s2' s3' ht', ?_⟩
  have hS'S : subFields (removeIgnorePaths t' ignorePaths) (removeIgnorePaths t ignorePaths) :=
    subVal_trans _ _ _ (removeIgnorePaths_sub ignorePaths t')
      (copyKeepPaths_sub _ keepPaths _ t' ht' hbaseS)
  have M : ∀ n q, q.length = n → producedPath obj keepAnnotations keepLabels keepPaths q →
      ∀ p v, NestedFieldNoCopy (removeIgnorePaths t ignorePaths) p = .ok (some v) →
        (p <+: q ∨ q <+: p) →
        ∃ w, NestedFieldNoCopy (removeIgnorePaths t' ignorePaths) p = .ok (some w) := by
    intro n
    induction n using Nat.strong_induction_on with
    | _ n ih =>
      intro q hlen hq p v hp hc
      have hnoip : ∀ ip ∈ ignorePaths, ¬ pathToSegments ip <+: p :=
        fun ip hip hpre => removeIgnorePaths_gone ignorePaths t ip hip p hpre v hp
      by_cases hSq : ∃ u, NestedFieldNoCopy (removeIgnorePaths t ignorePaths) q = .ok (some u)
      · obtain ⟨u, hu⟩ := hSq
        have hqS := produced_again obj t keepAnnotations keepLabels keepPaths ignorePaths ht
          hname hns q hq u hu
        obtain ⟨u', hu1, hu2⟩ := pass_agrees _ keepAnnotations keepLabels keepPaths t'
          ⟨sv, hvS⟩ ⟨sk, hkS⟩ ht' q hqS
        rcases hc with ⟨r, rfl⟩ | ⟨r, rfl⟩
        · have hnoq : ∀ ip ∈ ignorePaths, ¬ pathToSegments ip <+: (p ++ r) :=
            fun ip hip hpre => removeIgnorePaths_gone ignorePaths t ip hip _ hpre u hu
          obtain ⟨w, hw, _⟩ := removeIgnorePaths_keeps ignorePaths t' (p ++ r) u' hnoq hu2
          obtain ⟨x, hx, _⟩ := nestedFrom_append_found _ _ p r hw
          exact ⟨x, hx⟩
        · have hT'p : NestedFieldNoCopy t' (q ++ r) = .ok (some v) := by
            have e1 := nestedFrom_append _ _ q r hu2
            have e2 := nestedFrom_append _ _ q r hu1
            unfold NestedFieldNoCopy
            rw [e1, ← e2]
            exact hp
          obtain ⟨w, hw, _⟩ := removeIgnorePaths_keeps ignorePaths t' _ v hnoip hT'p
          exact ⟨w, hw⟩
      · obtain ⟨x, hxR, hxT⟩ := pass_agrees obj keepAnnotations keepLabels keepPaths t
          ⟨sv, hsv⟩ ⟨sk, hsk⟩ ht q hq
        have hex : ∃ ip ∈ ignorePaths, pathToSegments ip <+: q := by
          by_contra hcon
          push_neg at hcon
          obtain ⟨w, hw, _⟩ := removeIgnorePaths_keeps ignorePaths t q x hcon hxT
          exact hSq ⟨w, hw⟩
        obtain ⟨ip, hip, hpre⟩ := hex
        obtain ⟨kp, hkp, r, hr, heq⟩ := ignorePath_under_keepPath keepPaths ignorePaths hign2
          ip hip (producedPath_allowed obj keepAnnotations keepLabels keepPaths q _ hq hpre)
        have hkq : pathToSegments kp <+: q := isPrefix_trans _ _ _ ⟨r, heq.symm⟩ hpre
        have hlt : (pathToSegments kp).length < q.length := by
          have h1 := isPrefix_length _ _ hpre
          rw [heq] at h1
          simp at h1
          have h2 : 0 < r.length := List.length_pos.2 hr
          omega
        have hkpR : ∃ y, NestedFieldNoCopy obj (pathToSegments kp) = .ok (some y) := by
          obtain ⟨r2, hr2⟩ := hkq
          rw [← hr2] at hxR
          obtain ⟨y, hy, _⟩ := nestedFrom_append_found _ _ _ r2 hxR
          exact ⟨y, hy⟩
        have hkprod : producedPath obj keepAnnotations keepLabels keepPaths
            (pathToSegments kp) :=
          Or.inr (Or.inr (Or.inr (Or.inr (Or.inr (Or.inr ⟨kp, hkp, rfl, hkpR⟩)))))
        have hcomp : p <+: pathToSegments kp ∨ pathToSegments kp <+: p := by
          rcases hc with hpq | hqp
          · exact isPrefix_comparable _ _ _ hpq hkq
          · exfalso
            obtain ⟨r3, rfl⟩ := hqp
            obtain ⟨y, hy, _⟩ := nestedFrom_append_found _ _ q r3 hp
            exact hSq ⟨y, hy⟩
        exact ih _ (hlen ▸ hlt) (pathToSegments kp) rfl hkprod p v hp hcomp
  refine ⟨hS'S, ?_⟩
  intro p v hp
  obtain ⟨w0, hw0, _⟩ := hST p v hp
  obtain ⟨q, hq, hc⟩ := pass_produced obj keepAnnotations keepLabels keepPaths t ht p w0 hw0
  obtain ⟨w, hw⟩ := M _ q rfl hq p v hp hc
  obtain ⟨v', hv', hl⟩ := hS'S p w hw
  rw [hp] at hv'
  cases hv'
  exact ⟨w, hw, hl.symm⟩

/-- C11, counterexample.  Three first passes that return a record on which the second
pass with the same policy does not return the same record, with no keep-path present in
the first result.  Under the ignore-path `metadata/namespace` the key changes from
`default/web` to `web`, which the ignore-name `^web$` matches: the second pass drops the
record.  With `spec/nodeName` as keep-path and ignore-path the first pass leaves an empty
`spec`, which the second pass does not write.  For a record without a `kind` the first
pass writes the empty `kind`, which the filter `kind=^Pod$` rejects in the second pass. -/
theorem Sanitize_idempotent_counterexample :
    (Sanitize exampleParseTime podWeb [reWeb] [] [] [] [] ["metadata/namespace"] false =
        .ok (some podWebNoNamespace) ∧
      Sanitize exampleParseTime podWebNoNamespace [reWeb] [] [] [] [] ["metadata/namespace"]
        false = .ok none) ∧
    (Sanitize exampleParseTime podWeb [] [] [] [] ["spec/nodeName"] ["spec/nodeName"] false =
        .ok (some podWebEmptySpec) ∧
      NestedFieldNoCopy podWebEmptySpec (pathToSegments "spec/nodeName") = .ok none ∧
      Sanitize exampleParseTime podWebEmptySpec [] [] [] [] ["spec/nodeName"]
        ["spec/nodeName"] false = .ok (some podWebIdentity) ∧
      ¬ sameFields podWebIdentity podWebEmptySpec) ∧
    (Sanitize exampleParseTime podNoKind [] [("kind", rePod)] [] [] [] [] false =
        .ok (some podNoKindSanitized) ∧
      Sanitize exampleParseTime podNoKindSanitized [] [("kind", rePod)] [] [] [] [] false =
        .ok none) := by
  refine ⟨⟨rfl, rfl⟩, ⟨rfl, rfl, rfl, ?_⟩, ⟨rfl, rfl⟩⟩
  intro hsame
  obtain ⟨w, hw, _⟩ := hsame.2 ["spec"] (.obj []) rfl
  have h0 : nestedFrom (.obj podWebIdentity) ["spec"] = .ok none := rfl
  rw [h0] at hw
  cases hw

/-- Witness for `Sanitize_idempotent`: `podWeb` under the patterns `^app\.`, the
keep-path `spec` and the ignore-path `spec/priority`. -/
theorem Sanitize_idempotent_witness :
    ∃ out', Sanitize exampleParseTime podWebSanitized [reKubeSystem] [] [reApp] [reApp]
      ["spec"] ["spec/priority"] false = .ok (some out') ∧ sameFields out' podWebSanitized :=
  Sanitize_idempotent exampleParseTime podWeb [reKubeSystem] [] [reApp] [reApp]
    ["spec"] ["spec/priority"] false podWebSanitized rfl ⟨"v1", rfl⟩ ⟨"Pod", rfl⟩
    (by
      intro ip hip
      rw [List.mem_singleton.1 hip]
      exact ⟨by decide, by decide⟩)
    (by
      intro ip hip
      rw [List.mem_singleton.1 hip]
      exact Or.inl ⟨"spec", List.mem_singleton.2 rfl, ["priority"], by decide, by decide⟩)

end Mcfetcher
